import Mathlib

/-!
# Resolution prover (`resolution_prover.cpp`): a shallow embedding

The C++ program reads a knowledge-base line and a conclusion line, parses both
with a recursive-descent parser, converts the sentences to clauses and runs a
naive resolution search.  The definitions below follow the source function by
function.  Loops and recursions that are not structural carry a `fuel`
argument; running out of fuel is the result `none`, which is distinct from
every result the program can produce.
-/

namespace ResolutionProver

/-! ## Expression trees -/

/-- Expression tree, `struct Node` with its `NodeType` tag. -/
inductive Node where
  | Var (name : String)
  | Not (a : Node)
  | And (a b : Node)
  | Or (a b : Node)
  | Imp (a b : Node)
  | Iff (a b : Node)
deriving DecidableEq, Repr

/-- Field `name` of a node: set for `VAR`, the empty string otherwise. -/
def Node.name : Node → String
  | .Var s => s
  | _ => ""

/-! ## Lexer -/

inductive TokType where
  | TOK_END | TOK_LP | TOK_RP | TOK_NOT | TOK_AND | TOK_OR | TOK_IMP | TOK_IFF
  | TOK_COMMA | TOK_VAR
deriving DecidableEq, Repr

/-- The global lexer and parser state.  The pair (`input`, `posi`) of the source
is kept as the unread suffix `input[posi..]`, here `rest`: nothing in the
program reads in front of `posi`. -/
structure PState where
  rest : List Char
  token : String
  toktype : TokType
  syntax_error_flag : Bool
  syntax_error_msg : String
deriving DecidableEq, Repr

/-- The function `isspace` of the C locale. -/
def isspace (c : Char) : Bool :=
  c.toNat = 32 || (9 ≤ c.toNat && c.toNat ≤ 13)

/-- The function `isupper` of the C locale. -/
def isupper (c : Char) : Bool := 65 ≤ c.toNat && c.toNat ≤ 90

/-- The function `isalpha` of the C locale. -/
def isalpha (c : Char) : Bool :=
  (65 ≤ c.toNat && c.toNat ≤ 90) || (97 ≤ c.toNat && c.toNat ≤ 122)

/-- The function `isdigit`. -/
def isdigit (c : Char) : Bool := 48 ≤ c.toNat && c.toNat ≤ 57

def isVarStart (c : Char) : Bool := isupper c

def isVarChar (c : Char) : Bool := isalpha c || isdigit c

def skip_spaces (st : PState) : PState :=
  { st with rest := st.rest.dropWhile isspace }

def next_token (st0 : PState) : PState :=
  let st := skip_spaces st0
  match st.rest with
  | [] => { st with toktype := .TOK_END, token := "" }
  | c :: cs =>
    if c = '(' then { st with rest := cs, toktype := .TOK_LP, token := "(" }
    else if c = ')' then { st with rest := cs, toktype := .TOK_RP, token := ")" }
    else if c = '!' then { st with rest := cs, toktype := .TOK_NOT, token := "!" }
    else if c = '+' then { st with rest := cs, toktype := .TOK_AND, token := "+" }
    else if c = '-' then { st with rest := cs, toktype := .TOK_OR, token := "-" }
    else if c = '>' then { st with rest := cs, toktype := .TOK_IMP, token := ">" }
    else if c = '=' then { st with rest := cs, toktype := .TOK_IFF, token := "=" }
    else if c = ',' then { st with rest := cs, toktype := .TOK_COMMA, token := "," }
    else if isVarStart c then
      { st with rest := cs.dropWhile isVarChar,
                token := String.mk (c :: cs.takeWhile isVarChar),
                toktype := .TOK_VAR }
    else
      -- unknown char -> treat as error by consuming one char
      { st with token := String.mk [c], rest := cs, toktype := .TOK_END }

/-! ## Parser -/

/-- Result of a parsing function: `none` when the fuel ran out, otherwise the
returned pointer (`none` for `nullptr`) and the new global state. -/
abbrev PResult := Option (Option Node × PState)

/-- The `while(op == toktype)` loop of `parse_binary`. -/
def parse_binary_loop (make_node : Node → Node → Node) (op : TokType)
    (subparser : PState → PResult) : Nat → Node → PState → PResult
  | 0, _, _ => none
  | fuel + 1, left, st =>
    if op = st.toktype then
      match subparser (next_token st) with
      | none => none
      | some (none, st1) => some (none, st1)
      | some (some right, st1) =>
        parse_binary_loop make_node op subparser fuel (make_node left right) st1
    else some (some left, st)

def parse_binary (fuel : Nat) (make_node : Node → Node → Node) (op : TokType)
    (subparser : PState → PResult) (st : PState) : PResult :=
  match subparser st with
  | none => none
  | some (none, st1) => some (none, st1)
  | some (some left, st1) => parse_binary_loop make_node op subparser fuel left st1

mutual

/-- The function `parse_primary`: VAR | !primary | (expr). -/
def parse_primary : Nat → PState → PResult
  | 0, _ => none
  | fuel + 1, st =>
    if st.toktype = .TOK_END then
      some (none, { st with syntax_error_flag := true, syntax_error_msg := "unexpected end" })
    else if st.toktype = .TOK_VAR then
      some (some (Node.Var st.token), next_token st)
    else if st.toktype = .TOK_NOT then
      match parse_primary fuel (next_token st) with
      | none => none
      | some (none, st1) => some (none, st1)
      | some (some a, st1) => some (some (Node.Not a), st1)
    else if st.toktype = .TOK_LP then
      match parse_expression fuel (next_token st) with
      | none => none
      | some (none, st1) => some (none, st1)
      | some (some a, st1) =>
        if st1.toktype ≠ .TOK_RP then
          some (none, { st1 with syntax_error_flag := true, syntax_error_msg := "missing )" })
        else some (some a, next_token st1)
    else
      some (none, { st with syntax_error_flag := true,
                            syntax_error_msg := "invalid token: " ++ st.token })

def parse_and : Nat → PState → PResult
  | 0, _ => none
  | fuel + 1, st => parse_binary fuel Node.And .TOK_AND (parse_primary fuel) st

def parse_or : Nat → PState → PResult
  | 0, _ => none
  | fuel + 1, st => parse_binary fuel Node.Or .TOK_OR (parse_and fuel) st

def parse_imp : Nat → PState → PResult
  | 0, _ => none
  | fuel + 1, st => parse_binary fuel Node.Imp .TOK_IMP (parse_or fuel) st

def parse_iff : Nat → PState → PResult
  | 0, _ => none
  | fuel + 1, st => parse_binary fuel Node.Iff .TOK_IFF (parse_imp fuel) st

def parse_expression : Nat → PState → PResult
  | 0, _ => none
  | fuel + 1, st => parse_iff fuel st

end

/-- The `while(toktype != TOK_END)` loop of `parse_sentences`; `res` is the
list built so far.  Returns the global state and the returned vector. -/
def parse_sentences_loop : Nat → PState → List Node → Option (List Node × PState)
  | 0, _, _ => none
  | fuel + 1, st, res =>
    if st.toktype ≠ .TOK_END then
      match parse_expression fuel st with
      | none => none
      | some (none, st1) => some ([], st1) -- parse error flagged
      | some (some node, st1) =>
        if st1.toktype = .TOK_COMMA then
          parse_sentences_loop fuel (next_token st1) (res ++ [node])
        else if st1.toktype = .TOK_END then some (res ++ [node], st1)
        else
          -- extra garbage
          some ([], { st1 with
            syntax_error_flag := true,
            syntax_error_msg := "unexpected token after expression: " ++ st1.token })
    else some (res, st)

/-- Fuel that is enough for a line of `n` characters. -/
def parse_fuel (n : Nat) : Nat := 6 * n + 12

/-- Helper: parse multiple sentences separated by commas into AST list.  The
globals `token`, `toktype` and the error flag and message are those of `st`;
`input` and `posi` are overwritten. -/
def parse_sentences (s : String) (st : PState) : Option (List Node × PState) :=
  parse_sentences_loop (parse_fuel s.length) (next_token { st with rest := s.data }) []

/-- The globals at program start. -/
def initial_state : PState :=
  { rest := [], token := "", toktype := .TOK_END, syntax_error_flag := false,
    syntax_error_msg := "" }

/-! ## Normalizer -/

/-- The function `eliminate_imp_iff`. -/
def eliminate_imp_iff : Node → Node
  | .Var s => .Var s
  | .Not a => .Not (eliminate_imp_iff a)
  | .Imp a b => .Or (.Not (eliminate_imp_iff a)) (eliminate_imp_iff b)
  | .Iff a b =>
    .And (.Or (.Not (eliminate_imp_iff a)) (eliminate_imp_iff b))
         (.Or (.Not (eliminate_imp_iff b)) (eliminate_imp_iff a))
  | .And a b => .And (eliminate_imp_iff a) (eliminate_imp_iff b)
  | .Or a b => .Or (eliminate_imp_iff a) (eliminate_imp_iff b)

/-- The recursion of `toNNF`, with fuel: the source recurses on freshly built
nodes, which is not structural. -/
def toNNF_go : Nat → Node → Option Node
  | 0, _ => none
  | fuel + 1, n =>
    match n with
    | .Not c =>
      match c with
      | .Var _ => some n
      | .Not a => toNNF_go fuel a
      | .And a b => toNNF_go fuel (.Or (.Not a) (.Not b))
      | .Or a b => toNNF_go fuel (.And (.Not a) (.Not b))
      | _ => some n
    | .And a b =>
      match toNNF_go fuel a, toNNF_go fuel b with
      | some l, some r => some (.And l r)
      | _, _ => none
    | .Or a b =>
      match toNNF_go fuel a, toNNF_go fuel b with
      | some l, some r => some (.Or l r)
      | _, _ => none
    | _ => some n

/-- A bound on the depth of the recursion of `toNNF`. -/
def nnf_weight : Node → Nat
  | .Var _ => 1
  | .Not a => 3 * nnf_weight a
  | .And a b => nnf_weight a + nnf_weight b + 1
  | .Or a b => nnf_weight a + nnf_weight b + 1
  | .Imp a b => nnf_weight a + nnf_weight b + 1
  | .Iff a b => nnf_weight a + nnf_weight b + 1

/-- The function `toNNF`. -/
def toNNF (n : Node) : Option Node := toNNF_go (nnf_weight n) n

/-! ## Literals and clauses -/

structure Lit where
  var : String
  neg : Bool
deriving DecidableEq, Repr

/-- Lexicographic comparison of two character sequences by character code. -/
def chars_less : List Char → List Char → Bool
  | _, [] => false
  | [], _ :: _ => true
  | a :: as, b :: bs =>
    if a.toNat < b.toNat then true
    else if b.toNat < a.toNat then false
    else chars_less as bs

/-- The `operator<` of `std::string`. -/
def string_less (a b : String) : Bool := chars_less a.data b.data

/-- The member `operator<` of `Lit`. -/
def Lit.less (a o : Lit) : Bool :=
  if a.var ≠ o.var then string_less a.var o.var else decide (a.neg < o.neg)

/-- The member `toString` of `Lit`. -/
def Lit.toString (a : Lit) : String := (if a.neg then "!" else "") ++ a.var

/-- Literal complement check. -/
def complementary (a b : Lit) : Bool := a.var == b.var && a.neg != b.neg

abbrev Clause := List Lit

/-- The call `std::sort(first, last, less)`.  Every comparator the program uses
is a strict total order, so the sorted arrangement is unique. -/
def sort {α : Type} (less : α → α → Bool) (l : List α) : List α :=
  l.insertionSort (fun a b => less b a = false)

/-- The call `erase(unique(first, last), last)`: of each run of equal
neighbours only one element is kept. -/
def unique {α : Type} [DecidableEq α] : List α → List α
  | [] => []
  | [x] => [x]
  | x :: y :: t => if x = y then unique (y :: t) else x :: unique (y :: t)

def normalize_clause (c : Clause) : Clause := unique (sort Lit.less c)

def add_clause_unique (clauses : List Clause) (c : Clause) (skip_dupCheck : Bool) :
    List Clause :=
  let c := normalize_clause c
  if !skip_dupCheck && clauses.contains c then clauses else clauses ++ [c]

/-! ## CNF converter -/

/-- First loop of the comparator in `nodeToCNF`: the first position at which
the names differ decides. -/
def cmp_var : List Lit → List Lit → Option Bool
  | a :: as, b :: bs => if a.var ≠ b.var then some (string_less a.var b.var) else cmp_var as bs
  | _, _ => none

/-- Second loop of the comparator in `nodeToCNF`. -/
def cmp_neg : List Lit → List Lit → Option Bool
  | a :: as, b :: bs => if a.neg ≠ b.neg then some (decide (a.neg < b.neg)) else cmp_neg as bs
  | _, _ => none

/-- The comparator (lambda) passed to `sort` in `nodeToCNF`. -/
def clause_less (a b : Clause) : Bool :=
  if a.length ≠ b.length then decide (a.length < b.length)
  else match cmp_var a b with
    | some r => r
    | none => match cmp_neg a b with
      | some r => r
      | none => false

/-- The function `nodeToCNF`. -/
def nodeToCNF : Node → List Clause
  | .Var name => [[{ var := name, neg := false }]]
  | .Not l => [[{ var := l.name, neg := true }]]
  | .And l r => nodeToCNF l ++ nodeToCNF r
  | .Or l r =>
    let L := nodeToCNF l
    let R := nodeToCNF r
    let out := L.foldl (fun out a => R.foldl (fun out b => add_clause_unique out (a ++ b) true) out) []
    unique (sort clause_less out)
  | _ => []

/-! ## Output format -/

/-- The loop of `clause_to_string`, from position `i` on; `s` is the string so far. -/
def clause_to_string_loop : List Lit → String → String
  | [], s => s
  | l :: rest, s =>
    clause_to_string_loop rest (if rest ≠ [] then s ++ l.toString ++ "-" else s ++ l.toString)

def clause_to_string (c : Clause) : String :=
  match c with
  | [] => "0"
  | [l] => l.toString
  | _ => clause_to_string_loop c "(" ++ ")"

/-- The loop of `CNF_to_string`. -/
def CNF_to_string_loop : List Clause → String → String
  | [], out => out
  | c :: rest, out =>
    CNF_to_string_loop rest
      (if rest ≠ [] then out ++ clause_to_string c ++ "+" else out ++ clause_to_string c)

def CNF_to_string (cnf : List Clause) : String := CNF_to_string_loop cnf ""

/-! ## Resolution -/

/-- Resolve two clauses c1 and c2, return vector of resolvents (could be multiple). -/
def Resolve (c1 c2 : Clause) : List Clause :=
  (List.range c1.length).flatMap fun i =>
    (List.range c2.length).flatMap fun j =>
      match c1[i]?, c2[j]? with
      | some a, some b =>
        if complementary a b then
          [normalize_clause (c1.take i ++ c1.drop (i + 1) ++ (c2.take j ++ c2.drop (j + 1)))]
        else []
      | _, _ => []

structure Parent where
  a : Int
  b : Int
deriving DecidableEq, Repr

structure Deriv where
  clause : Clause
  is_initial : Bool
  parent : Parent
deriving DecidableEq, Repr

/-- The map `seen`, as an association list. -/
abbrev SeenMap := List (String × Nat)

/-- The test `seen.find(key) != seen.end()`. -/
def SeenMap.has (m : SeenMap) (key : String) : Bool := m.any (fun e => e.1 == key)

/-- The assignment `seen[key] = idx`. -/
def SeenMap.set (m : SeenMap) (key : String) (idx : Nat) : SeenMap :=
  if m.has key then m.map (fun e => if e.1 == key then (key, idx) else e) else m ++ [(key, idx)]

/-- The variables of the search loop of `main`. -/
structure Search where
  all : List Deriv
  seen : SeenMap
  head : Nat
  found : Bool
  empty_index : Int
deriving DecidableEq, Repr

/-- The clause of record `i`. -/
def clause_at (all : List Deriv) (i : Nat) : Clause :=
  match all[i]? with
  | some d => d.clause
  | none => []

/-- The loop `for(auto &resolvent : resolvents)` for the pair `(j, head)`. -/
def add_resolvents (j head : Nat) : List Clause → Search → Search
  | [], s => s
  | resolvent :: rest, s =>
    let key := clause_to_string resolvent
    if s.seen.has key then add_resolvents j head rest s
    else
      let idx := s.all.length
      let s1 := { s with
        all := s.all ++ [{ clause := resolvent, is_initial := false, parent := ⟨j, head⟩ }],
        seen := s.seen.set key idx }
      if resolvent.isEmpty then { s1 with found := true, empty_index := idx }
      else add_resolvents j head rest s1

/-- One pass of the body of `for(int j = 0; j < head && !found; ++j)`. -/
def resolve_pair (s : Search) (j : Nat) : Search :=
  if s.found then s
  else add_resolvents j s.head (Resolve (clause_at s.all s.head) (clause_at s.all j)) s

/-- The body of the `while` loop: the `for` loop over `j`, then `head++`. -/
def search_step (s : Search) : Search :=
  let s1 := (List.range s.head).foldl resolve_pair s
  { s1 with head := s1.head + 1 }

/-- The loop `while(head < (int)all.size() && !found)`. -/
def search : Nat → Search → Option Search
  | 0, _ => none
  | fuel + 1, s =>
    if s.head < s.all.length ∧ s.found = false then search fuel (search_step s) else some s

/-- The state in front of the `while` loop. -/
def search_init (initClauses : List Clause) : Search :=
  { all := initClauses.map fun c => { clause := c, is_initial := true, parent := ⟨-1, -1⟩ },
    seen := (List.range initClauses.length).foldl
      (fun m i => m.set (clause_to_string (initClauses.getD i [])) i) [],
    head := 0, found := false, empty_index := -1 }

/-- Fuel that is enough for the search: the registry never holds more than the
initial records and one record for each set of literals of the input. -/
def search_fuel (initClauses : List Clause) : Nat :=
  initClauses.length + 2 ^ initClauses.flatten.length + 1

/-! ## Knowledge base assembly -/

/-- One sentence: eliminate IMP/IFF, then `toNNF`, then `nodeToCNF`, every
clause added with `add_clause_unique`. -/
def add_sentence (initClauses : List Clause) (node : Node) : Option (List Clause) :=
  match toNNF (eliminate_imp_iff node) with
  | none => none
  | some nnf =>
    some ((nodeToCNF nnf).foldl (fun cl c => add_clause_unique cl c false) initClauses)

/-- The loop `for(auto &node : kb_nodes)`. -/
def add_sentences : List Node → List Clause → Option (List Clause)
  | [], cl => some cl
  | node :: rest, cl =>
    match add_sentence cl node with
    | none => none
    | some cl1 => add_sentences rest cl1

/-- The vector `initClauses` of `main`: the knowledge base, then the negation of alpha. -/
def build_init (kb_nodes : List Node) (alpha : Node) : Option (List Clause) :=
  match add_sentences kb_nodes [] with
  | none => none
  | some cl => add_sentence cl (Node.Not alpha)

/-! ## Trace reconstruction and output -/

/-- The recursive lambda `collect`; `used` is the vector it appends to.  No
result (`none`) when the fuel runs out or an index is outside the registry. -/
def collect (all : List Deriv) : Nat → Int → List (Int × Parent) → Option (List (Int × Parent))
  | 0, _, _ => none
  | fuel + 1, idx, used =>
    if idx < 0 then none
    else match all[idx.toNat]? with
      | none => none
      | some d =>
        if d.is_initial then some used
        else
          match collect all fuel d.parent.a (used ++ [(idx, d.parent)]) with
          | none => none
          | some used1 => collect all fuel d.parent.b used1

/-- The string `s` built by the loop `for (int i = 0; i < (int)all.size(); ++i)`. -/
def needed_string (all : List Deriv) (needed : List Bool) : String :=
  (List.range all.length).foldl
    (fun s i =>
      if needed.getD i false then
        (if s ≠ "" then s ++ "+" else s) ++ clause_to_string (clause_at all i)
      else s) ""

/-- The loop `while (step < (int)used.size())`: the lines it prints. -/
def trace_lines (all : List Deriv) : List (Int × Parent) → List Bool → List String
  | [], _ => []
  | (idx, p) :: rest, needed =>
    let needed1 := ((needed.set idx.toNat true).set p.a.toNat false).set p.b.toNat false
    needed_string all needed1 :: trace_lines all rest needed1

/-- The vector `needed` in front of the output loop. -/
def needed_init (all_size init_size : Nat) : List Bool :=
  (List.range all_size).map fun i => decide (i < init_size)

/-- The branch `if(found)` of `main`: the lines printed. -/
def print_trace (initClauses : List Clause) (s : Search) : Option (List String) :=
  match collect s.all s.all.length s.empty_index [] with
  | none => none
  | some used0 =>
    let used := used0.reverse
    some (["yes", toString (used.length + 1), CNF_to_string initClauses] ++
      trace_lines s.all used (needed_init s.all.length initClauses.length))

/-- The part of `main` after parsing: the lines printed. -/
def prove (kb_nodes : List Node) (alpha : Node) : Option (List String) :=
  match build_init kb_nodes alpha with
  | none => none
  | some initClauses =>
    match search (search_fuel initClauses) (search_init initClauses) with
    | none => none
    | some s => if s.found then print_trace initClauses s else some ["no"]

/-- The function `main` on the two input lines: the lines printed. -/
def main (kb_line alpha_line : String) : Option (List String) :=
  match parse_sentences kb_line initial_state with
  | none => none
  | some (kb_nodes, st1) =>
    if st1.syntax_error_flag then some ["syntax error"]
    else
      match parse_sentences alpha_line st1 with
      | none => none
      | some (tmp, st2) =>
        match tmp with
        | [alpha] => if st2.syntax_error_flag then some ["syntax error"] else prove kb_nodes alpha
        | _ => some ["syntax error"]

/-! ## Vocabulary of the statements -/

/-- Number of characters not yet read, plus one when a token is pending. -/
def PState.measure (st : PState) : Nat :=
  st.rest.length + (if st.toktype = .TOK_END then 0 else 1)

/-- A parsing function returns on every state of measure at most `m`, and a
successful call leaves strictly less to read. -/
def Good (sub : PState → PResult) (m : Nat) : Prop :=
  ∀ st : PState, st.measure ≤ m →
    ∃ r, sub st = some r ∧ ∀ n, r.1 = some n → r.2.measure < st.measure

/-- What is assumed of a predicate `P` on states and a predicate `R` on trees to
make them invariants of the parser. -/
structure ParseInv (P : PState → Prop) (R : Node → Prop) : Prop where
  next : ∀ st, P st → P (next_token st)
  err : ∀ st msg, P st → P { st with syntax_error_flag := true, syntax_error_msg := msg }
  var : ∀ st, P st → st.toktype = .TOK_VAR → R (.Var st.token)
  not : ∀ a, R a → R (.Not a)
  and : ∀ a b, R a → R b → R (.And a b)
  or : ∀ a b, R a → R b → R (.Or a b)
  imp : ∀ a b, R a → R b → R (.Imp a b)
  iff : ∀ a b, R a → R b → R (.Iff a b)

/-- What a call of a parsing function guarantees: the state invariant, and
either a tree with the error flag untouched, or `nullptr` with the flag set. -/
def Post (P : PState → Prop) (R : Node → Prop) (st : PState) (r : Option Node × PState) : Prop :=
  P r.2 ∧ (∀ n, r.1 = some n → R n ∧ r.2.syntax_error_flag = st.syntax_error_flag) ∧
    (r.1 = none → r.2.syntax_error_flag = true)

/-- No closing parenthesis is left to read and none is the pending token. -/
def NoRP (st : PState) : Prop := ')' ∉ st.rest ∧ st.toktype ≠ .TOK_RP

/-- An atom name as the lexer reads it: an uppercase letter, then letters and digits. -/
def valid_name (s : String) : Bool :=
  match s.data with
  | [] => false
  | c :: cs => isVarStart c && cs.all isVarChar

/-- A name ends in front of `r`: `r` does not start with a letter or a digit. -/
def name_ends (r : List Char) : Bool :=
  match r with
  | [] => true
  | d :: _ => !isVarChar d

/-- The token of an operator character. -/
def op_tok (c : Char) : TokType :=
  if c = '+' then .TOK_AND else if c = '-' then .TOK_OR else if c = '>' then .TOK_IMP
  else if c = '=' then .TOK_IFF else if c = '!' then .TOK_NOT else .TOK_END

/-- The globals `st` with the lexer's three variables overwritten. -/
def tk_state (st : PState) (r : List Char) (t : String) (tt : TokType) : PState :=
  { st with rest := r, token := t, toktype := tt }

/-- A comparator that is a strict total order. -/
structure StrictTotal {α : Type} (less : α → α → Bool) : Prop where
  irrefl : ∀ a, less a a = false
  trans : ∀ a b c, less a b = true → less b c = true → less a c = true
  total : ∀ a b, less a b = true ∨ a = b ∨ less b a = true

/-- Strictly ascending for the comparator `less`. -/
def Ascending {α : Type} (less : α → α → Bool) (l : List α) : Prop :=
  l.Pairwise (fun a b => less a b = true)

/-- The record of an initial clause. -/
def init_record (c : Clause) : Deriv :=
  { clause := c, is_initial := true, parent := ⟨-1, -1⟩ }

/-- Record `d`, at index `k` of the registry, is a derived record: its parents
`(a, b)` satisfy `a < b < k` and its clause is a resolvent of the clause at `b`
with the clause at `a`. -/
def DerivedOk (all : List Deriv) (k : Nat) (d : Deriv) : Prop :=
  d.is_initial = false ∧ ∃ a b : Nat, d.parent = ⟨(a : Int), (b : Int)⟩ ∧ a < b ∧ b < k ∧
    d.clause ∈ Resolve (clause_at all b) (clause_at all a)

/-- The invariant of the search loop, for the initial clause list `init`. -/
structure Inv (init : List Clause) (s : Search) : Prop where
  prefix_init : s.all.take init.length = init.map init_record
  size : init.length ≤ s.all.length
  derived : ∀ k d, init.length ≤ k → s.all[k]? = some d → DerivedOk s.all k d
  seen_iff : ∀ key, s.seen.has key = true ↔ ∃ d ∈ s.all, clause_to_string d.clause = key
  nodup : ((s.all.drop init.length).map (fun d => d.clause)).Nodup
  head_le : s.head ≤ s.all.length
  found_idx : s.found = true → ∃ idx : Nat, s.empty_index = (idx : Int) ∧
    idx + 1 = s.all.length ∧ init.length ≤ idx ∧ clause_at s.all idx = []
  no_empty : s.found = false → ∀ d ∈ s.all.drop init.length, d.clause ≠ []

/-- State `t` extends state `s`: same `head`, the registry grown at its end, no
signature forgotten. -/
def Ext (s t : Search) : Prop :=
  t.head = s.head ∧ (∃ ext, t.all = s.all ++ ext) ∧
    ∀ key, s.seen.has key = true → t.seen.has key = true

/-- Every resolvent of a pair below `head` has its signature in `seen`, as long
as the empty clause was not found. -/
def Saturated (s : Search) : Prop :=
  s.found = false → ∀ a b, a < b → b < s.head →
    ∀ r ∈ Resolve (clause_at s.all b) (clause_at s.all a), s.seen.has (clause_to_string r) = true

/-! ### Truth assignments -/

/-- Truth value of a sentence under the assignment `v` of the atoms. -/
def Node.eval (v : String → Bool) : Node → Bool
  | .Var s => v s
  | .Not a => !(a.eval v)
  | .And a b => a.eval v && b.eval v
  | .Or a b => a.eval v || b.eval v
  | .Imp a b => !(a.eval v) || b.eval v
  | .Iff a b => a.eval v == b.eval v

/-- Truth value of a literal. -/
def Lit.eval (v : String → Bool) (l : Lit) : Bool := v l.var != l.neg

/-- A clause is true when one of its literals is. -/
def clause_sat (v : String → Bool) (c : Clause) : Bool := c.any (Lit.eval v)

/-- The knowledge base entails the conclusion. -/
def Entails (kb_nodes : List Node) (alpha : Node) : Prop :=
  ∀ v : String → Bool, (∀ n ∈ kb_nodes, n.eval v = true) → alpha.eval v = true

/-- No `IMP` and no `IFF` node. -/
def Node.imp_free : Node → Bool
  | .Var _ => true
  | .Not a => a.imp_free
  | .And a b => a.imp_free && b.imp_free
  | .Or a b => a.imp_free && b.imp_free
  | .Imp _ _ => false
  | .Iff _ _ => false

/-- Negation-normal form: only `VAR`, `AND`, `OR`, and `NOT` above a `VAR`. -/
def Node.is_nnf : Node → Bool
  | .Var _ => true
  | .Not (.Var _) => true
  | .Not _ => false
  | .And a b => a.is_nnf && b.is_nnf
  | .Or a b => a.is_nnf && b.is_nnf
  | .Imp _ _ => false
  | .Iff _ _ => false

/-- The atom names of a sentence. -/
def Node.atoms : Node → List String
  | .Var s => [s]
  | .Not a => a.atoms
  | .And a b => a.atoms ++ b.atoms
  | .Or a b => a.atoms ++ b.atoms
  | .Imp a b => a.atoms ++ b.atoms
  | .Iff a b => a.atoms ++ b.atoms

/-! ### Sets of clauses -/

/-- The position pairs `(i, j)`, in order of `i` then `j`, at which `c1[i]` and
`c2[j]` have the same atom name and opposite negation flags. -/
def complementary_pairs (c1 c2 : Clause) : List (Nat × Nat) :=
  ((List.range c1.length).flatMap fun i => (List.range c2.length).map fun j => (i, j)).filter
    fun p =>
      match c1[p.1]?, c2[p.2]? with
      | some a, some b => decide (a.var = b.var ∧ a.neg ≠ b.neg)
      | _, _ => false

/-- One resolvent per complementary position pair: `c1` without position `i`
followed by `c2` without position `j`, normalized. -/
def Resolve_by_pairs (c1 c2 : Clause) : List Clause :=
  (complementary_pairs c1 c2).map fun p =>
    normalize_clause (c1.eraseIdx p.1 ++ c2.eraseIdx p.2)

/-! ### Points of the search -/

/-- The state after `n` passes of the body of the `while` loop, or the state at
which the loop stopped when it stops before. -/
def search_iter : Nat → Search → Search
  | 0, s => s
  | n + 1, s =>
    if s.head < s.all.length ∧ s.found = false then search_iter n (search_step s) else s

/-- The state after the first `m` passes of the loop over the resolvents of the
pair `(j, head)`, or the state at its `break`. -/
def resolve_pair_upto (m : Nat) (s : Search) (j : Nat) : Search :=
  if s.found then s
  else add_resolvents j s.head ((Resolve (clause_at s.all s.head) (clause_at s.all j)).take m) s

/-- A point of the search: inside pass `n` of the `while` loop, after the pairs
`j < k` and the first `m` resolvents of the pair `(k, head)`; for `k` from
`head` on, the state in front of `head++`. -/
def search_point (initClauses : List Clause) (n k m : Nat) : Search :=
  let s := search_iter n (search_init initClauses)
  if s.head < s.all.length ∧ s.found = false then
    if k < s.head then resolve_pair_upto m ((List.range k).foldl resolve_pair s) k
    else (List.range s.head).foldl resolve_pair s
  else s

/-- No two records of the registry hold the same clause. -/
def Uniq (all : List Deriv) : Prop := (all.map fun d => d.clause).Nodup

/-! ### Orders on clauses -/

/-- Lexicographic comparison of two lists: the first position at which the
elements differ decides, by `less`; a proper prefix comes first. -/
def lex_less {β : Type} [DecidableEq β] (less : β → β → Bool) : List β → List β → Bool
  | _, [] => false
  | [], _ :: _ => true
  | a :: as, b :: bs => if a = b then lex_less less as bs else less a b

/-- The order of the negation flags, `false < true`: positive before negated. -/
def neg_less (x y : Bool) : Bool := decide (x < y)

/-- The order of clauses in the words of the specification: by size, and at
equal size literal by literal, each literal by name and then positive before
negated. -/
def spec_clause_less (a b : Clause) : Bool :=
  if a.length ≠ b.length then decide (a.length < b.length) else lex_less Lit.less a b

/-- The sentence `((!A | B) & (A | C)) | (B & C)`, which is in negation-normal form. -/
def cnf_order_tree : Node :=
  .Or (.And (.Or (.Not (.Var "A")) (.Var "B")) (.Or (.Var "A") (.Var "C")))
    (.And (.Var "B") (.Var "C"))

/-! ### Lines that end with a comma -/

/-- The string `w` is one valid sentence, of tree `e`: with the globals of `st`,
`parse_expression` returns `e` and has read `w` up to its end. -/
def ValidSentence (st : PState) (w : String) (e : Node) : Prop :=
  ∃ fuel st1, parse_expression fuel (next_token { st with rest := w.data }) = some (some e, st1) ∧
    st1.rest = [] ∧ st1.toktype = .TOK_END ∧ st1.token = ""

/-- The line made of the sentences `ws`, a comma behind each of them. -/
def comma_line : List String → String
  | [] => ""
  | w :: ws => w ++ "," ++ comma_line ws

/-- State `st'` is the state `st` of the parser with a comma and the characters
`t` added behind the line: the same pending token and `,` and `t` behind what is
left to read, or, where `st` is at the end of its line, the comma as pending
token and `t` left to read. -/
def Behind (t : List Char) (st st' : PState) : Prop :=
  (st'.rest = st.rest ++ ',' :: t ∧ st'.token = st.token ∧ st'.toktype = st.toktype ∧
      (st.toktype = .TOK_END → st.token ≠ "")) ∨
  (st.rest = [] ∧ st.toktype = .TOK_END ∧ st.token = "" ∧
      st'.rest = t ∧ st'.toktype = .TOK_COMMA ∧ st'.token = ",")

/-- A successful call of the parsing function `f` reads the same tree when a
comma and `t` are added behind the line, and does not start at the end token. -/
def SimOk (t : List Char) (f : PState → PResult) : Prop :=
  ∀ (st st' : PState) (n : Node) (st1 : PState), Behind t st st' → f st = some (some n, st1) →
    st.toktype ≠ .TOK_END ∧ ∃ st1', f st' = some (some n, st1') ∧ Behind t st1 st1'

/-! ## The parser: more fuel does not change a result -/

theorem pbl_mono {mk : Node → Node → Node} {op : TokType} {sub sub' : PState → PResult}
    (hsub : ∀ st r, sub st = some r → sub' st = some r) :
    ∀ (n n' : Nat) (left : Node) (st : PState) (r : Option Node × PState), n ≤ n' →
      parse_binary_loop mk op sub n left st = some r →
      parse_binary_loop mk op sub' n' left st = some r := by
  intro n
  induction n with
  | zero => intro n' left st r _ h; simp [parse_binary_loop] at h
  | succ n ih =>
    intro n' left st r hn h
    obtain ⟨m, rfl⟩ : ∃ m, n' = m + 1 := ⟨n' - 1, by omega⟩
    simp only [parse_binary_loop] at h ⊢
    by_cases hop : op = st.toktype
    · rw [if_pos hop] at h ⊢
      cases hs : sub (next_token st) with
      | none => simp [hs] at h
      | some q =>
        rw [hsub _ _ hs]
        rw [hs] at h
        obtain ⟨qn, qst⟩ := q
        cases qn with
        | none => exact h
        | some right => exact ih m _ _ _ (by omega) h
    · rw [if_neg hop] at h ⊢
      exact h

theorem pb_mono {mk : Node → Node → Node} {op : TokType} {sub sub' : PState → PResult}
    (hsub : ∀ st r, sub st = some r → sub' st = some r) (n n' : Nat) (hn : n ≤ n')
    (st : PState) (r : Option Node × PState)
    (h : parse_binary n mk op sub st = some r) : parse_binary n' mk op sub' st = some r := by
  unfold parse_binary at h ⊢
  cases hs : sub st with
  | none => simp [hs] at h
  | some q =>
    rw [hsub _ _ hs]
    rw [hs] at h
    obtain ⟨qn, qst⟩ := q
    cases qn with
    | none => exact h
    | some left => exact pbl_mono hsub n n' _ _ _ hn h

/-- All six parsing functions at once: more fuel does not change a result. -/
theorem parse_mono_all : ∀ (fuel fuel' : Nat), fuel ≤ fuel' → ∀ (st : PState) (r : Option Node × PState),
    (parse_primary fuel st = some r → parse_primary fuel' st = some r) ∧
    (parse_and fuel st = some r → parse_and fuel' st = some r) ∧
    (parse_or fuel st = some r → parse_or fuel' st = some r) ∧
    (parse_imp fuel st = some r → parse_imp fuel' st = some r) ∧
    (parse_iff fuel st = some r → parse_iff fuel' st = some r) ∧
    (parse_expression fuel st = some r → parse_expression fuel' st = some r) := by
  intro fuel
  induction fuel with
  | zero =>
    intro fuel' _ st r
    simp [parse_primary, parse_and, parse_or, parse_imp, parse_iff, parse_expression]
  | succ n ih =>
    intro fuel' hf st r
    obtain ⟨m, rfl⟩ : ∃ m, fuel' = m + 1 := ⟨fuel' - 1, by omega⟩
    have hnm : n ≤ m := by omega
    have ih' := ih m hnm
    refine ⟨?_, ?_, ?_, ?_, ?_, ?_⟩
    · intro h
      simp only [parse_primary] at h ⊢
      by_cases h1 : st.toktype = .TOK_END
      · rw [if_pos h1] at h ⊢; exact h
      rw [if_neg h1] at h ⊢
      by_cases h2 : st.toktype = .TOK_VAR
      · rw [if_pos h2] at h ⊢; exact h
      rw [if_neg h2] at h ⊢
      by_cases h3 : st.toktype = .TOK_NOT
      · rw [if_pos h3] at h ⊢
        cases hs : parse_primary n (next_token st) with
        | none => simp [hs] at h
        | some q =>
          rw [(ih' _ _).1 hs]
          rw [hs] at h
          exact h
      rw [if_neg h3] at h ⊢
      by_cases h4 : st.toktype = .TOK_LP
      · rw [if_pos h4] at h ⊢
        cases hs : parse_expression n (next_token st) with
        | none => simp [hs] at h
        | some q =>
          rw [(ih' _ _).2.2.2.2.2 hs]
          rw [hs] at h
          exact h
      rw [if_neg h4] at h ⊢
      exact h
    · intro h
      simp only [parse_and] at h ⊢
      exact pb_mono (fun st r => (ih' st r).1) n m hnm st r h
    · intro h
      simp only [parse_or] at h ⊢
      exact pb_mono (fun st r => (ih' st r).2.1) n m hnm st r h
    · intro h
      simp only [parse_imp] at h ⊢
      exact pb_mono (fun st r => (ih' st r).2.2.1) n m hnm st r h
    · intro h
      simp only [parse_iff] at h ⊢
      exact pb_mono (fun st r => (ih' st r).2.2.2.1) n m hnm st r h
    · intro h
      simp only [parse_expression] at h ⊢
      exact (ih' st r).2.2.2.2.1 h

/-! ## The parser returns: the fuel of `parse_sentences` is enough -/

theorem length_dropWhile_le {α : Type} (p : α → Bool) (l : List α) :
    (l.dropWhile p).length ≤ l.length := by
  induction l with
  | nil => simp
  | cons a t ih =>
    simp only [List.dropWhile]
    split
    · simp only [List.length_cons]; omega
    · simp

/-- The shapes of the state after `next_token`. -/
theorem next_token_cases (st : PState) :
    (st.rest.dropWhile isspace = [] ∧ (next_token st).rest = [] ∧
      (next_token st).toktype = .TOK_END) ∨
    (∃ c cs, st.rest.dropWhile isspace = c :: cs ∧
      (((next_token st).rest = cs ∧ (next_token st).toktype ≠ .TOK_VAR ∧
          ((next_token st).toktype = .TOK_RP → c = ')')) ∨
       ((next_token st).rest = cs.dropWhile isVarChar ∧ (next_token st).toktype = .TOK_VAR ∧
          isVarStart c = true ∧
          (next_token st).token = String.mk (c :: cs.takeWhile isVarChar)))) := by
  cases h : st.rest.dropWhile isspace with
  | nil => left; simp [next_token, skip_spaces, h]
  | cons c cs =>
    right
    refine ⟨c, cs, rfl, ?_⟩
    simp only [next_token, skip_spaces, h]
    by_cases h1 : c = '('
    · left; rw [if_pos h1]; exact ⟨rfl, by simp, by simp⟩
    rw [if_neg h1]
    by_cases h2 : c = ')'
    · left; rw [if_pos h2]; exact ⟨rfl, by simp, fun _ => h2⟩
    rw [if_neg h2]
    by_cases h3 : c = '!'
    · left; rw [if_pos h3]; exact ⟨rfl, by simp, by simp⟩
    rw [if_neg h3]
    by_cases h4 : c = '+'
    · left; rw [if_pos h4]; exact ⟨rfl, by simp, by simp⟩
    rw [if_neg h4]
    by_cases h5 : c = '-'
    · left; rw [if_pos h5]; exact ⟨rfl, by simp, by simp⟩
    rw [if_neg h5]
    by_cases h6 : c = '>'
    · left; rw [if_pos h6]; exact ⟨rfl, by simp, by simp⟩
    rw [if_neg h6]
    by_cases h7 : c = '='
    · left; rw [if_pos h7]; exact ⟨rfl, by simp, by simp⟩
    rw [if_neg h7]
    by_cases h8 : c = ','
    · left; rw [if_pos h8]; exact ⟨rfl, by simp, by simp⟩
    rw [if_neg h8]
    by_cases h9 : isVarStart c = true
    · right; rw [if_pos h9]; exact ⟨rfl, rfl, h9, rfl⟩
    · left; rw [if_neg h9]; exact ⟨rfl, by simp, by simp⟩

/-- What `next_token` leaves unread, counted with the pending token, is bounded
by what was unread before. -/
theorem next_token_measure_le (st : PState) :
    (next_token st).measure ≤ st.rest.length := by
  have hd := length_dropWhile_le isspace st.rest
  unfold PState.measure
  rcases next_token_cases st with ⟨h, hr, ht⟩ | ⟨c, cs, h, ⟨hr, _⟩ | ⟨hr, _⟩⟩
  · rw [hr, ht]; simp
  · rw [h] at hd
    simp only [List.length_cons] at hd
    rw [hr]
    split <;> omega
  · rw [h] at hd
    simp only [List.length_cons] at hd
    have hv := length_dropWhile_le isVarChar cs
    rw [hr]
    split <;> omega

theorem next_token_measure_lt (st : PState) (h : st.toktype ≠ .TOK_END) :
    (next_token st).measure < st.measure := by
  have := next_token_measure_le st
  have h2 : st.measure = st.rest.length + 1 := by simp [PState.measure, h]
  omega

theorem pbl_total {mk : Node → Node → Node} {op : TokType} {sub : PState → PResult} {m : Nat}
    (hop : op ≠ .TOK_END) (hsub : Good sub m) :
    ∀ (fuel : Nat) (left : Node) (st : PState), st.measure ≤ m → st.measure < fuel →
      ∃ r, parse_binary_loop mk op sub fuel left st = some r ∧
        ∀ n, r.1 = some n → r.2.measure ≤ st.measure := by
  intro fuel
  induction fuel with
  | zero => intro left st _ h; omega
  | succ k ih =>
    intro left st hm hf
    simp only [parse_binary_loop]
    by_cases h : op = st.toktype
    · rw [if_pos h]
      have hne : st.toktype ≠ .TOK_END := h ▸ hop
      have hlt := next_token_measure_lt st hne
      obtain ⟨r, hr, hdec⟩ := hsub (next_token st) (by omega)
      rw [hr]
      obtain ⟨rn, rst⟩ := r
      cases rn with
      | none => exact ⟨_, rfl, by simp⟩
      | some right =>
        have h1 := hdec right rfl
        simp only at h1
        obtain ⟨r2, hr2, hdec2⟩ := ih (mk left right) rst (by omega) (by omega)
        refine ⟨r2, hr2, fun n hn => ?_⟩
        have := hdec2 n hn
        omega
    · rw [if_neg h]
      exact ⟨_, rfl, by simp⟩

theorem pb_total {mk : Node → Node → Node} {op : TokType} {sub : PState → PResult} {m fuel : Nat}
    (hop : op ≠ .TOK_END) (hsub : Good sub m) (hf : m < fuel) :
    Good (parse_binary fuel mk op sub) m := by
  intro st hm
  unfold parse_binary
  obtain ⟨r, hr, hdec⟩ := hsub st hm
  rw [hr]
  obtain ⟨rn, rst⟩ := r
  cases rn with
  | none => exact ⟨_, rfl, by simp⟩
  | some left =>
    have h1 := hdec left rfl
    simp only at h1
    obtain ⟨r2, hr2, hdec2⟩ := @pbl_total mk op sub m hop hsub fuel left rst (by omega) (by omega)
    refine ⟨r2, hr2, fun n hn => ?_⟩
    have := hdec2 n hn
    omega

/-- All six parsing functions return when the fuel is six times the measure. -/
theorem parse_total_all : ∀ (fuel m : Nat),
    (6 * m + 1 ≤ fuel → Good (parse_primary fuel) m) ∧
    (6 * m + 2 ≤ fuel → Good (parse_and fuel) m) ∧
    (6 * m + 3 ≤ fuel → Good (parse_or fuel) m) ∧
    (6 * m + 4 ≤ fuel → Good (parse_imp fuel) m) ∧
    (6 * m + 5 ≤ fuel → Good (parse_iff fuel) m) ∧
    (6 * m + 6 ≤ fuel → Good (parse_expression fuel) m) := by
  intro fuel
  induction fuel with
  | zero => intro m; refine ⟨?_, ?_, ?_, ?_, ?_, ?_⟩ <;> intro h <;> omega
  | succ k ih =>
    intro m
    refine ⟨?_, ?_, ?_, ?_, ?_, ?_⟩
    · intro hk st hm
      simp only [parse_primary]
      by_cases h1 : st.toktype = .TOK_END
      · rw [if_pos h1]; exact ⟨_, rfl, by simp⟩
      rw [if_neg h1]
      have hlt := next_token_measure_lt st h1
      by_cases h2 : st.toktype = .TOK_VAR
      · rw [if_pos h2]; exact ⟨_, rfl, by simpa using hlt⟩
      rw [if_neg h2]
      by_cases h3 : st.toktype = .TOK_NOT
      · rw [if_pos h3]
        obtain ⟨r, hr, hdec⟩ := (ih (m - 1)).1 (by omega) (next_token st) (by omega)
        rw [hr]
        obtain ⟨rn, rst⟩ := r
        cases rn with
        | none => exact ⟨_, rfl, by simp⟩
        | some a =>
          have := hdec a rfl
          simp only at this
          exact ⟨_, rfl, by simp; omega⟩
      rw [if_neg h3]
      by_cases h4 : st.toktype = .TOK_LP
      · rw [if_pos h4]
        obtain ⟨r, hr, hdec⟩ := (ih (m - 1)).2.2.2.2.2 (by omega) (next_token st) (by omega)
        rw [hr]
        obtain ⟨rn, rst⟩ := r
        cases rn with
        | none => exact ⟨_, rfl, by simp⟩
        | some a =>
          have h5 := hdec a rfl
          simp only at h5
          by_cases h6 : rst.toktype = .TOK_RP
          · have h7 : rst.toktype ≠ .TOK_END := by rw [h6]; decide
            have := next_token_measure_lt rst h7
            simp only [h6, ne_eq, not_true_eq_false, if_false]
            exact ⟨_, rfl, by simp; omega⟩
          · simp only [ne_eq, h6, not_false_eq_true, if_true]
            exact ⟨_, rfl, by simp⟩
      rw [if_neg h4]
      exact ⟨_, rfl, by simp⟩
    · intro hk
      simp only [parse_and]
      exact pb_total (by decide) ((ih m).1 (by omega)) (by omega)
    · intro hk
      simp only [parse_or]
      exact pb_total (by decide) ((ih m).2.1 (by omega)) (by omega)
    · intro hk
      simp only [parse_imp]
      exact pb_total (by decide) ((ih m).2.2.1 (by omega)) (by omega)
    · intro hk
      simp only [parse_iff]
      exact pb_total (by decide) ((ih m).2.2.2.1 (by omega)) (by omega)
    · intro hk
      simp only [parse_expression]
      exact (ih m).2.2.2.2.1 (by omega)

theorem parse_sentences_loop_total : ∀ (fuel : Nat) (st : PState) (res : List Node),
    6 * st.measure + 7 ≤ fuel → ∃ r, parse_sentences_loop fuel st res = some r := by
  intro fuel
  induction fuel with
  | zero => intro st res h; omega
  | succ k ih =>
    intro st res hk
    simp only [parse_sentences_loop]
    by_cases h1 : st.toktype = .TOK_END
    · simp [h1]
    simp only [ne_eq, h1, not_false_eq_true, if_true]
    obtain ⟨r, hr, hdec⟩ := (parse_total_all k st.measure).2.2.2.2.2 (by omega) st (le_refl _)
    rw [hr]
    obtain ⟨rn, rst⟩ := r
    cases rn with
    | none => exact ⟨_, rfl⟩
    | some node =>
      have h2 := hdec node rfl
      simp only at h2
      by_cases h3 : rst.toktype = .TOK_COMMA
      · simp only [h3, if_true]
        have h4 : rst.toktype ≠ .TOK_END := by rw [h3]; decide
        have := next_token_measure_lt rst h4
        exact ih _ _ (by omega)
      · simp only [h3, if_false]
        split <;> exact ⟨_, rfl⟩

/-- The function `parse_sentences` returns on every line and in every state of
the globals. -/
theorem parse_sentences_total (s : String) (st : PState) :
    ∃ nodes st1, parse_sentences s st = some (nodes, st1) := by
  unfold parse_sentences parse_fuel
  have h := next_token_measure_le { st with rest := s.data }
  have hl : s.length = s.data.length := rfl
  simp only at h
  obtain ⟨r, hr⟩ := parse_sentences_loop_total (6 * s.length + 12)
    (next_token { st with rest := s.data }) [] (by omega)
  exact ⟨r.1, r.2, hr⟩

/-! ## The parser: invariants of the state, of the trees and of the error flag -/

/-- The function `next_token` writes `posi`, `token` and `toktype` only. -/
theorem next_token_eq (st : PState) :
    next_token st = { st with rest := (next_token st).rest, token := (next_token st).token,
                              toktype := (next_token st).toktype } := by
  cases h : st.rest.dropWhile isspace with
  | nil => simp [next_token, skip_spaces, h]
  | cons c cs =>
    simp only [next_token, skip_spaces, h]
    by_cases h1 : c = '('
    · simp only [if_pos h1]
    simp only [if_neg h1]
    by_cases h2 : c = ')'
    · simp only [if_pos h2]
    simp only [if_neg h2]
    by_cases h3 : c = '!'
    · simp only [if_pos h3]
    simp only [if_neg h3]
    by_cases h4 : c = '+'
    · simp only [if_pos h4]
    simp only [if_neg h4]
    by_cases h5 : c = '-'
    · simp only [if_pos h5]
    simp only [if_neg h5]
    by_cases h6 : c = '>'
    · simp only [if_pos h6]
    simp only [if_neg h6]
    by_cases h7 : c = '='
    · simp only [if_pos h7]
    simp only [if_neg h7]
    by_cases h8 : c = ','
    · simp only [if_pos h8]
    simp only [if_neg h8]
    by_cases h9 : isVarStart c = true
    · simp only [if_pos h9]
    · simp only [if_neg h9]

theorem next_token_flag (st : PState) :
    (next_token st).syntax_error_flag = st.syntax_error_flag := by
  rw [next_token_eq]

theorem pbl_post {P : PState → Prop} {R : Node → Prop} {mk : Node → Node → Node} {op : TokType}
    {sub : PState → PResult} (hnext : ∀ st, P st → P (next_token st))
    (hmk : ∀ a b, R a → R b → R (mk a b))
    (hsub : ∀ st r, P st → sub st = some r → Post P R st r) :
    ∀ (fuel : Nat) (left : Node) (st : PState) (r : Option Node × PState), P st → R left →
      parse_binary_loop mk op sub fuel left st = some r → Post P R st r := by
  intro fuel
  induction fuel with
  | zero => intro left st r _ _ h; simp [parse_binary_loop] at h
  | succ k ih =>
    intro left st r hP hR h
    simp only [parse_binary_loop] at h
    by_cases hop : op = st.toktype
    · rw [if_pos hop] at h
      cases hs : sub (next_token st) with
      | none => simp [hs] at h
      | some q =>
        rw [hs] at h
        have hq := hsub _ _ (hnext st hP) hs
        obtain ⟨qn, qst⟩ := q
        cases qn with
        | none =>
          simp only [Option.some.injEq] at h
          subst h
          exact ⟨hq.1, by simp, fun _ => hq.2.2 rfl⟩
        | some right =>
          have h1 := hq.2.1 right rfl
          have h2 := ih _ _ _ hq.1 (hmk _ _ hR h1.1) h
          refine ⟨h2.1, fun n hn => ⟨(h2.2.1 n hn).1, ?_⟩, h2.2.2⟩
          rw [(h2.2.1 n hn).2, h1.2, next_token_flag]
    · rw [if_neg hop] at h
      simp only [Option.some.injEq] at h
      subst h
      exact ⟨hP, fun n hn => by simp at hn; subst hn; exact ⟨hR, rfl⟩, by simp⟩

theorem pb_post {P : PState → Prop} {R : Node → Prop} {mk : Node → Node → Node} {op : TokType}
    {sub : PState → PResult} (hnext : ∀ st, P st → P (next_token st))
    (hmk : ∀ a b, R a → R b → R (mk a b))
    (hsub : ∀ st r, P st → sub st = some r → Post P R st r)
    (fuel : Nat) (st : PState) (r : Option Node × PState) (hP : P st)
    (h : parse_binary fuel mk op sub st = some r) : Post P R st r := by
  unfold parse_binary at h
  cases hs : sub st with
  | none => simp [hs] at h
  | some q =>
    rw [hs] at h
    have hq := hsub _ _ hP hs
    obtain ⟨qn, qst⟩ := q
    cases qn with
    | none =>
      simp only [Option.some.injEq] at h
      subst h
      exact hq
    | some left =>
      have h1 := hq.2.1 left rfl
      have h2 := pbl_post hnext hmk hsub fuel _ _ _ hq.1 h1.1 h
      refine ⟨h2.1, fun n hn => ⟨(h2.2.1 n hn).1, ?_⟩, h2.2.2⟩
      rw [(h2.2.1 n hn).2, h1.2]

/-- The invariants hold across all six parsing functions. -/
theorem parse_post_all {P : PState → Prop} {R : Node → Prop} (inv : ParseInv P R) :
    ∀ (fuel : Nat) (st : PState) (r : Option Node × PState), P st →
    (parse_primary fuel st = some r → Post P R st r) ∧
    (parse_and fuel st = some r → Post P R st r) ∧
    (parse_or fuel st = some r → Post P R st r) ∧
    (parse_imp fuel st = some r → Post P R st r) ∧
    (parse_iff fuel st = some r → Post P R st r) ∧
    (parse_expression fuel st = some r → Post P R st r) := by
  intro fuel
  induction fuel with
  | zero =>
    intro st r _
    simp [parse_primary, parse_and, parse_or, parse_imp, parse_iff, parse_expression]
  | succ k ih =>
    intro st r hP
    refine ⟨?_, ?_, ?_, ?_, ?_, ?_⟩
    · intro h
      simp only [parse_primary] at h
      by_cases h1 : st.toktype = .TOK_END
      · rw [if_pos h1] at h
        simp only [Option.some.injEq] at h
        subst h
        exact ⟨inv.err _ _ hP, by simp, by simp⟩
      rw [if_neg h1] at h
      by_cases h2 : st.toktype = .TOK_VAR
      · rw [if_pos h2] at h
        simp only [Option.some.injEq] at h
        subst h
        refine ⟨inv.next _ hP, fun n hn => ?_, by simp⟩
        simp only [Option.some.injEq] at hn
        subst hn
        exact ⟨inv.var _ hP h2, next_token_flag st⟩
      rw [if_neg h2] at h
      by_cases h3 : st.toktype = .TOK_NOT
      · rw [if_pos h3] at h
        cases hs : parse_primary k (next_token st) with
        | none => simp [hs] at h
        | some q =>
          rw [hs] at h
          have hq := (ih _ _ (inv.next _ hP)).1 hs
          obtain ⟨qn, qst⟩ := q
          cases qn with
          | none =>
            simp only [Option.some.injEq] at h
            subst h
            exact ⟨hq.1, by simp, fun _ => hq.2.2 rfl⟩
          | some a =>
            simp only [Option.some.injEq] at h
            subst h
            have h5 := hq.2.1 a rfl
            refine ⟨hq.1, fun n hn => ?_, by simp⟩
            simp only [Option.some.injEq] at hn
            subst hn
            exact ⟨inv.not _ h5.1, by rw [h5.2, next_token_flag]⟩
      rw [if_neg h3] at h
      by_cases h4 : st.toktype = .TOK_LP
      · rw [if_pos h4] at h
        cases hs : parse_expression k (next_token st) with
        | none => simp [hs] at h
        | some q =>
          rw [hs] at h
          have hq := (ih _ _ (inv.next _ hP)).2.2.2.2.2 hs
          obtain ⟨qn, qst⟩ := q
          cases qn with
          | none =>
            simp only [Option.some.injEq] at h
            subst h
            exact ⟨hq.1, by simp, fun _ => hq.2.2 rfl⟩
          | some a =>
            have h5 := hq.2.1 a rfl
            by_cases h6 : qst.toktype = .TOK_RP
            · simp only [h6, ne_eq, not_true_eq_false, if_false, Option.some.injEq] at h
              subst h
              refine ⟨inv.next _ hq.1, fun n hn => ?_, by simp⟩
              simp only [Option.some.injEq] at hn
              subst hn
              exact ⟨h5.1, by rw [next_token_flag, h5.2, next_token_flag]⟩
            · simp only [ne_eq, h6, not_false_eq_true, if_true, Option.some.injEq] at h
              subst h
              exact ⟨inv.err _ _ hq.1, by simp, by simp⟩
      rw [if_neg h4] at h
      simp only [Option.some.injEq] at h
      subst h
      exact ⟨inv.err _ _ hP, by simp, by simp⟩
    · intro h
      simp only [parse_and] at h
      exact pb_post inv.next inv.and (fun st r hP hs => (ih st r hP).1 hs) k st r hP h
    · intro h
      simp only [parse_or] at h
      exact pb_post inv.next inv.or (fun st r hP hs => (ih st r hP).2.1 hs) k st r hP h
    · intro h
      simp only [parse_imp] at h
      exact pb_post inv.next inv.imp (fun st r hP hs => (ih st r hP).2.2.1 hs) k st r hP h
    · intro h
      simp only [parse_iff] at h
      exact pb_post inv.next inv.iff (fun st r hP hs => (ih st r hP).2.2.2.1 hs) k st r hP h
    · intro h
      simp only [parse_expression] at h
      exact (ih st r hP).2.2.2.2.1 h

/-- The invariants across `parse_sentences`: besides `P` and `R`, either the
error flag is untouched or it is set and the returned vector is empty. -/
theorem parse_sentences_loop_post {P : PState → Prop} {R : Node → Prop} (inv : ParseInv P R) :
    ∀ (fuel : Nat) (st : PState) (res : List Node) (r : List Node × PState), P st →
      (∀ n ∈ res, R n) → parse_sentences_loop fuel st res = some r →
      P r.2 ∧ (∀ n ∈ r.1, R n) ∧
        (r.2.syntax_error_flag = st.syntax_error_flag ∨
          (r.2.syntax_error_flag = true ∧ r.1 = [])) := by
  intro fuel
  induction fuel with
  | zero => intro st res r _ _ h; simp [parse_sentences_loop] at h
  | succ k ih =>
    intro st res r hP hR h
    simp only [parse_sentences_loop] at h
    by_cases h1 : st.toktype = .TOK_END
    · simp only [ne_eq, h1, not_true_eq_false, if_false, Option.some.injEq] at h
      subst h
      exact ⟨hP, hR, Or.inl rfl⟩
    simp only [ne_eq, h1, not_false_eq_true, if_true] at h
    cases hs : parse_expression k st with
    | none => simp [hs] at h
    | some q =>
      rw [hs] at h
      have hq := (parse_post_all inv k st q hP).2.2.2.2.2 hs
      obtain ⟨qn, qst⟩ := q
      cases qn with
      | none =>
        simp only [Option.some.injEq] at h
        subst h
        exact ⟨hq.1, by simp, Or.inr ⟨hq.2.2 rfl, rfl⟩⟩
      | some node =>
        have h5 := hq.2.1 node rfl
        simp only at h5
        have hR' : ∀ n ∈ res ++ [node], R n := by
          intro n hn
          rcases List.mem_append.1 hn with hn | hn
          · exact hR n hn
          · simp only [List.mem_singleton] at hn; subst hn; exact h5.1
        by_cases h3 : qst.toktype = .TOK_COMMA
        · simp only [h3, if_true] at h
          have h6 := ih _ _ _ (inv.next _ hq.1) hR' h
          refine ⟨h6.1, h6.2.1, ?_⟩
          rcases h6.2.2 with h7 | h7
          · left; rw [h7, next_token_flag, h5.2]
          · right; exact h7
        · simp only [h3, if_false] at h
          by_cases h4 : qst.toktype = .TOK_END
          · simp only [h4, if_true, Option.some.injEq] at h
            subst h
            exact ⟨hq.1, hR', Or.inl h5.2⟩
          · simp only [h4, if_false, Option.some.injEq] at h
            subst h
            exact ⟨inv.err _ _ hq.1, by simp, Or.inr ⟨rfl, rfl⟩⟩

theorem parse_sentences_post {P : PState → Prop} {R : Node → Prop} (inv : ParseInv P R)
    (s : String) (st : PState) (r : List Node × PState)
    (hP : P (next_token { st with rest := s.data })) (h : parse_sentences s st = some r) :
    P r.2 ∧ (∀ n ∈ r.1, R n) ∧
      (r.2.syntax_error_flag = st.syntax_error_flag ∨
        (r.2.syntax_error_flag = true ∧ r.1 = [])) := by
  unfold parse_sentences at h
  have h1 := parse_sentences_loop_post inv _ _ _ _ hP (by simp) h
  rw [next_token_flag] at h1
  exact h1

/-- The trivial invariant. -/
theorem parseInv_true : ParseInv (fun _ => True) (fun _ => True) :=
  ⟨fun _ _ => trivial, fun _ _ _ => trivial, fun _ _ _ => trivial, fun _ _ => trivial,
   fun _ _ _ _ => trivial, fun _ _ _ _ => trivial, fun _ _ _ _ => trivial,
   fun _ _ _ _ => trivial⟩

/-- When `parse_sentences` sets the error flag it returns the empty vector. -/
theorem parse_sentences_flag (s : String) (st : PState) (r : List Node × PState)
    (hst : st.syntax_error_flag = false) (h : parse_sentences s st = some r)
    (hr : r.2.syntax_error_flag = true) : r.1 = [] := by
  rcases (parse_sentences_post parseInv_true s st r trivial h).2.2 with h1 | h1
  · rw [hst, hr] at h1; cases h1
  · exact h1.2

/-! ## An opening parenthesis without a closing one -/

theorem noRP_next (st : PState) (h : ')' ∉ st.rest) : NoRP (next_token st) := by
  have hsub : ∀ x, x ∈ st.rest.dropWhile isspace → x ∈ st.rest :=
    fun x hx => (List.dropWhile_suffix isspace).subset hx
  rcases next_token_cases st with ⟨_, hr, ht⟩ | ⟨c, cs, hd, ⟨hr, _, hrp⟩ | ⟨hr, ht, _, _⟩⟩
  · exact ⟨by rw [hr]; simp, by rw [ht]; decide⟩
  · refine ⟨?_, ?_⟩
    · rw [hr]
      intro hin
      exact h (hsub _ (by rw [hd]; exact List.mem_cons_of_mem _ hin))
    · intro ht
      have := hrp ht
      subst this
      exact h (hsub _ (by rw [hd]; exact List.mem_cons_self _ _))
  · refine ⟨?_, by rw [ht]; decide⟩
    rw [hr]
    intro hin
    have h1 : (')' : Char) ∈ cs := (List.dropWhile_suffix isVarChar).subset hin
    exact h (hsub _ (by rw [hd]; exact List.mem_cons_of_mem _ h1))

theorem parseInv_noRP : ParseInv NoRP (fun _ => True) :=
  ⟨fun st h => noRP_next st h.1, fun _ _ h => h, fun _ _ _ => trivial, fun _ _ => trivial,
   fun _ _ _ _ => trivial, fun _ _ _ _ => trivial, fun _ _ _ _ => trivial,
   fun _ _ _ _ => trivial⟩

/-- The first call of the subparser decides whether `parse_binary` can succeed. -/
theorem pb_first {mk : Node → Node → Node} {op : TokType} {sub : PState → PResult} {fuel : Nat}
    {st : PState} {r : Option Node × PState} (h : parse_binary fuel mk op sub st = some r)
    (hsub : ∀ q, sub st = some q → q.1 = none) : r.1 = none := by
  unfold parse_binary at h
  cases hs : sub st with
  | none => simp [hs] at h
  | some q =>
    rw [hs] at h
    have hq := hsub q hs
    obtain ⟨qn, qst⟩ := q
    simp only at hq
    subst hq
    simp only [Option.some.injEq] at h
    subst h
    rfl

theorem parse_primary_noRP (fuel : Nat) (st : PState) (r : Option Node × PState)
    (hP : NoRP st) (hlp : st.toktype = .TOK_LP) (h : parse_primary fuel st = some r) :
    r.1 = none := by
  cases fuel with
  | zero => simp [parse_primary] at h
  | succ k =>
    simp only [parse_primary, hlp, reduceCtorEq, if_false, if_true] at h
    cases hs : parse_expression k (next_token st) with
    | none => simp [hs] at h
    | some q =>
      rw [hs] at h
      have hq := (parse_post_all parseInv_noRP k _ q (noRP_next st hP.1)).2.2.2.2.2 hs
      obtain ⟨qn, qst⟩ := q
      cases qn with
      | none =>
        simp only [Option.some.injEq] at h
        subst h
        rfl
      | some a =>
        have h6 : qst.toktype ≠ .TOK_RP := hq.1.2
        simp only [ne_eq, h6, not_false_eq_true, if_true, Option.some.injEq] at h
        subst h
        rfl

theorem parse_expression_noRP (fuel : Nat) (st : PState) (r : Option Node × PState)
    (hP : NoRP st) (hlp : st.toktype = .TOK_LP) (h : parse_expression fuel st = some r) :
    r.1 = none := by
  cases fuel with
  | zero => simp [parse_expression] at h
  | succ k1 =>
    simp only [parse_expression] at h
    cases k1 with
    | zero => simp [parse_iff] at h
    | succ k2 =>
      simp only [parse_iff] at h
      refine pb_first h (fun q hq => ?_)
      cases k2 with
      | zero => simp [parse_imp] at hq
      | succ k3 =>
        simp only [parse_imp] at hq
        refine pb_first hq (fun q hq => ?_)
        cases k3 with
        | zero => simp [parse_or] at hq
        | succ k4 =>
          simp only [parse_or] at hq
          refine pb_first hq (fun q hq => ?_)
          cases k4 with
          | zero => simp [parse_and] at hq
          | succ k5 =>
            simp only [parse_and] at hq
            refine pb_first hq (fun q hq => ?_)
            exact parse_primary_noRP k5 st q hP hlp hq

/-- A line that starts (after white space) with `(` and holds no `)` sets the
error flag and yields the empty vector. -/
theorem parse_sentences_unmatched (s : String) (st : PState) (cs : List Char)
    (hopen : s.data.dropWhile isspace = '(' :: cs) (hclose : ')' ∉ s.data) :
    ∃ st1, parse_sentences s st = some ([], st1) ∧ st1.syntax_error_flag = true := by
  obtain ⟨nodes, st1, h⟩ := parse_sentences_total s st
  have h0 := h
  unfold parse_sentences parse_fuel at h
  have hP : NoRP (next_token { st with rest := s.data }) := noRP_next _ hclose
  have hlp : (next_token { st with rest := s.data }).toktype = .TOK_LP := by
    simp [next_token, skip_spaces, hopen]
  simp only [parse_sentences_loop, hlp, ne_eq, reduceCtorEq, not_false_eq_true, if_true] at h
  cases hs : parse_expression (6 * s.length + 11) (next_token { st with rest := s.data }) with
  | none => simp [hs] at h
  | some q =>
    rw [hs] at h
    have hq := parse_expression_noRP _ _ q hP hlp hs
    have hq2 := ((parse_post_all parseInv_noRP _ _ q hP).2.2.2.2.2 hs).2.2 hq
    obtain ⟨qn, qst⟩ := q
    simp only at hq hq2
    subst hq
    simp only [Option.some.injEq, Prod.mk.injEq] at h
    obtain ⟨h1, h2⟩ := h
    subst h1 h2
    exact ⟨_, h0, hq2⟩

/-! ## The lexer on names and operators -/

theorem takeWhile_append_name (cs r : List Char) (hcs : cs.all isVarChar = true)
    (hr : name_ends r = true) : (cs ++ r).takeWhile isVarChar = cs := by
  induction cs with
  | nil =>
    cases r with
    | nil => rfl
    | cons d t =>
      simp only [name_ends, Bool.not_eq_true'] at hr
      simp [List.takeWhile, hr]
  | cons x t ih =>
    simp only [List.all_cons, Bool.and_eq_true] at hcs
    simp [List.takeWhile, hcs.1, ih hcs.2]

theorem dropWhile_append_name (cs r : List Char) (hcs : cs.all isVarChar = true)
    (hr : name_ends r = true) : (cs ++ r).dropWhile isVarChar = r := by
  induction cs with
  | nil =>
    cases r with
    | nil => rfl
    | cons d t =>
      simp only [name_ends, Bool.not_eq_true'] at hr
      simp [List.dropWhile, hr]
  | cons x t ih =>
    simp only [List.all_cons, Bool.and_eq_true] at hcs
    simp [List.dropWhile, hcs.1, ih hcs.2]

/-- An uppercase letter is no white space and none of the one-character tokens. -/
theorem isVarStart_facts (c : Char) (h : isVarStart c = true) :
    isspace c = false ∧ c ≠ '(' ∧ c ≠ ')' ∧ c ≠ '!' ∧ c ≠ '+' ∧ c ≠ '-' ∧ c ≠ '>' ∧
      c ≠ '=' ∧ c ≠ ',' := by
  simp only [isVarStart, isupper, Bool.and_eq_true, decide_eq_true_eq] at h
  refine ⟨?_, ?_, ?_, ?_, ?_, ?_, ?_, ?_, ?_⟩
  · simp only [isspace, Bool.or_eq_false_iff, decide_eq_false_iff_not, Bool.and_eq_false_iff]
    omega
  all_goals (intro hc; subst hc; revert h; decide)

/-- The lexer on a name that is followed by something that ends it. -/
theorem next_token_name (st : PState) (a : String) (r : List Char) (ha : valid_name a = true)
    (hr : name_ends r = true) (hst : st.rest = a.data ++ r) :
    next_token st = { st with rest := r, token := a, toktype := .TOK_VAR } := by
  unfold valid_name at ha
  cases hd : a.data with
  | nil => simp [hd] at ha
  | cons c cs =>
    rw [hd] at ha hst
    simp only [Bool.and_eq_true] at ha
    obtain ⟨hsp, h1, h2, h3, h4, h5, h6, h7, h8⟩ := isVarStart_facts c ha.1
    have hdrop : st.rest.dropWhile isspace = c :: (cs ++ r) := by
      rw [hst]; simp [List.dropWhile, hsp]
    have ha' : a = String.mk (c :: cs) := by
      cases a; simp only at hd; rw [hd]
    simp only [next_token, skip_spaces, hdrop, if_neg h1, if_neg h2, if_neg h3, if_neg h4,
      if_neg h5, if_neg h6, if_neg h7, if_neg h8, if_pos ha.1,
      takeWhile_append_name cs r ha.2 hr, dropWhile_append_name cs r ha.2 hr, ha']

theorem next_token_nil (st : PState) (hst : st.rest = []) :
    next_token st = { st with rest := [], token := "", toktype := .TOK_END } := by
  simp [next_token, skip_spaces, hst]

theorem next_token_op (st : PState) (c : Char) (r : List Char)
    (hc : c = '+' ∨ c = '-' ∨ c = '>' ∨ c = '=' ∨ c = '!') (hst : st.rest = c :: r) :
    next_token st = { st with rest := r, token := String.mk [c], toktype := op_tok c } := by
  rcases hc with h | h | h | h | h <;> subst h <;>
    simp [next_token, skip_spaces, hst, List.dropWhile, isspace, op_tok]

theorem parse_sentences_loop_mono : ∀ (fuel fuel' : Nat) (st : PState) (res : List Node)
    (r : List Node × PState), fuel ≤ fuel' → parse_sentences_loop fuel st res = some r →
    parse_sentences_loop fuel' st res = some r := by
  intro fuel
  induction fuel with
  | zero => intro fuel' st res r _ h; simp [parse_sentences_loop] at h
  | succ k ih =>
    intro fuel' st res r hf h
    obtain ⟨m, rfl⟩ : ∃ m, fuel' = m + 1 := ⟨fuel' - 1, by omega⟩
    simp only [parse_sentences_loop] at h ⊢
    by_cases h1 : st.toktype ≠ .TOK_END
    · rw [if_pos h1] at h ⊢
      cases hs : parse_expression k st with
      | none => simp [hs] at h
      | some q =>
        rw [(parse_mono_all k m (by omega) st q).2.2.2.2.2 hs]
        rw [hs] at h
        obtain ⟨qn, qst⟩ := q
        cases qn with
        | none => exact h
        | some node =>
          simp only at h ⊢
          by_cases h3 : qst.toktype = .TOK_COMMA
          · rw [if_pos h3] at h ⊢
            exact ih m _ _ _ (by omega) h
          · rw [if_neg h3] at h ⊢
            exact h
    · rw [if_neg h1] at h ⊢
      exact h

@[simp] theorem tk_state_rest (st : PState) (r : List Char) (t : String) (tt : TokType) :
    (tk_state st r t tt).rest = r := rfl

@[simp] theorem tk_state_token (st : PState) (r : List Char) (t : String) (tt : TokType) :
    (tk_state st r t tt).token = t := rfl

@[simp] theorem tk_state_toktype (st : PState) (r : List Char) (t : String) (tt : TokType) :
    (tk_state st r t tt).toktype = tt := rfl

@[simp] theorem tk_state_flag (st : PState) (r : List Char) (t : String) (tt : TokType) :
    (tk_state st r t tt).syntax_error_flag = st.syntax_error_flag := rfl

theorem next_tk_name (st : PState) (a : String) (r : List Char) (t : String) (tt : TokType)
    (ha : valid_name a = true) (hr : name_ends r = true) :
    next_token (tk_state st (a.data ++ r) t tt) = tk_state st r a .TOK_VAR :=
  next_token_name _ a r ha hr rfl

theorem next_tk_last (st : PState) (a : String) (t : String) (tt : TokType)
    (ha : valid_name a = true) :
    next_token (tk_state st a.data t tt) = tk_state st [] a .TOK_VAR :=
  next_token_name _ a [] ha rfl (by simp)

theorem next_tk_op (st : PState) (c : Char) (r : List Char) (t : String) (tt : TokType)
    (hc : c = '+' ∨ c = '-' ∨ c = '>' ∨ c = '=' ∨ c = '!') :
    next_token (tk_state st (c :: r) t tt) = tk_state st r (String.mk [c]) (op_tok c) :=
  next_token_op _ c r hc rfl

theorem next_tk_nil (st : PState) (t : String) (tt : TokType) :
    next_token (tk_state st [] t tt) = tk_state st [] "" .TOK_END :=
  next_token_nil _ rfl

theorem parse_sentences_of_loop (s : String) (st : PState) (r : List Node × PState)
    (h : parse_sentences_loop 12 (next_token (tk_state st s.data st.token st.toktype)) [] = some r) :
    parse_sentences s st = some r := by
  unfold parse_sentences parse_fuel
  exact parse_sentences_loop_mono 12 _ _ _ _ (by omega) h

theorem parse_primary_var (fuel : Nat) (st : PState) (hf : 1 ≤ fuel)
    (h : st.toktype = .TOK_VAR) :
    parse_primary fuel st = some (some (.Var st.token), next_token st) := by
  obtain ⟨k, rfl⟩ : ∃ k, fuel = k + 1 := ⟨fuel - 1, by omega⟩
  simp [parse_primary, h]

theorem parse_primary_not (fuel : Nat) (st st1 : PState) (a : Node) (hf : 1 ≤ fuel)
    (h : st.toktype = .TOK_NOT) (hs : parse_primary (fuel - 1) (next_token st) = some (some a, st1)) :
    parse_primary fuel st = some (some (.Not a), st1) := by
  obtain ⟨k, rfl⟩ : ∃ k, fuel = k + 1 := ⟨fuel - 1, by omega⟩
  simp only [Nat.add_sub_cancel] at hs
  simp [parse_primary, h, hs]

/-- One operand, no operator behind it. -/
theorem pb_one {mk : Node → Node → Node} {op : TokType} {sub : PState → PResult} {fuel : Nat}
    {s0 s1 : PState} {x : Node} (hf : 1 ≤ fuel) (h0 : sub s0 = some (some x, s1))
    (h1 : op ≠ s1.toktype) : parse_binary fuel mk op sub s0 = some (some x, s1) := by
  obtain ⟨k, rfl⟩ : ∃ k, fuel = k + 1 := ⟨fuel - 1, by omega⟩
  simp [parse_binary, parse_binary_loop, h0, h1]

/-- Two operands. -/
theorem pb_two {mk : Node → Node → Node} {op : TokType} {sub : PState → PResult} {fuel : Nat}
    {s0 s1 s3 : PState} {x y : Node} (hf : 2 ≤ fuel) (h0 : sub s0 = some (some x, s1))
    (h1 : op = s1.toktype) (h2 : sub (next_token s1) = some (some y, s3))
    (h3 : op ≠ s3.toktype) : parse_binary fuel mk op sub s0 = some (some (mk x y), s3) := by
  obtain ⟨k, rfl⟩ : ∃ k, fuel = k + 2 := ⟨fuel - 2, by omega⟩
  simp only [parse_binary, parse_binary_loop, h0, if_pos h1, h2, if_neg h3]

/-- Three operands: the tree leans to the left. -/
theorem pb_three {mk : Node → Node → Node} {op : TokType} {sub : PState → PResult} {fuel : Nat}
    {s0 s1 s3 s5 : PState} {x y z : Node} (hf : 3 ≤ fuel) (h0 : sub s0 = some (some x, s1))
    (h1 : op = s1.toktype) (h2 : sub (next_token s1) = some (some y, s3))
    (h3 : op = s3.toktype) (h4 : sub (next_token s3) = some (some z, s5))
    (h5 : op ≠ s5.toktype) :
    parse_binary fuel mk op sub s0 = some (some (mk (mk x y) z), s5) := by
  obtain ⟨k, rfl⟩ : ∃ k, fuel = k + 3 := ⟨fuel - 3, by omega⟩
  simp only [parse_binary, parse_binary_loop, h0, if_pos h1, h2, if_pos h3, h4, if_neg h5]

theorem parse_and_eq (fuel : Nat) (hf : 1 ≤ fuel) (st : PState) :
    parse_and fuel st = parse_binary (fuel - 1) Node.And .TOK_AND (parse_primary (fuel - 1)) st := by
  obtain ⟨k, rfl⟩ : ∃ k, fuel = k + 1 := ⟨fuel - 1, by omega⟩
  simp [parse_and]

theorem parse_or_eq (fuel : Nat) (hf : 1 ≤ fuel) (st : PState) :
    parse_or fuel st = parse_binary (fuel - 1) Node.Or .TOK_OR (parse_and (fuel - 1)) st := by
  obtain ⟨k, rfl⟩ : ∃ k, fuel = k + 1 := ⟨fuel - 1, by omega⟩
  simp [parse_or]

theorem parse_imp_eq (fuel : Nat) (hf : 1 ≤ fuel) (st : PState) :
    parse_imp fuel st = parse_binary (fuel - 1) Node.Imp .TOK_IMP (parse_or (fuel - 1)) st := by
  obtain ⟨k, rfl⟩ : ∃ k, fuel = k + 1 := ⟨fuel - 1, by omega⟩
  simp [parse_imp]

theorem parse_iff_eq (fuel : Nat) (hf : 1 ≤ fuel) (st : PState) :
    parse_iff fuel st = parse_binary (fuel - 1) Node.Iff .TOK_IFF (parse_imp (fuel - 1)) st := by
  obtain ⟨k, rfl⟩ : ∃ k, fuel = k + 1 := ⟨fuel - 1, by omega⟩
  simp [parse_iff]

theorem parse_expression_eq (fuel : Nat) (hf : 1 ≤ fuel) (st : PState) :
    parse_expression fuel st = parse_iff (fuel - 1) st := by
  obtain ⟨k, rfl⟩ : ∃ k, fuel = k + 1 := ⟨fuel - 1, by omega⟩
  simp [parse_expression]

/-- A single atom at the `+` level, when no `+` follows. -/
theorem parse_and_atom (fuel : Nat) (st : PState) (hf : 2 ≤ fuel) (h : st.toktype = .TOK_VAR)
    (h1 : TokType.TOK_AND ≠ (next_token st).toktype) :
    parse_and fuel st = some (some (.Var st.token), next_token st) := by
  rw [parse_and_eq fuel (by omega)]
  exact pb_one (by omega) (parse_primary_var _ st (by omega) h) h1

theorem parse_or_atom (fuel : Nat) (st : PState) (hf : 3 ≤ fuel) (h : st.toktype = .TOK_VAR)
    (h1 : TokType.TOK_AND ≠ (next_token st).toktype)
    (h2 : TokType.TOK_OR ≠ (next_token st).toktype) :
    parse_or fuel st = some (some (.Var st.token), next_token st) := by
  rw [parse_or_eq fuel (by omega)]
  exact pb_one (by omega) (parse_and_atom _ st (by omega) h h1) h2

theorem parse_imp_atom (fuel : Nat) (st : PState) (hf : 4 ≤ fuel) (h : st.toktype = .TOK_VAR)
    (h1 : TokType.TOK_AND ≠ (next_token st).toktype)
    (h2 : TokType.TOK_OR ≠ (next_token st).toktype)
    (h3 : TokType.TOK_IMP ≠ (next_token st).toktype) :
    parse_imp fuel st = some (some (.Var st.token), next_token st) := by
  rw [parse_imp_eq fuel (by omega)]
  exact pb_one (by omega) (parse_or_atom _ st (by omega) h h1 h2) h3

theorem parse_sentences_loop_one (fuel : Nat) (st st1 : PState) (n : Node) (hf : 1 ≤ fuel)
    (h0 : st.toktype ≠ .TOK_END) (h : parse_expression (fuel - 1) st = some (some n, st1))
    (h1 : st1.toktype = .TOK_END) :
    parse_sentences_loop fuel st [] = some ([n], st1) := by
  obtain ⟨k, rfl⟩ : ∃ k, fuel = k + 1 := ⟨fuel - 1, by omega⟩
  simp only [Nat.add_sub_cancel] at h
  simp [parse_sentences_loop, h0, h, h1]

/-! ## Three atoms and two operators of one kind -/

theorem dropWhile_isspace_append (ws r : List Char) (hws : ws.all isspace = true) :
    (ws ++ r).dropWhile isspace = r.dropWhile isspace := by
  induction ws with
  | nil => rfl
  | cons x t ih =>
    simp only [List.all_cons, Bool.and_eq_true] at hws
    simp [List.dropWhile, hws.1, ih hws.2]

/-- White space in front of the next token is skipped. -/
theorem next_tk_skip (st : PState) (ws r : List Char) (t : String) (tt : TokType)
    (hws : ws.all isspace = true) :
    next_token (tk_state st (ws ++ r) t tt) = next_token (tk_state st r t tt) := by
  simp only [next_token, skip_spaces, tk_state, dropWhile_isspace_append ws r hws]

theorem isspace_not_isVarChar (x : Char) (h : isspace x = true) : isVarChar x = false := by
  simp only [isspace, Bool.or_eq_true, decide_eq_true_eq, Bool.and_eq_true] at h
  simp only [isVarChar, isalpha, isdigit, Bool.or_eq_false_iff, Bool.and_eq_false_iff,
    decide_eq_false_iff_not]
  omega

/-- A name ends in front of white space that is followed by an operator. -/
theorem name_ends_space (ws r : List Char) (o : Char) (hws : ws.all isspace = true)
    (ho : name_ends (o :: r) = true) : name_ends (ws ++ o :: r) = true := by
  cases ws with
  | nil => exact ho
  | cons x t =>
    simp only [List.all_cons, Bool.and_eq_true] at hws
    simp [name_ends, isspace_not_isVarChar x hws.1]

/-- The six lexer states on a line `a o b o c`, with any white space around the
two operators. -/
theorem lex_three (a b c w1 w2 w3 w4 : String) (o : Char) (st : PState)
    (ha : valid_name a = true) (hb : valid_name b = true) (hc : valid_name c = true)
    (h1 : w1.data.all isspace = true) (h2 : w2.data.all isspace = true)
    (h3 : w3.data.all isspace = true) (h4 : w4.data.all isspace = true)
    (ho : o = '+' ∨ o = '-' ∨ o = '>' ∨ o = '=') :
    ∃ s0 s1 s2 s3 s4 s5 : PState,
      next_token (tk_state st
        (a ++ w1 ++ String.mk [o] ++ w2 ++ b ++ w3 ++ String.mk [o] ++ w4 ++ c).data
        st.token st.toktype) = s0 ∧
      next_token s0 = s1 ∧ next_token s1 = s2 ∧ next_token s2 = s3 ∧ next_token s3 = s4 ∧
      next_token s4 = s5 ∧
      s0.toktype = .TOK_VAR ∧ s0.token = a ∧ s1.toktype = op_tok o ∧
      s2.toktype = .TOK_VAR ∧ s2.token = b ∧ s3.toktype = op_tok o ∧
      s4.toktype = .TOK_VAR ∧ s4.token = c ∧ s5 = tk_state st [] "" .TOK_END := by
  have ho' : o = '+' ∨ o = '-' ∨ o = '>' ∨ o = '=' ∨ o = '!' := by tauto
  have hne : ∀ r, name_ends (o :: r) = true := by
    intro r; rcases ho with h | h | h | h <;> subst h <;> rfl
  have hd : (a ++ w1 ++ String.mk [o] ++ w2 ++ b ++ w3 ++ String.mk [o] ++ w4 ++ c).data
      = a.data ++ (w1.data ++ (o :: (w2.data ++ (b.data ++ (w3.data ++
          (o :: (w4.data ++ c.data))))))) := by
    simp [String.data_append]
  refine ⟨tk_state st (w1.data ++ (o :: (w2.data ++ (b.data ++ (w3.data ++
      (o :: (w4.data ++ c.data))))))) a .TOK_VAR,
    tk_state st (w2.data ++ (b.data ++ (w3.data ++ (o :: (w4.data ++ c.data)))))
      (String.mk [o]) (op_tok o),
    tk_state st (w3.data ++ (o :: (w4.data ++ c.data))) b .TOK_VAR,
    tk_state st (w4.data ++ c.data) (String.mk [o]) (op_tok o),
    tk_state st [] c .TOK_VAR,
    tk_state st [] "" .TOK_END, ?_, ?_, ?_, ?_, ?_, ?_, rfl, rfl, rfl, rfl, rfl, rfl, rfl, rfl, rfl⟩
  · rw [hd]; exact next_tk_name _ _ _ _ _ ha (name_ends_space _ _ _ h1 (hne _))
  · rw [next_tk_skip _ _ _ _ _ h1]; exact next_tk_op _ _ _ _ _ ho'
  · rw [next_tk_skip _ _ _ _ _ h2]
    exact next_tk_name _ _ _ _ _ hb (name_ends_space _ _ _ h3 (hne _))
  · rw [next_tk_skip _ _ _ _ _ h3]; exact next_tk_op _ _ _ _ _ ho'
  · rw [next_tk_skip _ _ _ _ _ h4]; exact next_tk_last _ _ _ _ hc
  · exact next_tk_nil _ _ _

theorem parse_three_and (a b c w1 w2 w3 w4 : String) (st : PState)
    (ha : valid_name a = true) (hb : valid_name b = true) (hc : valid_name c = true)
    (h1 : w1.data.all isspace = true) (h2 : w2.data.all isspace = true)
    (h3 : w3.data.all isspace = true) (h4 : w4.data.all isspace = true) :
    parse_sentences (a ++ w1 ++ "+" ++ w2 ++ b ++ w3 ++ "+" ++ w4 ++ c) st =
      some ([.And (.And (.Var a) (.Var b)) (.Var c)], tk_state st [] "" .TOK_END) := by
  obtain ⟨s0, s1, s2, s3, s4, s5, e0, e1, e2, e3, e4, e5, t0, k0, t1, t2, k2, t3, t4, k4, h5⟩ :=
    lex_three a b c w1 w2 w3 w4 '+' st ha hb hc h1 h2 h3 h4 (by simp)
  apply parse_sentences_of_loop
  have e0' : next_token (tk_state st
      (a ++ w1 ++ "+" ++ w2 ++ b ++ w3 ++ "+" ++ w4 ++ c).data st.token st.toktype) = s0 := e0
  rw [e0']
  have t5 : s5.toktype = .TOK_END := by rw [h5]; rfl
  rw [← h5]
  refine parse_sentences_loop_one 12 _ _ _ (by omega) (by rw [t0]; decide) ?_ t5
  rw [parse_expression_eq _ (by omega), parse_iff_eq _ (by omega)]
  refine pb_one (by omega) ?_ (by rw [t5]; decide)
  rw [parse_imp_eq _ (by omega)]
  refine pb_one (by omega) ?_ (by rw [t5]; decide)
  rw [parse_or_eq _ (by omega)]
  refine pb_one (by omega) ?_ (by rw [t5]; decide)
  rw [parse_and_eq _ (by omega)]
  refine @pb_three _ _ _ _ s0 s1 s3 s5 _ _ _ (by omega) ?_ (by rw [t1]; rfl) ?_ (by rw [t3]; rfl) ?_
    (by rw [t5]; decide)
  · rw [parse_primary_var _ _ (by omega) t0, k0, e1]
  · rw [e2, parse_primary_var _ _ (by omega) t2, k2, e3]
  · rw [e4, parse_primary_var _ _ (by omega) t4, k4, e5]

theorem parse_three_or (a b c w1 w2 w3 w4 : String) (st : PState)
    (ha : valid_name a = true) (hb : valid_name b = true) (hc : valid_name c = true)
    (h1 : w1.data.all isspace = true) (h2 : w2.data.all isspace = true)
    (h3 : w3.data.all isspace = true) (h4 : w4.data.all isspace = true) :
    parse_sentences (a ++ w1 ++ "-" ++ w2 ++ b ++ w3 ++ "-" ++ w4 ++ c) st =
      some ([.Or (.Or (.Var a) (.Var b)) (.Var c)], tk_state st [] "" .TOK_END) := by
  obtain ⟨s0, s1, s2, s3, s4, s5, e0, e1, e2, e3, e4, e5, t0, k0, t1, t2, k2, t3, t4, k4, h5⟩ :=
    lex_three a b c w1 w2 w3 w4 '-' st ha hb hc h1 h2 h3 h4 (by simp)
  apply parse_sentences_of_loop
  have e0' : next_token (tk_state st
      (a ++ w1 ++ "-" ++ w2 ++ b ++ w3 ++ "-" ++ w4 ++ c).data st.token st.toktype) = s0 := e0
  rw [e0']
  have t5 : s5.toktype = .TOK_END := by rw [h5]; rfl
  rw [← h5]
  refine parse_sentences_loop_one 12 _ _ _ (by omega) (by rw [t0]; decide) ?_ t5
  rw [parse_expression_eq _ (by omega), parse_iff_eq _ (by omega)]
  refine pb_one (by omega) ?_ (by rw [t5]; decide)
  rw [parse_imp_eq _ (by omega)]
  refine pb_one (by omega) ?_ (by rw [t5]; decide)
  rw [parse_or_eq _ (by omega)]
  refine @pb_three _ _ _ _ s0 s1 s3 s5 _ _ _ (by omega) ?_ (by rw [t1]; rfl) ?_ (by rw [t3]; rfl) ?_
    (by rw [t5]; decide)
  · rw [parse_and_atom _ _ (by omega) t0 (by rw [e1, t1]; decide), k0, e1]
  · rw [e2, parse_and_atom _ _ (by omega) t2 (by rw [e3, t3]; decide), k2, e3]
  · rw [e4, parse_and_atom _ _ (by omega) t4 (by rw [e5, t5]; decide), k4, e5]

theorem parse_three_imp (a b c w1 w2 w3 w4 : String) (st : PState)
    (ha : valid_name a = true) (hb : valid_name b = true) (hc : valid_name c = true)
    (h1 : w1.data.all isspace = true) (h2 : w2.data.all isspace = true)
    (h3 : w3.data.all isspace = true) (h4 : w4.data.all isspace = true) :
    parse_sentences (a ++ w1 ++ ">" ++ w2 ++ b ++ w3 ++ ">" ++ w4 ++ c) st =
      some ([.Imp (.Imp (.Var a) (.Var b)) (.Var c)], tk_state st [] "" .TOK_END) := by
  obtain ⟨s0, s1, s2, s3, s4, s5, e0, e1, e2, e3, e4, e5, t0, k0, t1, t2, k2, t3, t4, k4, h5⟩ :=
    lex_three a b c w1 w2 w3 w4 '>' st ha hb hc h1 h2 h3 h4 (by simp)
  apply parse_sentences_of_loop
  have e0' : next_token (tk_state st
      (a ++ w1 ++ ">" ++ w2 ++ b ++ w3 ++ ">" ++ w4 ++ c).data st.token st.toktype) = s0 := e0
  rw [e0']
  have t5 : s5.toktype = .TOK_END := by rw [h5]; rfl
  rw [← h5]
  refine parse_sentences_loop_one 12 _ _ _ (by omega) (by rw [t0]; decide) ?_ t5
  rw [parse_expression_eq _ (by omega), parse_iff_eq _ (by omega)]
  refine pb_one (by omega) ?_ (by rw [t5]; decide)
  rw [parse_imp_eq _ (by omega)]
  refine @pb_three _ _ _ _ s0 s1 s3 s5 _ _ _ (by omega) ?_ (by rw [t1]; rfl) ?_ (by rw [t3]; rfl) ?_
    (by rw [t5]; decide)
  · rw [parse_or_atom _ _ (by omega) t0 (by rw [e1, t1]; decide) (by rw [e1, t1]; decide), k0, e1]
  · rw [e2, parse_or_atom _ _ (by omega) t2 (by rw [e3, t3]; decide) (by rw [e3, t3]; decide),
      k2, e3]
  · rw [e4, parse_or_atom _ _ (by omega) t4 (by rw [e5, t5]; decide) (by rw [e5, t5]; decide),
      k4, e5]

theorem parse_three_iff (a b c w1 w2 w3 w4 : String) (st : PState)
    (ha : valid_name a = true) (hb : valid_name b = true) (hc : valid_name c = true)
    (h1 : w1.data.all isspace = true) (h2 : w2.data.all isspace = true)
    (h3 : w3.data.all isspace = true) (h4 : w4.data.all isspace = true) :
    parse_sentences (a ++ w1 ++ "=" ++ w2 ++ b ++ w3 ++ "=" ++ w4 ++ c) st =
      some ([.Iff (.Iff (.Var a) (.Var b)) (.Var c)], tk_state st [] "" .TOK_END) := by
  obtain ⟨s0, s1, s2, s3, s4, s5, e0, e1, e2, e3, e4, e5, t0, k0, t1, t2, k2, t3, t4, k4, h5⟩ :=
    lex_three a b c w1 w2 w3 w4 '=' st ha hb hc h1 h2 h3 h4 (by simp)
  apply parse_sentences_of_loop
  have e0' : next_token (tk_state st
      (a ++ w1 ++ "=" ++ w2 ++ b ++ w3 ++ "=" ++ w4 ++ c).data st.token st.toktype) = s0 := e0
  rw [e0']
  have t5 : s5.toktype = .TOK_END := by rw [h5]; rfl
  rw [← h5]
  refine parse_sentences_loop_one 12 _ _ _ (by omega) (by rw [t0]; decide) ?_ t5
  rw [parse_expression_eq _ (by omega), parse_iff_eq _ (by omega)]
  refine @pb_three _ _ _ _ s0 s1 s3 s5 _ _ _ (by omega) ?_ (by rw [t1]; rfl) ?_ (by rw [t3]; rfl) ?_
    (by rw [t5]; decide)
  · rw [parse_imp_atom _ _ (by omega) t0 (by rw [e1, t1]; decide) (by rw [e1, t1]; decide)
      (by rw [e1, t1]; decide), k0, e1]
  · rw [e2, parse_imp_atom _ _ (by omega) t2 (by rw [e3, t3]; decide) (by rw [e3, t3]; decide)
      (by rw [e3, t3]; decide), k2, e3]
  · rw [e4, parse_imp_atom _ _ (by omega) t4 (by rw [e5, t5]; decide) (by rw [e5, t5]; decide)
      (by rw [e5, t5]; decide), k4, e5]

/-! ## Lines that mix the operators -/

theorem parse_not_not (a : String) (st : PState) (ha : valid_name a = true) :
    parse_sentences ("!!" ++ a) st =
      some ([.Not (.Not (.Var a))], tk_state st [] "" .TOK_END) := by
  apply parse_sentences_of_loop
  have hd : ("!!" ++ a).data = '!' :: '!' :: a.data := by simp [String.data_append]
  obtain ⟨s0, h0⟩ : ∃ s, s = tk_state st ('!' :: a.data) "!" .TOK_NOT := ⟨_, rfl⟩
  obtain ⟨s1, h1⟩ : ∃ s, s = tk_state st a.data "!" .TOK_NOT := ⟨_, rfl⟩
  obtain ⟨s2, h2⟩ : ∃ s, s = tk_state st [] a .TOK_VAR := ⟨_, rfl⟩
  obtain ⟨s3, h3⟩ : ∃ s, s = tk_state st [] "" .TOK_END := ⟨_, rfl⟩
  have e0 : next_token (tk_state st ("!!" ++ a).data st.token st.toktype) = s0 := by
    rw [hd, h0]; exact next_tk_op _ _ _ _ _ (by simp)
  have e1 : next_token s0 = s1 := by rw [h0, h1]; exact next_tk_op _ _ _ _ _ (by simp)
  have e2 : next_token s1 = s2 := by rw [h1, h2]; exact next_tk_last _ _ _ _ ha
  have e3 : next_token s2 = s3 := by rw [h2, h3]; exact next_tk_nil _ _ _
  have t0 : s0.toktype = .TOK_NOT := by rw [h0]; rfl
  have t1 : s1.toktype = .TOK_NOT := by rw [h1]; rfl
  have t2 : s2.toktype = .TOK_VAR := by rw [h2]; rfl
  have t3 : s3.toktype = .TOK_END := by rw [h3]; rfl
  have k2 : s2.token = a := by rw [h2]; rfl
  rw [e0, ← h3]
  refine parse_sentences_loop_one 12 _ _ _ (by omega) (by rw [t0]; decide) ?_ t3
  rw [parse_expression_eq _ (by omega), parse_iff_eq _ (by omega)]
  refine pb_one (by omega) ?_ (by rw [t3]; decide)
  rw [parse_imp_eq _ (by omega)]
  refine pb_one (by omega) ?_ (by rw [t3]; decide)
  rw [parse_or_eq _ (by omega)]
  refine pb_one (by omega) ?_ (by rw [t3]; decide)
  rw [parse_and_eq _ (by omega)]
  refine pb_one (by omega) ?_ (by rw [t3]; decide)
  refine parse_primary_not _ s0 s3 _ (by omega) t0 ?_
  rw [e1]
  refine parse_primary_not _ s1 s3 _ (by omega) t1 ?_
  rw [e2, parse_primary_var _ _ (by omega) t2, k2, e3]

theorem parse_rising (a b c d e : String) (st : PState)
    (ha : valid_name a = true) (hb : valid_name b = true) (hc : valid_name c = true)
    (hd : valid_name d = true) (he : valid_name e = true) :
    parse_sentences (a ++ "=" ++ b ++ ">" ++ c ++ "-" ++ d ++ "+!" ++ e) st =
      some ([.Iff (.Var a) (.Imp (.Var b) (.Or (.Var c) (.And (.Var d) (.Not (.Var e)))))],
        tk_state st [] "" .TOK_END) := by
  apply parse_sentences_of_loop
  have hdat : (a ++ "=" ++ b ++ ">" ++ c ++ "-" ++ d ++ "+!" ++ e).data =
      a.data ++ ('=' :: (b.data ++ ('>' :: (c.data ++ ('-' :: (d.data ++ ('+' :: '!' :: e.data))))))) := by
    simp [String.data_append]
  obtain ⟨s0, h0⟩ : ∃ s, s = tk_state st
    ('=' :: (b.data ++ ('>' :: (c.data ++ ('-' :: (d.data ++ ('+' :: '!' :: e.data)))))))
    a .TOK_VAR := ⟨_, rfl⟩
  obtain ⟨s1, h1⟩ : ∃ s, s = tk_state st
    (b.data ++ ('>' :: (c.data ++ ('-' :: (d.data ++ ('+' :: '!' :: e.data))))))
    "=" .TOK_IFF := ⟨_, rfl⟩
  obtain ⟨s2, h2⟩ : ∃ s, s = tk_state st
    ('>' :: (c.data ++ ('-' :: (d.data ++ ('+' :: '!' :: e.data))))) b .TOK_VAR := ⟨_, rfl⟩
  obtain ⟨s3, h3⟩ : ∃ s, s = tk_state st
    (c.data ++ ('-' :: (d.data ++ ('+' :: '!' :: e.data)))) ">" .TOK_IMP := ⟨_, rfl⟩
  obtain ⟨s4, h4⟩ : ∃ s, s = tk_state st
    ('-' :: (d.data ++ ('+' :: '!' :: e.data))) c .TOK_VAR := ⟨_, rfl⟩
  obtain ⟨s5, h5⟩ : ∃ s, s = tk_state st
    (d.data ++ ('+' :: '!' :: e.data)) "-" .TOK_OR := ⟨_, rfl⟩
  obtain ⟨s6, h6⟩ : ∃ s, s = tk_state st ('+' :: '!' :: e.data) d .TOK_VAR := ⟨_, rfl⟩
  obtain ⟨s7, h7⟩ : ∃ s, s = tk_state st ('!' :: e.data) "+" .TOK_AND := ⟨_, rfl⟩
  obtain ⟨s8, h8⟩ : ∃ s, s = tk_state st e.data "!" .TOK_NOT := ⟨_, rfl⟩
  obtain ⟨s9, h9⟩ : ∃ s, s = tk_state st [] e .TOK_VAR := ⟨_, rfl⟩
  obtain ⟨s10, h10⟩ : ∃ s, s = tk_state st [] "" .TOK_END := ⟨_, rfl⟩
  have e0 : next_token (tk_state st (a ++ "=" ++ b ++ ">" ++ c ++ "-" ++ d ++ "+!" ++ e).data
      st.token st.toktype) = s0 := by
    rw [hdat, h0]; exact next_tk_name _ _ _ _ _ ha rfl
  have e1 : next_token s0 = s1 := by rw [h0, h1]; exact next_tk_op _ _ _ _ _ (by simp)
  have e2 : next_token s1 = s2 := by rw [h1, h2]; exact next_tk_name _ _ _ _ _ hb rfl
  have e3 : next_token s2 = s3 := by rw [h2, h3]; exact next_tk_op _ _ _ _ _ (by simp)
  have e4 : next_token s3 = s4 := by rw [h3, h4]; exact next_tk_name _ _ _ _ _ hc rfl
  have e5 : next_token s4 = s5 := by rw [h4, h5]; exact next_tk_op _ _ _ _ _ (by simp)
  have e6 : next_token s5 = s6 := by rw [h5, h6]; exact next_tk_name _ _ _ _ _ hd rfl
  have e7 : next_token s6 = s7 := by rw [h6, h7]; exact next_tk_op _ _ _ _ _ (by simp)
  have e8 : next_token s7 = s8 := by rw [h7, h8]; exact next_tk_op _ _ _ _ _ (by simp)
  have e9 : next_token s8 = s9 := by rw [h8, h9]; exact next_tk_last _ _ _ _ he
  have e10 : next_token s9 = s10 := by rw [h9, h10]; exact next_tk_nil _ _ _
  have t0 : s0.toktype = .TOK_VAR := by rw [h0]; rfl
  have t1 : s1.toktype = .TOK_IFF := by rw [h1]; rfl
  have t2 : s2.toktype = .TOK_VAR := by rw [h2]; rfl
  have t3 : s3.toktype = .TOK_IMP := by rw [h3]; rfl
  have t4 : s4.toktype = .TOK_VAR := by rw [h4]; rfl
  have t5 : s5.toktype = .TOK_OR := by rw [h5]; rfl
  have t6 : s6.toktype = .TOK_VAR := by rw [h6]; rfl
  have t7 : s7.toktype = .TOK_AND := by rw [h7]; rfl
  have t8 : s8.toktype = .TOK_NOT := by rw [h8]; rfl
  have t9 : s9.toktype = .TOK_VAR := by rw [h9]; rfl
  have t10 : s10.toktype = .TOK_END := by rw [h10]; rfl
  have k0 : s0.token = a := by rw [h0]; rfl
  have k2 : s2.token = b := by rw [h2]; rfl
  have k4 : s4.token = c := by rw [h4]; rfl
  have k6 : s6.token = d := by rw [h6]; rfl
  have k9 : s9.token = e := by rw [h9]; rfl
  rw [e0, ← h10]
  refine parse_sentences_loop_one 12 _ _ _ (by omega) (by rw [t0]; decide) ?_ t10
  rw [parse_expression_eq _ (by omega), parse_iff_eq _ (by omega)]
  refine @pb_two _ _ _ _ s0 s1 s10 _ _ (by omega) ?_ (by rw [t1]) ?_ (by rw [t10]; decide)
  · rw [parse_imp_atom _ _ (by omega) t0 (by rw [e1, t1]; decide) (by rw [e1, t1]; decide)
      (by rw [e1, t1]; decide), k0, e1]
  rw [e2, parse_imp_eq _ (by omega)]
  refine @pb_two _ _ _ _ s2 s3 s10 _ _ (by omega) ?_ (by rw [t3]) ?_ (by rw [t10]; decide)
  · rw [parse_or_atom _ _ (by omega) t2 (by rw [e3, t3]; decide) (by rw [e3, t3]; decide), k2, e3]
  rw [e4, parse_or_eq _ (by omega)]
  refine @pb_two _ _ _ _ s4 s5 s10 _ _ (by omega) ?_ (by rw [t5]) ?_ (by rw [t10]; decide)
  · rw [parse_and_atom _ _ (by omega) t4 (by rw [e5, t5]; decide), k4, e5]
  rw [e6, parse_and_eq _ (by omega)]
  refine @pb_two _ _ _ _ s6 s7 s10 _ _ (by omega) ?_ (by rw [t7]) ?_ (by rw [t10]; decide)
  · rw [parse_primary_var _ _ (by omega) t6, k6, e7]
  rw [e8]
  refine parse_primary_not _ s8 s10 _ (by omega) t8 ?_
  rw [e9, parse_primary_var _ _ (by omega) t9, k9, e10]

theorem parse_falling (a b c d e : String) (st : PState)
    (ha : valid_name a = true) (hb : valid_name b = true) (hc : valid_name c = true)
    (hd : valid_name d = true) (he : valid_name e = true) :
    parse_sentences (a ++ "+" ++ b ++ "-" ++ c ++ ">" ++ d ++ "=" ++ e) st =
      some ([.Iff (.Imp (.Or (.And (.Var a) (.Var b)) (.Var c)) (.Var d)) (.Var e)],
        tk_state st [] "" .TOK_END) := by
  apply parse_sentences_of_loop
  have hdat : (a ++ "+" ++ b ++ "-" ++ c ++ ">" ++ d ++ "=" ++ e).data =
      a.data ++ ('+' :: (b.data ++ ('-' :: (c.data ++ ('>' :: (d.data ++ ('=' :: e.data))))))) := by
    simp [String.data_append]
  obtain ⟨s0, h0⟩ : ∃ s, s = tk_state st
    ('+' :: (b.data ++ ('-' :: (c.data ++ ('>' :: (d.data ++ ('=' :: e.data)))))))
    a .TOK_VAR := ⟨_, rfl⟩
  obtain ⟨s1, h1⟩ : ∃ s, s = tk_state st
    (b.data ++ ('-' :: (c.data ++ ('>' :: (d.data ++ ('=' :: e.data))))))
    "+" .TOK_AND := ⟨_, rfl⟩
  obtain ⟨s2, h2⟩ : ∃ s, s = tk_state st
    ('-' :: (c.data ++ ('>' :: (d.data ++ ('=' :: e.data))))) b .TOK_VAR := ⟨_, rfl⟩
  obtain ⟨s3, h3⟩ : ∃ s, s = tk_state st
    (c.data ++ ('>' :: (d.data ++ ('=' :: e.data)))) "-" .TOK_OR := ⟨_, rfl⟩
  obtain ⟨s4, h4⟩ : ∃ s, s = tk_state st
    ('>' :: (d.data ++ ('=' :: e.data))) c .TOK_VAR := ⟨_, rfl⟩
  obtain ⟨s5, h5⟩ : ∃ s, s = tk_state st (d.data ++ ('=' :: e.data)) ">" .TOK_IMP := ⟨_, rfl⟩
  obtain ⟨s6, h6⟩ : ∃ s, s = tk_state st ('=' :: e.data) d .TOK_VAR := ⟨_, rfl⟩
  obtain ⟨s7, h7⟩ : ∃ s, s = tk_state st e.data "=" .TOK_IFF := ⟨_, rfl⟩
  obtain ⟨s8, h8⟩ : ∃ s, s = tk_state st [] e .TOK_VAR := ⟨_, rfl⟩
  obtain ⟨s9, h9⟩ : ∃ s, s = tk_state st [] "" .TOK_END := ⟨_, rfl⟩
  have e0 : next_token (tk_state st (a ++ "+" ++ b ++ "-" ++ c ++ ">" ++ d ++ "=" ++ e).data
      st.token st.toktype) = s0 := by
    rw [hdat, h0]; exact next_tk_name _ _ _ _ _ ha rfl
  have e1 : next_token s0 = s1 := by rw [h0, h1]; exact next_tk_op _ _ _ _ _ (by simp)
  have e2 : next_token s1 = s2 := by rw [h1, h2]; exact next_tk_name _ _ _ _ _ hb rfl
  have e3 : next_token s2 = s3 := by rw [h2, h3]; exact next_tk_op _ _ _ _ _ (by simp)
  have e4 : next_token s3 = s4 := by rw [h3, h4]; exact next_tk_name _ _ _ _ _ hc rfl
  have e5 : next_token s4 = s5 := by rw [h4, h5]; exact next_tk_op _ _ _ _ _ (by simp)
  have e6 : next_token s5 = s6 := by rw [h5, h6]; exact next_tk_name _ _ _ _ _ hd rfl
  have e7 : next_token s6 = s7 := by rw [h6, h7]; exact next_tk_op _ _ _ _ _ (by simp)
  have e8 : next_token s7 = s8 := by rw [h7, h8]; exact next_tk_last _ _ _ _ he
  have e9 : next_token s8 = s9 := by rw [h8, h9]; exact next_tk_nil _ _ _
  have t0 : s0.toktype = .TOK_VAR := by rw [h0]; rfl
  have t1 : s1.toktype = .TOK_AND := by rw [h1]; rfl
  have t2 : s2.toktype = .TOK_VAR := by rw [h2]; rfl
  have t3 : s3.toktype = .TOK_OR := by rw [h3]; rfl
  have t4 : s4.toktype = .TOK_VAR := by rw [h4]; rfl
  have t5 : s5.toktype = .TOK_IMP := by rw [h5]; rfl
  have t6 : s6.toktype = .TOK_VAR := by rw [h6]; rfl
  have t7 : s7.toktype = .TOK_IFF := by rw [h7]; rfl
  have t8 : s8.toktype = .TOK_VAR := by rw [h8]; rfl
  have t9 : s9.toktype = .TOK_END := by rw [h9]; rfl
  have k0 : s0.token = a := by rw [h0]; rfl
  have k2 : s2.token = b := by rw [h2]; rfl
  have k4 : s4.token = c := by rw [h4]; rfl
  have k6 : s6.token = d := by rw [h6]; rfl
  have k8 : s8.token = e := by rw [h8]; rfl
  rw [e0, ← h9]
  refine parse_sentences_loop_one 12 _ _ _ (by omega) (by rw [t0]; decide) ?_ t9
  rw [parse_expression_eq _ (by omega), parse_iff_eq _ (by omega)]
  refine @pb_two _ _ _ _ s0 s7 s9 _ _ (by omega) ?_ (by rw [t7]) ?_ (by rw [t9]; decide)
  · rw [parse_imp_eq _ (by omega)]
    refine @pb_two _ _ _ _ s0 s5 s7 _ _ (by omega) ?_ (by rw [t5]) ?_ (by rw [t7]; decide)
    · rw [parse_or_eq _ (by omega)]
      refine @pb_two _ _ _ _ s0 s3 s5 _ _ (by omega) ?_ (by rw [t3]) ?_ (by rw [t5]; decide)
      · rw [parse_and_eq _ (by omega)]
        refine @pb_two _ _ _ _ s0 s1 s3 _ _ (by omega) ?_ (by rw [t1]) ?_ (by rw [t3]; decide)
        · rw [parse_primary_var _ _ (by omega) t0, k0, e1]
        · rw [e2, parse_primary_var _ _ (by omega) t2, k2, e3]
      · rw [e4, parse_and_atom _ _ (by omega) t4 (by rw [e5, t5]; decide), k4, e5]
    · rw [e6, parse_or_atom _ _ (by omega) t6 (by rw [e7, t7]; decide) (by rw [e7, t7]; decide),
        k6, e7]
  · rw [e8, parse_imp_atom _ _ (by omega) t8 (by rw [e9, t9]; decide) (by rw [e9, t9]; decide)
      (by rw [e9, t9]; decide), k8, e9]

/-! ## The output format -/

theorem intercalate_go_append (x y sep : String) (l : List String) :
    String.intercalate.go (x ++ y) sep l = x ++ String.intercalate.go y sep l := by
  induction l generalizing y with
  | nil => rfl
  | cons a t ih =>
    simp only [String.intercalate.go]
    rw [String.append_assoc, String.append_assoc, ← String.append_assoc y, ih]

theorem clause_to_string_loop_eq (l : Lit) (rest : List Lit) (s : String) :
    clause_to_string_loop (l :: rest) s =
      String.intercalate.go (s ++ l.toString) "-" (rest.map Lit.toString) := by
  induction rest generalizing l s with
  | nil => simp [clause_to_string_loop, String.intercalate.go]
  | cons l2 t ih =>
    rw [clause_to_string_loop]
    simp only [ne_eq, reduceCtorEq, not_false_eq_true, if_true]
    rw [ih]
    simp [String.intercalate.go]

theorem clause_to_string_many (l1 l2 : Lit) (c : Clause) :
    clause_to_string (l1 :: l2 :: c) =
      "(" ++ String.intercalate "-" ((l1 :: l2 :: c).map Lit.toString) ++ ")" := by
  simp only [clause_to_string, clause_to_string_loop_eq, List.map_cons, String.intercalate]
  rw [intercalate_go_append]

theorem CNF_to_string_loop_eq (c : Clause) (rest : List Clause) (s : String) :
    CNF_to_string_loop (c :: rest) s =
      String.intercalate.go (s ++ clause_to_string c) "+" (rest.map clause_to_string) := by
  induction rest generalizing c s with
  | nil => simp [CNF_to_string_loop, String.intercalate.go]
  | cons c2 t ih =>
    rw [CNF_to_string_loop]
    simp only [ne_eq, reduceCtorEq, not_false_eq_true, if_true]
    rw [ih]
    simp [String.intercalate.go]

theorem CNF_to_string_eq (cnf : List Clause) :
    CNF_to_string cnf = String.intercalate "+" (cnf.map clause_to_string) := by
  cases cnf with
  | nil => rfl
  | cons c rest =>
    simp only [CNF_to_string, CNF_to_string_loop_eq, List.map_cons, String.intercalate]
    simp

/-! ## The comparators are strict total orders -/

theorem char_toNat_inj (a b : Char) (h : a.toNat = b.toNat) : a = b :=
  Char.ext (UInt32.ext (by simpa [Char.toNat] using h))

theorem chars_less_irrefl (a : List Char) : chars_less a a = false := by
  induction a with
  | nil => rfl
  | cons x t ih => simp [chars_less, ih]

theorem chars_less_trans : ∀ (a b c : List Char),
    chars_less a b = true → chars_less b c = true → chars_less a c = true := by
  intro a
  induction a with
  | nil =>
    intro b c h1 h2
    cases b with
    | nil => simp [chars_less] at h1
    | cons y bt =>
      cases c with
      | nil => simp [chars_less] at h2
      | cons z ct => simp [chars_less]
  | cons x at' ih =>
    intro b c h1 h2
    cases b with
    | nil => simp [chars_less] at h1
    | cons y bt =>
      cases c with
      | nil => simp [chars_less] at h2
      | cons z ct =>
        simp only [chars_less] at h1 h2 ⊢
        by_cases hxy : x.toNat < y.toNat
        · by_cases hyz : y.toNat < z.toNat
          · rw [if_pos (by omega)]
          · rw [if_neg hyz] at h2
            by_cases hzy : z.toNat < y.toNat
            · simp [hzy] at h2
            · rw [if_pos (by omega)]
        · rw [if_neg hxy] at h1
          by_cases hyx : y.toNat < x.toNat
          · simp [hyx] at h1
          · rw [if_neg hyx] at h1
            by_cases hyz : y.toNat < z.toNat
            · rw [if_pos (by omega)]
            · rw [if_neg hyz] at h2
              by_cases hzy : z.toNat < y.toNat
              · simp [hzy] at h2
              · rw [if_neg hzy] at h2
                rw [if_neg (by omega), if_neg (by omega)]
                exact ih _ _ h1 h2

theorem chars_less_total : ∀ (a b : List Char),
    chars_less a b = true ∨ a = b ∨ chars_less b a = true := by
  intro a
  induction a with
  | nil =>
    intro b
    cases b with
    | nil => right; left; rfl
    | cons y bt => left; rfl
  | cons x at' ih =>
    intro b
    cases b with
    | nil => right; right; rfl
    | cons y bt =>
      simp only [chars_less]
      by_cases hxy : x.toNat < y.toNat
      · left; rw [if_pos hxy]
      · by_cases hyx : y.toNat < x.toNat
        · right; right; rw [if_pos hyx]
        · rw [if_neg hxy, if_neg hyx, if_neg hyx, if_neg hxy]
          have hx : x = y := char_toNat_inj x y (by omega)
          subst hx
          rcases ih bt with h | h | h
          · left; exact h
          · right; left; rw [h]
          · right; right; exact h

theorem strictTotal_string_less : StrictTotal string_less where
  irrefl a := chars_less_irrefl a.data
  trans a b c := chars_less_trans a.data b.data c.data
  total a b := by
    rcases chars_less_total a.data b.data with h | h | h
    · left; exact h
    · right; left; cases a; cases b; simp only at h; rw [h]
    · right; right; exact h

theorem StrictTotal.asymm {α : Type} {less : α → α → Bool} (h : StrictTotal less) (a b : α)
    (hab : less a b = true) : less b a = false := by
  cases hba : less b a with
  | false => rfl
  | true =>
    have := h.trans a b a hab hba
    rw [h.irrefl] at this
    cases this

/-- The `operator<` of `Lit` is a strict total order. -/
theorem strictTotal_lit_less : StrictTotal Lit.less where
  irrefl a := by simp [Lit.less]
  trans a b c := by
    obtain ⟨av, an⟩ := a
    obtain ⟨bv, bn⟩ := b
    obtain ⟨cv, cn⟩ := c
    simp only [Lit.less]
    intro h1 h2
    by_cases hab : av = bv
    · subst hab
      by_cases hbc : av = cv
      · subst hbc
        simp only [ne_eq, not_true_eq_false, if_false, decide_eq_true_eq] at h1 h2 ⊢
        exact lt_trans h1 h2
      · simp only [ne_eq, hbc, not_false_eq_true, if_true] at h2 ⊢
        exact h2
    · by_cases hbc : bv = cv
      · subst hbc
        simp only [ne_eq, hab, not_false_eq_true, if_true] at h1 ⊢
        exact h1
      · simp only [ne_eq, hab, hbc, not_false_eq_true, if_true] at h1 h2
        have h3 := strictTotal_string_less.trans _ _ _ h1 h2
        by_cases hac : av = cv
        · subst hac
          rw [strictTotal_string_less.asymm _ _ h1] at h2
          cases h2
        · simp only [ne_eq, hac, not_false_eq_true, if_true]
          exact h3
  total a b := by
    obtain ⟨av, an⟩ := a
    obtain ⟨bv, bn⟩ := b
    simp only [Lit.less]
    by_cases hab : av = bv
    · subst hab
      simp only [ne_eq, not_true_eq_false, if_false, decide_eq_true_eq, Lit.mk.injEq, true_and]
      exact lt_trichotomy an bn
    · have hba : ¬ bv = av := fun h => hab h.symm
      simp only [ne_eq, hab, hba, not_false_eq_true, if_true, Lit.mk.injEq, false_and, false_or]
      rcases strictTotal_string_less.total av bv with h | h | h
      · left; exact h
      · exact absurd h hab
      · right; exact h

/-! ## `sort`, `unique` and `normalize_clause` -/

theorem mem_sort {α : Type} (less : α → α → Bool) (l : List α) (x : α) :
    x ∈ sort less l ↔ x ∈ l := by
  unfold sort
  exact (List.perm_insertionSort _ l).mem_iff

theorem sort_perm {α : Type} (less : α → α → Bool) (l : List α) : (sort less l).Perm l := by
  unfold sort
  exact List.perm_insertionSort _ l

/-- The output of `sort` is ascending in the weak sense: no element is greater
than a later one. -/
theorem sort_sorted {α : Type} {less : α → α → Bool} (h : StrictTotal less) (l : List α) :
    (sort less l).Pairwise (fun a b => less b a = false) := by
  unfold sort
  haveI : IsTotal α (fun a b => less b a = false) := ⟨fun a b => by
    rcases h.total a b with hab | hab | hab
    · left; exact h.asymm _ _ hab
    · subst hab; left; exact h.irrefl a
    · right; exact h.asymm _ _ hab⟩
  haveI : IsTrans α (fun a b => less b a = false) := ⟨fun a b c hab hbc => by
    show less c a = false
    cases hca : less c a with
    | false => rfl
    | true =>
      rcases h.total b c with h1 | h1 | h1
      · have := h.trans _ _ _ h1 hca
        rw [hab] at this; cases this
      · subst h1; rw [hab] at hca; cases hca
      · rw [hbc] at h1; cases h1⟩
  exact List.sorted_insertionSort _ l

theorem mem_unique {α : Type} [DecidableEq α] (l : List α) (x : α) : x ∈ unique l ↔ x ∈ l := by
  induction l using unique.induct with
  | case1 => simp [unique]
  | case2 a => simp [unique]
  | case3 a t ih =>
    rw [unique, if_pos rfl, ih]
    simp
  | case4 a b t hab ih =>
    rw [unique, if_neg hab, List.mem_cons, ih]
    simp

/-- After `unique`, a weakly ascending sequence is strictly ascending. -/
theorem unique_ascending {α : Type} [DecidableEq α] {less : α → α → Bool} (h : StrictTotal less)
    (l : List α) (hl : l.Pairwise (fun a b => less b a = false)) : Ascending less (unique l) := by
  unfold Ascending
  induction l using unique.induct with
  | case1 => simp [unique]
  | case2 a => simp [unique]
  | case3 a t ih =>
    rw [unique, if_pos rfl]
    exact ih (List.Pairwise.of_cons hl)
  | case4 a b t hab ih =>
    rw [unique, if_neg hab]
    rw [List.pairwise_cons] at hl ⊢
    refine ⟨?_, ih hl.2⟩
    intro z hz
    rw [mem_unique] at hz
    have hab' : less a b = true := by
      rcases h.total a b with h1 | h1 | h1
      · exact h1
      · exact absurd h1 hab
      · rw [hl.1 b (List.mem_cons_self _ _)] at h1; cases h1
    rcases List.mem_cons.1 hz with hz | hz
    · subst hz; exact hab'
    · have hbz : less z b = false := (List.pairwise_cons.1 hl.2).1 z hz
      rcases h.total b z with h1 | h1 | h1
      · exact h.trans _ _ _ hab' h1
      · subst h1; exact hab'
      · rw [hbz] at h1; cases h1

theorem Ascending.nodup {α : Type} {less : α → α → Bool} (h : StrictTotal less) {l : List α}
    (hl : Ascending less l) : l.Nodup := by
  unfold Ascending at hl
  refine List.Pairwise.imp ?_ hl
  intro a b hab heq
  subst heq
  rw [h.irrefl] at hab
  cases hab

/-- Two strictly ascending sequences with the same elements are equal. -/
theorem Ascending.ext {α : Type} {less : α → α → Bool} (h : StrictTotal less) {l1 l2 : List α}
    (h1 : Ascending less l1) (h2 : Ascending less l2) (hm : ∀ x, x ∈ l1 ↔ x ∈ l2) : l1 = l2 := by
  haveI : IsAntisymm α (fun a b => less a b = true) := ⟨fun a b hab hba => by
    rw [h.asymm _ _ hab] at hba; cases hba⟩
  have hp : l1.Perm l2 := (List.perm_ext_iff_of_nodup (h1.nodup h) (h2.nodup h)).2 hm
  exact List.eq_of_perm_of_sorted hp h1 h2

theorem mem_normalize_clause (c : Clause) (x : Lit) : x ∈ normalize_clause c ↔ x ∈ c := by
  unfold normalize_clause
  rw [mem_unique, mem_sort]

theorem normalize_clause_ascending (c : Clause) : Ascending Lit.less (normalize_clause c) :=
  unique_ascending strictTotal_lit_less _ (sort_sorted strictTotal_lit_less c)

/-! ## The map `seen` and the function `Resolve` -/

theorem SeenMap.has_iff (m : SeenMap) (key : String) :
    m.has key = true ↔ ∃ e ∈ m, e.1 = key := by
  simp [SeenMap.has, List.any_eq_true]

theorem SeenMap.has_set (m : SeenMap) (k : String) (v : Nat) (key : String) :
    (m.set k v).has key = true ↔ (m.has key = true ∨ key = k) := by
  unfold SeenMap.set
  by_cases h : m.has k = true
  · rw [if_pos h]
    constructor
    · intro h1
      left
      rw [SeenMap.has_iff] at h1 ⊢
      obtain ⟨e, he, hk⟩ := h1
      obtain ⟨e0, he0, rfl⟩ := List.mem_map.1 he
      refine ⟨e0, he0, ?_⟩
      by_cases hc : e0.1 = k
      · simp only [hc, beq_self_eq_true, if_true] at hk
        rw [hc, hk]
      · simpa [hc] using hk
    · intro h1
      have h2 : m.has key = true := by
        rcases h1 with h1 | h1
        · exact h1
        · rw [h1]; exact h
      rw [SeenMap.has_iff] at h2 ⊢
      obtain ⟨e, he, hk⟩ := h2
      refine ⟨_, List.mem_map.2 ⟨e, he, rfl⟩, ?_⟩
      by_cases hc : e.1 = k
      · simp only [hc, beq_self_eq_true, if_true]
        rw [← hk, hc]
      · simpa [hc] using hk
  · rw [if_neg h]
    rw [SeenMap.has_iff, SeenMap.has_iff]
    constructor
    · rintro ⟨e, he, hk⟩
      rcases List.mem_append.1 he with he | he
      · left; exact ⟨e, he, hk⟩
      · right
        simp only [List.mem_singleton] at he
        subst he
        exact hk.symm
    · rintro (⟨e, he, hk⟩ | hk)
      · exact ⟨e, List.mem_append_left _ he, hk⟩
      · exact ⟨(k, v), List.mem_append_right _ (List.mem_singleton.2 rfl), hk.symm⟩

theorem seen_init_has (init : List Clause) (key : String) : ∀ n : Nat,
    ((List.range n).foldl
      (fun (m : SeenMap) i => m.set (clause_to_string (init.getD i [])) i) []).has key = true ↔
    ∃ i, i < n ∧ clause_to_string (init.getD i []) = key := by
  intro n
  induction n with
  | zero => simp [SeenMap.has]
  | succ k ih =>
    rw [List.range_succ, List.foldl_append]
    simp only [List.foldl_cons, List.foldl_nil]
    rw [SeenMap.has_set, ih]
    constructor
    · rintro (⟨i, hi, h⟩ | h)
      · exact ⟨i, by omega, h⟩
      · exact ⟨k, by omega, h.symm⟩
    · rintro ⟨i, hi, h⟩
      by_cases hik : i = k
      · subst hik; right; exact h.symm
      · left; exact ⟨i, by omega, h⟩

theorem mem_Resolve (c1 c2 r : Clause) :
    r ∈ Resolve c1 c2 ↔ ∃ i j a b, c1[i]? = some a ∧ c2[j]? = some b ∧
      complementary a b = true ∧
      r = normalize_clause (c1.take i ++ c1.drop (i + 1) ++ (c2.take j ++ c2.drop (j + 1))) := by
  unfold Resolve
  simp only [List.mem_flatMap, List.mem_range]
  constructor
  · rintro ⟨i, hi, j, hj, h⟩
    have h1 : c1[i]? = some c1[i] := List.getElem?_eq_getElem hi
    have h2 : c2[j]? = some c2[j] := List.getElem?_eq_getElem hj
    rw [h1, h2] at h
    simp only at h
    by_cases hc : complementary c1[i] c2[j] = true
    · rw [if_pos hc] at h
      exact ⟨i, j, _, _, h1, h2, hc, List.mem_singleton.1 h⟩
    · rw [if_neg hc] at h
      simp at h
  · rintro ⟨i, j, a, b, h1, h2, hc, hr⟩
    obtain ⟨hi, _⟩ := List.getElem?_eq_some.1 h1
    obtain ⟨hj, _⟩ := List.getElem?_eq_some.1 h2
    refine ⟨i, hi, j, hj, ?_⟩
    rw [h1, h2]
    simp only [hc, if_true]
    exact List.mem_singleton.2 hr

theorem clause_at_append (all ext : List Deriv) (i : Nat) (h : i < all.length) :
    clause_at (all ++ ext) i = clause_at all i := by
  unfold clause_at
  rw [List.getElem?_append_left h]

/-! ## The search loop keeps its invariant -/

theorem Ext.refl (s : Search) : Ext s s := ⟨rfl, ⟨[], by simp⟩, fun _ h => h⟩

theorem Ext.trans {s t u : Search} (h1 : Ext s t) (h2 : Ext t u) : Ext s u := by
  obtain ⟨a1, ⟨e1, b1⟩, c1⟩ := h1
  obtain ⟨a2, ⟨e2, b2⟩, c2⟩ := h2
  refine ⟨by rw [a2, a1], ⟨e1 ++ e2, by rw [b2, b1, List.append_assoc]⟩, fun k h => c2 k (c1 k h)⟩

theorem Ext.all_length_le {s t : Search} (h : Ext s t) : s.all.length ≤ t.all.length := by
  obtain ⟨_, ⟨e, he⟩, _⟩ := h
  rw [he, List.length_append]; omega

theorem Ext.clause_at {s t : Search} (h : Ext s t) (i : Nat) (hi : i < s.all.length) :
    clause_at t.all i = clause_at s.all i := by
  obtain ⟨_, ⟨e, he⟩, _⟩ := h
  rw [he, clause_at_append _ _ _ hi]

/-- Appending the record of a new resolvent of the pair `(j, head)` keeps the
invariant; `f` and `ei` are the new values of `found` and `empty_index`. -/
theorem inv_push {init : List Clause} {s : Search} {j head : Nat} {r : Clause} (f : Bool)
    (ei : Int) (hinv : Inv init s) (hfound : s.found = false) (hj : j < head)
    (hhead : head < s.all.length)
    (hr : r ∈ Resolve (clause_at s.all head) (clause_at s.all j))
    (hnew : s.seen.has (clause_to_string r) = false)
    (hf1 : f = true → r = [] ∧ ei = (s.all.length : Int)) (hf2 : f = false → r ≠ []) :
    Inv init ⟨s.all ++ [{ clause := r, is_initial := false, parent := ⟨j, head⟩ }],
      s.seen.set (clause_to_string r) s.all.length, s.head, f, ei⟩ ∧
    Ext s ⟨s.all ++ [{ clause := r, is_initial := false, parent := ⟨j, head⟩ }],
      s.seen.set (clause_to_string r) s.all.length, s.head, f, ei⟩ := by
  have hsize := hinv.size
  refine ⟨⟨?_, ?_, ?_, ?_, ?_, ?_, ?_, ?_⟩, rfl, ⟨_, rfl⟩, ?_⟩
  · show (s.all ++ _).take init.length = _
    rw [List.take_append_of_le_length hsize]
    exact hinv.prefix_init
  · show init.length ≤ (s.all ++ _).length
    rw [List.length_append]; omega
  · intro k d hk hd
    simp only at hd
    by_cases hlt : k < s.all.length
    · rw [List.getElem?_append_left hlt] at hd
      obtain ⟨h1, a, b, h2, h3, h4, h5⟩ := hinv.derived k d hk hd
      refine ⟨h1, a, b, h2, h3, h4, ?_⟩
      show d.clause ∈ Resolve (clause_at (s.all ++ _) b) (clause_at (s.all ++ _) a)
      rw [clause_at_append _ _ _ (by omega), clause_at_append _ _ _ (by omega)]
      exact h5
    · rw [List.getElem?_append_right (by omega)] at hd
      have hk2 : k = s.all.length := by
        by_contra hne
        have : 1 ≤ k - s.all.length := by omega
        rw [List.getElem?_eq_none (by simpa using this)] at hd
        cases hd
      subst hk2
      simp only [Nat.sub_self, List.getElem?_cons_zero, Option.some.injEq] at hd
      subst hd
      refine ⟨rfl, j, head, rfl, hj, hhead, ?_⟩
      show r ∈ Resolve (clause_at (s.all ++ _) head) (clause_at (s.all ++ _) j)
      rw [clause_at_append _ _ _ hhead, clause_at_append _ _ _ (by omega)]
      exact hr
  · intro key
    show (s.seen.set _ _).has key = true ↔ ∃ d ∈ s.all ++ _, clause_to_string d.clause = key
    rw [SeenMap.has_set, hinv.seen_iff]
    constructor
    · rintro (⟨d, hd, h⟩ | h)
      · exact ⟨d, List.mem_append_left _ hd, h⟩
      · exact ⟨_, List.mem_append_right _ (List.mem_singleton.2 rfl), h.symm⟩
    · rintro ⟨d, hd, h⟩
      rcases List.mem_append.1 hd with hd | hd
      · left; exact ⟨d, hd, h⟩
      · right
        rw [List.mem_singleton.1 hd] at h
        exact h.symm
  · show ((s.all ++ _).drop init.length |>.map fun d => d.clause).Nodup
    rw [List.drop_append_of_le_length hsize, List.map_append, List.nodup_append]
    refine ⟨hinv.nodup, by simp, ?_⟩
    intro c hc1 hc2
    simp only [List.map_cons, List.map_nil, List.mem_singleton] at hc2
    subst hc2
    obtain ⟨d, hd, hdc⟩ := List.mem_map.1 hc1
    have hd' : d ∈ s.all := List.mem_of_mem_drop hd
    have : s.seen.has (clause_to_string c) = true :=
      (hinv.seen_iff _).2 ⟨d, hd', by rw [hdc]⟩
    rw [hnew] at this
    cases this
  · show s.head ≤ (s.all ++ _).length
    have := hinv.head_le
    rw [List.length_append]; omega
  · intro hf
    obtain ⟨h1, h2⟩ := hf1 hf
    refine ⟨s.all.length, h2, by simp, hsize, ?_⟩
    show clause_at (s.all ++ _) s.all.length = []
    unfold clause_at
    rw [List.getElem?_append_right (le_refl _)]
    simpa using h1
  · intro hf d hd
    have hne := hf2 hf
    have hd2 : d ∈ (s.all ++ [(⟨r, false, ⟨j, head⟩⟩ : Deriv)]).drop init.length := hd
    rw [List.drop_append_of_le_length hsize] at hd2
    rcases List.mem_append.1 hd2 with hd3 | hd3
    · exact hinv.no_empty hfound d hd3
    · rw [List.mem_singleton.1 hd3]
      exact hne
  · intro key hk
    show (s.seen.set _ _).has key = true
    rw [SeenMap.has_set]
    left; exact hk

/-- The loop over the resolvents of one pair: the invariant is kept, the state
is extended, and unless the empty clause was found every resolvent of the list
has its signature in `seen` afterwards. -/
theorem add_resolvents_inv {init : List Clause} {j head : Nat} (hj : j < head) :
    ∀ (rs : List Clause) (s : Search), Inv init s → s.found = false → head < s.all.length →
      (∀ r ∈ rs, r ∈ Resolve (clause_at s.all head) (clause_at s.all j)) →
      Inv init (add_resolvents j head rs s) ∧ Ext s (add_resolvents j head rs s) ∧
      ((add_resolvents j head rs s).found = false →
        ∀ r ∈ rs, (add_resolvents j head rs s).seen.has (clause_to_string r) = true) := by
  intro rs
  induction rs with
  | nil =>
    intro s hinv _ _ _
    exact ⟨hinv, Ext.refl s, fun _ r hr => by simp at hr⟩
  | cons r rest ih =>
    intro s hinv hfound hhead hrs
    have hr := hrs r (List.mem_cons_self _ _)
    have hrest : ∀ x ∈ rest, x ∈ Resolve (clause_at s.all head) (clause_at s.all j) :=
      fun x hx => hrs x (List.mem_cons_of_mem _ hx)
    rw [add_resolvents]
    simp only
    by_cases hseen : s.seen.has (clause_to_string r) = true
    · rw [if_pos hseen]
      obtain ⟨h1, h2, h3⟩ := ih s hinv hfound hhead hrest
      refine ⟨h1, h2, fun hf x hx => ?_⟩
      rcases List.mem_cons.1 hx with hx | hx
      · subst hx; exact h2.2.2 _ hseen
      · exact h3 hf x hx
    · rw [if_neg hseen]
      have hnew : s.seen.has (clause_to_string r) = false := by simpa using hseen
      by_cases hemp : r.isEmpty = true
      · rw [if_pos hemp]
        have hr0 : r = [] := List.isEmpty_iff.1 hemp
        obtain ⟨h1, h2⟩ := inv_push true (s.all.length : Int) hinv hfound hj hhead hr hnew
          (fun _ => ⟨hr0, rfl⟩) (fun h => by cases h)
        exact ⟨h1, h2, fun hf => by cases hf⟩
      · rw [if_neg hemp]
        have hr0 : r ≠ [] := fun h => hemp (List.isEmpty_iff.2 h)
        obtain ⟨h1, h2⟩ := inv_push false s.empty_index hinv hfound hj hhead hr hnew
          (fun h => by cases h) (fun _ => hr0)
        have hs1 : ({ s with
            all := s.all ++ [{ clause := r, is_initial := false, parent := ⟨j, head⟩ }],
            seen := s.seen.set (clause_to_string r) s.all.length } : Search) =
          ⟨s.all ++ [{ clause := r, is_initial := false, parent := ⟨j, head⟩ }],
            s.seen.set (clause_to_string r) s.all.length, s.head, false, s.empty_index⟩ := by
          rw [← hfound]
        rw [hs1]
        have hlen := h2.all_length_le
        have hrest' : ∀ x ∈ rest, x ∈ Resolve
            (clause_at (⟨s.all ++ [{ clause := r, is_initial := false, parent := ⟨j, head⟩ }],
              s.seen.set (clause_to_string r) s.all.length, s.head, false,
              s.empty_index⟩ : Search).all head)
            (clause_at (⟨s.all ++ [{ clause := r, is_initial := false, parent := ⟨j, head⟩ }],
              s.seen.set (clause_to_string r) s.all.length, s.head, false,
              s.empty_index⟩ : Search).all j) := by
          intro x hx
          rw [h2.clause_at _ hhead, h2.clause_at _ (by omega)]
          exact hrest x hx
        obtain ⟨k1, k2, k3⟩ := ih _ h1 rfl (by omega) hrest'
        refine ⟨k1, h2.trans k2, fun hf x hx => ?_⟩
        rcases List.mem_cons.1 hx with hx | hx
        · subst hx
          apply k2.2.2
          show (s.seen.set _ _).has _ = true
          rw [SeenMap.has_set]
          right; rfl
        · exact k3 hf x hx

/-- The `for` loop over `j`, up to `n`. -/
theorem for_j_inv {init : List Clause} (s : Search) (hinv : Inv init s)
    (hhead : s.head < s.all.length) : ∀ n, n ≤ s.head →
      Inv init ((List.range n).foldl resolve_pair s) ∧
      Ext s ((List.range n).foldl resolve_pair s) ∧
      (((List.range n).foldl resolve_pair s).found = false →
        ∀ a, a < n → ∀ r ∈ Resolve (clause_at s.all s.head) (clause_at s.all a),
          ((List.range n).foldl resolve_pair s).seen.has (clause_to_string r) = true) := by
  intro n
  induction n with
  | zero =>
    intro _
    exact ⟨hinv, Ext.refl s, fun _ a ha => by omega⟩
  | succ k ih =>
    intro hk
    obtain ⟨h1, h2, h3⟩ := ih (by omega)
    rw [List.range_succ, List.foldl_append]
    simp only [List.foldl_cons, List.foldl_nil]
    generalize (List.range k).foldl resolve_pair s = t at h1 h2 h3
    unfold resolve_pair
    by_cases hf : t.found = true
    · rw [if_pos hf]
      exact ⟨h1, h2, fun hf2 => by rw [hf] at hf2; cases hf2⟩
    · rw [if_neg hf]
      have hf' : t.found = false := by simpa using hf
      have hth : t.head = s.head := h2.1
      have hlen := h2.all_length_le
      obtain ⟨k1, k2, k3⟩ := @add_resolvents_inv init k t.head
        (by omega) (Resolve (clause_at t.all t.head) (clause_at t.all k)) t h1 hf'
        (by omega) (fun r hr => hr)
      refine ⟨k1, h2.trans k2, fun hf2 a ha r hr => ?_⟩
      by_cases hak : a = k
      · subst hak
        apply k3 hf2
        rw [hth, h2.clause_at _ hhead, h2.clause_at _ (by omega)]
        exact hr
      · have hpre : ¬ (t.found = true) := hf
        exact k2.2.2 _ (h3 hf' a (by omega) r hr)

theorem search_step_inv {init : List Clause} (s : Search) (hinv : Inv init s)
    (hsat : Saturated s) (hhead : s.head < s.all.length) (hfound : s.found = false) :
    Inv init (search_step s) ∧ Saturated (search_step s) ∧
      (search_step s).head = s.head + 1 := by
  obtain ⟨h1, h2, h3⟩ := for_j_inv s hinv hhead s.head (le_refl _)
  unfold search_step
  simp only
  generalize (List.range s.head).foldl resolve_pair s = t at h1 h2 h3
  have hth : t.head = s.head := h2.1
  have hlen := h2.all_length_le
  refine ⟨⟨h1.prefix_init, h1.size, h1.derived, h1.seen_iff, h1.nodup, ?_, h1.found_idx,
    h1.no_empty⟩, ?_, by rw [hth]⟩
  · show t.head + 1 ≤ t.all.length
    omega
  · intro hf a b hab hb r hr
    have hf' : t.found = false := hf
    have hb' : b < s.head + 1 := by
      have : b < t.head + 1 := hb
      omega
    have hr' : r ∈ Resolve (clause_at t.all b) (clause_at t.all a) := hr
    rw [h2.clause_at _ (by omega), h2.clause_at _ (by omega)] at hr'
    show t.seen.has (clause_to_string r) = true
    by_cases hbs : b = s.head
    · subst hbs
      exact h3 hf' a hab r hr'
    · exact h2.2.2 _ (hsat hfound a b hab (by omega) r hr')

/-- The `while` loop: when it returns, the invariant holds, every pair has been
resolved, and the loop condition is false. -/
theorem search_inv {init : List Clause} : ∀ (fuel : Nat) (s t : Search), Inv init s →
    Saturated s → search fuel s = some t →
    Inv init t ∧ Saturated t ∧ ¬ (t.head < t.all.length ∧ t.found = false) := by
  intro fuel
  induction fuel with
  | zero => intro s t _ _ h; simp [search] at h
  | succ k ih =>
    intro s t hinv hsat h
    rw [search] at h
    by_cases hc : s.head < s.all.length ∧ s.found = false
    · rw [if_pos hc] at h
      obtain ⟨h1, h2, _⟩ := search_step_inv s hinv hsat hc.1 hc.2
      exact ih _ _ h1 h2 h
    · rw [if_neg hc] at h
      simp only [Option.some.injEq] at h
      subst h
      exact ⟨hinv, hsat, hc⟩

/-- The `while` loop returns when the fuel covers a bound on the registry. -/
theorem search_total {init : List Clause} (B : Nat)
    (hB : ∀ t, Inv init t → t.all.length ≤ B) : ∀ (fuel : Nat) (s : Search), Inv init s →
    Saturated s → B + 1 ≤ fuel + s.head → ∃ t, search fuel s = some t := by
  intro fuel
  induction fuel with
  | zero =>
    intro s hinv _ h
    have := hB s hinv
    have := hinv.head_le
    omega
  | succ k ih =>
    intro s hinv hsat h
    rw [search]
    by_cases hc : s.head < s.all.length ∧ s.found = false
    · rw [if_pos hc]
      obtain ⟨h1, h2, h3⟩ := search_step_inv s hinv hsat hc.1 hc.2
      exact ih _ h1 h2 (by omega)
    · rw [if_neg hc]
      exact ⟨s, rfl⟩

/-- The state in front of the loop satisfies the invariant. -/
theorem inv_search_init (init : List Clause) : Inv init (search_init init) where
  prefix_init := by
    show (init.map _).take init.length = _
    rw [List.take_of_length_le (by simp)]
    rfl
  size := by show init.length ≤ (init.map _).length; simp
  derived := by
    intro k d hk hd
    have : (init.map fun c => ({ clause := c, is_initial := true, parent := ⟨-1, -1⟩ } : Deriv))[k]?
        = some d := hd
    rw [List.getElem?_eq_none (by simpa using hk)] at this
    cases this
  seen_iff := by
    intro key
    show SeenMap.has ((List.range init.length).foldl
      (fun (m : SeenMap) i => m.set (clause_to_string (init.getD i [])) i) []) key = true ↔
      ∃ d ∈ init.map fun c => ({ clause := c, is_initial := true, parent := ⟨-1, -1⟩ } : Deriv),
        clause_to_string d.clause = key
    rw [seen_init_has]
    constructor
    · rintro ⟨i, hi, h⟩
      refine ⟨_, List.mem_map.2 ⟨init[i], List.getElem_mem _, rfl⟩, ?_⟩
      simpa [List.getD_eq_getElem?_getD, List.getElem?_eq_getElem hi] using h
    · rintro ⟨d, hd, h⟩
      obtain ⟨c, hc, rfl⟩ := List.mem_map.1 hd
      obtain ⟨i, hi, rfl⟩ := List.getElem_of_mem hc
      exact ⟨i, hi, by simpa [List.getD_eq_getElem?_getD, List.getElem?_eq_getElem hi] using h⟩
  nodup := by
    show ((init.map _).drop init.length |>.map _).Nodup
    rw [List.drop_of_length_le (by simp)]
    simp
  head_le := by show 0 ≤ _; omega
  found_idx := by intro h; cases h
  no_empty := by
    intro _ d hd
    have : d ∈ (init.map fun c =>
      ({ clause := c, is_initial := true, parent := ⟨-1, -1⟩ } : Deriv)).drop init.length := hd
    rw [List.drop_of_length_le (by simp)] at this
    cases this

theorem saturated_search_init (init : List Clause) : Saturated (search_init init) := by
  intro _ a b _ hb
  have : b < 0 := hb
  omega

/-! ## A bound on the size of the registry -/

theorem Inv.record_initial {init : List Clause} {s : Search} (hinv : Inv init s) (k : Nat)
    (hk : k < init.length) : s.all[k]? = some (init_record init[k]) := by
  have h := congrArg (fun l => l[k]?) hinv.prefix_init
  simp only at h
  rw [List.getElem?_take_of_lt hk] at h
  rw [h, List.getElem?_map, List.getElem?_eq_getElem hk]
  rfl

theorem mem_drop_iff_getElem? {α : Type} (l : List α) (n : Nat) (x : α) :
    x ∈ l.drop n ↔ ∃ k, n ≤ k ∧ l[k]? = some x := by
  rw [List.mem_iff_getElem?]
  constructor
  · rintro ⟨i, hi⟩
    rw [List.getElem?_drop] at hi
    exact ⟨n + i, by omega, hi⟩
  · rintro ⟨k, hk, h⟩
    refine ⟨k - n, ?_⟩
    rw [List.getElem?_drop]
    have : n + (k - n) = k := by omega
    rw [this]; exact h

theorem clause_at_eq {all : List Deriv} {k : Nat} {d : Deriv} (h : all[k]? = some d) :
    clause_at all k = d.clause := by
  unfold clause_at; rw [h]

/-- A literal of a resolvent is a literal of one of the two clauses. -/
theorem mem_of_mem_Resolve {c1 c2 r : Clause} (h : r ∈ Resolve c1 c2) (l : Lit) (hl : l ∈ r) :
    l ∈ c1 ∨ l ∈ c2 := by
  obtain ⟨i, j, a, b, _, _, _, hr⟩ := (mem_Resolve c1 c2 r).1 h
  subst hr
  rw [mem_normalize_clause] at hl
  simp only [List.mem_append] at hl
  rcases hl with (hl | hl) | (hl | hl)
  · left; exact List.mem_of_mem_take hl
  · left; exact List.mem_of_mem_drop hl
  · right; exact List.mem_of_mem_take hl
  · right; exact List.mem_of_mem_drop hl

theorem Resolve_ascending {c1 c2 r : Clause} (h : r ∈ Resolve c1 c2) : Ascending Lit.less r := by
  obtain ⟨i, j, a, b, _, _, _, hr⟩ := (mem_Resolve c1 c2 r).1 h
  subst hr
  exact normalize_clause_ascending _

/-- Every literal of the registry is a literal of the initial clauses. -/
theorem Inv.clause_lits {init : List Clause} {s : Search} (hinv : Inv init s) :
    ∀ (k : Nat) (d : Deriv), s.all[k]? = some d → ∀ l ∈ d.clause, l ∈ init.flatten := by
  intro k
  induction k using Nat.strong_induction_on with
  | _ k ih =>
    intro d hd l hl
    by_cases hk : k < init.length
    · rw [hinv.record_initial k hk] at hd
      simp only [Option.some.injEq] at hd
      subst hd
      exact List.mem_flatten.2 ⟨init[k], List.getElem_mem _, hl⟩
    · obtain ⟨_, a, b, _, hab, hbk, hr⟩ := hinv.derived k d (by omega) hd
      have hklen : k < s.all.length := (List.getElem?_eq_some.1 hd).1
      have ha : s.all[a]? = some s.all[a] := List.getElem?_eq_getElem (by omega)
      have hb : s.all[b]? = some s.all[b] := List.getElem?_eq_getElem (by omega)
      rw [clause_at_eq ha, clause_at_eq hb] at hr
      rcases mem_of_mem_Resolve hr l hl with h | h
      · exact ih b hbk _ hb l h
      · exact ih a (by omega) _ ha l h

/-- Pairwise distinct strictly ascending clauses over the literals of `L` are at
most `2 ^ L.length` many. -/
theorem length_le_of_ascending (L : List Lit) (cs : List Clause) (hnd : cs.Nodup)
    (hasc : ∀ c ∈ cs, Ascending Lit.less c) (hsub : ∀ c ∈ cs, ∀ l ∈ c, l ∈ L) :
    cs.length ≤ 2 ^ L.length := by
  have hinj : ∀ x ∈ cs, ∀ y ∈ cs, x.toFinset = y.toFinset → x = y := by
    intro x hx y hy hxy
    refine Ascending.ext strictTotal_lit_less (hasc x hx) (hasc y hy) (fun l => ?_)
    rw [← List.mem_toFinset, hxy, List.mem_toFinset]
  have hnd2 : (cs.map List.toFinset).Nodup := List.Nodup.map_on hinj hnd
  have hsub2 : (cs.map List.toFinset).toFinset ⊆ L.toFinset.powerset := by
    intro f hf
    rw [List.mem_toFinset] at hf
    obtain ⟨c, hc, rfl⟩ := List.mem_map.1 hf
    rw [Finset.mem_powerset]
    intro l hl
    rw [List.mem_toFinset] at hl ⊢
    exact hsub c hc l hl
  calc cs.length = (cs.map List.toFinset).length := by simp
    _ = (cs.map List.toFinset).toFinset.card := (List.toFinset_card_of_nodup hnd2).symm
    _ ≤ L.toFinset.powerset.card := Finset.card_le_card hsub2
    _ = 2 ^ L.toFinset.card := Finset.card_powerset _
    _ ≤ 2 ^ L.length := Nat.pow_le_pow_right (by omega) (List.toFinset_card_le L)

/-- The registry never holds more than `search_fuel` promises. -/
theorem Inv.length_le {init : List Clause} {s : Search} (hinv : Inv init s) :
    s.all.length ≤ init.length + 2 ^ init.flatten.length := by
  have h1 : ((s.all.drop init.length).map fun d => d.clause).length ≤ 2 ^ init.flatten.length := by
    refine length_le_of_ascending _ _ hinv.nodup ?_ ?_
    · intro c hc
      obtain ⟨d, hd, rfl⟩ := List.mem_map.1 hc
      obtain ⟨k, hk, hkd⟩ := (mem_drop_iff_getElem? _ _ _).1 hd
      obtain ⟨_, a, b, _, _, _, hr⟩ := hinv.derived k d hk hkd
      exact Resolve_ascending hr
    · intro c hc l hl
      obtain ⟨d, hd, rfl⟩ := List.mem_map.1 hc
      obtain ⟨k, hk, hkd⟩ := (mem_drop_iff_getElem? _ _ _).1 hd
      exact hinv.clause_lits k d hkd l hl
  simp only [List.length_map, List.length_drop] at h1
  omega

/-- The resolution search returns, for every initial clause list. -/
theorem search_returns (init : List Clause) :
    ∃ t, search (search_fuel init) (search_init init) = some t ∧ Inv init t ∧ Saturated t ∧
      ¬ (t.head < t.all.length ∧ t.found = false) := by
  obtain ⟨t, ht⟩ := @search_total init (init.length + 2 ^ init.flatten.length)
    (fun t h => h.length_le) (search_fuel init) (search_init init) (inv_search_init init)
    (saturated_search_init init) (by unfold search_fuel; omega)
  exact ⟨t, ht, search_inv _ _ _ (inv_search_init init) (saturated_search_init init) ht⟩

theorem search_mono : ∀ (fuel fuel' : Nat) (s t : Search), fuel ≤ fuel' →
    search fuel s = some t → search fuel' s = some t := by
  intro fuel
  induction fuel with
  | zero => intro fuel' s t _ h; simp [search] at h
  | succ k ih =>
    intro fuel' s t hf h
    obtain ⟨m, rfl⟩ : ∃ m, fuel' = m + 1 := ⟨fuel' - 1, by omega⟩
    rw [search] at h ⊢
    by_cases hc : s.head < s.all.length ∧ s.found = false
    · rw [if_pos hc] at h ⊢
      exact ih m _ _ (by omega) h
    · rw [if_neg hc] at h ⊢
      exact h

/-! ## The normalizer keeps the meaning -/

theorem eliminate_imp_iff_eval (v : String → Bool) (n : Node) :
    (eliminate_imp_iff n).eval v = n.eval v := by
  induction n with
  | Var s => rfl
  | Not a ih => simp [eliminate_imp_iff, Node.eval, ih]
  | And a b iha ihb => simp [eliminate_imp_iff, Node.eval, iha, ihb]
  | Or a b iha ihb => simp [eliminate_imp_iff, Node.eval, iha, ihb]
  | Imp a b iha ihb => simp [eliminate_imp_iff, Node.eval, iha, ihb]
  | Iff a b iha ihb =>
    simp only [eliminate_imp_iff, Node.eval, iha, ihb]
    cases a.eval v <;> cases b.eval v <;> rfl

theorem eliminate_imp_iff_free (n : Node) : (eliminate_imp_iff n).imp_free = true := by
  induction n with
  | Var s => rfl
  | Not a ih => simpa [eliminate_imp_iff, Node.imp_free] using ih
  | And a b iha ihb => simp [eliminate_imp_iff, Node.imp_free, iha, ihb]
  | Or a b iha ihb => simp [eliminate_imp_iff, Node.imp_free, iha, ihb]
  | Imp a b iha ihb => simp [eliminate_imp_iff, Node.imp_free, iha, ihb]
  | Iff a b iha ihb => simp [eliminate_imp_iff, Node.imp_free, iha, ihb]

theorem eliminate_imp_iff_atoms (n : Node) (s : String) (h : s ∈ (eliminate_imp_iff n).atoms) :
    s ∈ n.atoms := by
  induction n with
  | Var x => exact h
  | Not a ih => exact ih h
  | And a b iha ihb =>
    simp only [eliminate_imp_iff, Node.atoms, List.mem_append] at h ⊢
    exact h.imp iha ihb
  | Or a b iha ihb =>
    simp only [eliminate_imp_iff, Node.atoms, List.mem_append] at h ⊢
    exact h.imp iha ihb
  | Imp a b iha ihb =>
    simp only [eliminate_imp_iff, Node.atoms, List.mem_append] at h ⊢
    exact h.imp iha ihb
  | Iff a b iha ihb =>
    simp only [eliminate_imp_iff, Node.atoms, List.mem_append] at h ⊢
    rcases h with (h | h) | (h | h)
    · left; exact iha h
    · right; exact ihb h
    · right; exact ihb h
    · left; exact iha h

theorem nnf_weight_pos (n : Node) : 1 ≤ nnf_weight n := by
  induction n with
  | Var s => simp [nnf_weight]
  | Not a ih => simp only [nnf_weight]; omega
  | And a b _ _ => simp only [nnf_weight]; omega
  | Or a b _ _ => simp only [nnf_weight]; omega
  | Imp a b _ _ => simp only [nnf_weight]; omega
  | Iff a b _ _ => simp only [nnf_weight]; omega

/-- The recursion of `toNNF` returns when the fuel covers the weight; the result
has the meaning of the argument, its atoms are atoms of the argument, and it is
in negation-normal form when the argument has no `IMP` and no `IFF`. -/
theorem toNNF_go_spec : ∀ (fuel : Nat) (n : Node), nnf_weight n ≤ fuel →
    ∃ m, toNNF_go fuel n = some m ∧ (∀ v, m.eval v = n.eval v) ∧
      (n.imp_free = true → m.is_nnf = true) ∧ (∀ s ∈ m.atoms, s ∈ n.atoms) := by
  intro fuel
  induction fuel with
  | zero =>
    intro n h
    have := nnf_weight_pos n
    omega
  | succ k ih =>
    intro n h
    cases n with
    | Var s => exact ⟨_, rfl, fun _ => rfl, fun _ => rfl, fun _ h => h⟩
    | Imp a b => exact ⟨_, rfl, fun _ => rfl, (fun h => by simp [Node.imp_free] at h), fun _ h => h⟩
    | Iff a b => exact ⟨_, rfl, fun _ => rfl, (fun h => by simp [Node.imp_free] at h), fun _ h => h⟩
    | And a b =>
      simp only [nnf_weight] at h
      obtain ⟨ma, ha, ea, na, aa⟩ := ih a (by omega)
      obtain ⟨mb, hb, eb, nb, ab⟩ := ih b (by omega)
      refine ⟨.And ma mb, by simp [toNNF_go, ha, hb], fun v => by simp [Node.eval, ea, eb],
        ?_, ?_⟩
      · intro hf
        simp only [Node.imp_free, Bool.and_eq_true] at hf
        simp [Node.is_nnf, na hf.1, nb hf.2]
      · intro s hs
        simp only [Node.atoms, List.mem_append] at hs ⊢
        exact hs.imp (aa s) (ab s)
    | Or a b =>
      simp only [nnf_weight] at h
      obtain ⟨ma, ha, ea, na, aa⟩ := ih a (by omega)
      obtain ⟨mb, hb, eb, nb, ab⟩ := ih b (by omega)
      refine ⟨.Or ma mb, by simp [toNNF_go, ha, hb], fun v => by simp [Node.eval, ea, eb],
        ?_, ?_⟩
      · intro hf
        simp only [Node.imp_free, Bool.and_eq_true] at hf
        simp [Node.is_nnf, na hf.1, nb hf.2]
      · intro s hs
        simp only [Node.atoms, List.mem_append] at hs ⊢
        exact hs.imp (aa s) (ab s)
    | Not c =>
      cases c with
      | Var s => exact ⟨_, rfl, fun _ => rfl, fun _ => rfl, fun _ h => h⟩
      | Imp a b => exact ⟨_, rfl, fun _ => rfl, (fun h => by simp [Node.imp_free] at h), fun _ h => h⟩
      | Iff a b => exact ⟨_, rfl, fun _ => rfl, (fun h => by simp [Node.imp_free] at h), fun _ h => h⟩
      | Not a =>
        simp only [nnf_weight] at h
        have := nnf_weight_pos a
        obtain ⟨m, hm, em, nm, am⟩ := ih a (by omega)
        exact ⟨m, by simp [toNNF_go, hm], fun v => by simp [Node.eval, em], fun hf => nm hf, am⟩
      | And a b =>
        simp only [nnf_weight] at h
        obtain ⟨m, hm, em, nm, am⟩ := ih (.Or (.Not a) (.Not b))
          (by simp only [nnf_weight]; omega)
        refine ⟨m, by simp [toNNF_go, hm], fun v => ?_, fun hf => nm hf, am⟩
        rw [em]
        simp only [Node.eval]
        cases a.eval v <;> cases b.eval v <;> rfl
      | Or a b =>
        simp only [nnf_weight] at h
        obtain ⟨m, hm, em, nm, am⟩ := ih (.And (.Not a) (.Not b))
          (by simp only [nnf_weight]; omega)
        refine ⟨m, by simp [toNNF_go, hm], fun v => ?_, fun hf => nm hf, am⟩
        rw [em]
        simp only [Node.eval]
        cases a.eval v <;> cases b.eval v <;> rfl

/-- The two passes of the normalizer on any sentence. -/
theorem toNNF_eliminate (n : Node) :
    ∃ m, toNNF (eliminate_imp_iff n) = some m ∧ (∀ v, m.eval v = n.eval v) ∧
      m.is_nnf = true ∧ (∀ s ∈ m.atoms, s ∈ n.atoms) := by
  obtain ⟨m, hm, em, nm, am⟩ := toNNF_go_spec _ (eliminate_imp_iff n) (le_refl _)
  exact ⟨m, hm, fun v => by rw [em, eliminate_imp_iff_eval], nm (eliminate_imp_iff_free n),
    fun s hs => eliminate_imp_iff_atoms n s (am s hs)⟩

/-! ## The CNF converter and the assembly of the initial clauses -/

theorem clause_sat_iff (v : String → Bool) (c : Clause) :
    clause_sat v c = true ↔ ∃ l ∈ c, l.eval v = true := by
  simp [clause_sat, List.any_eq_true]

theorem clause_sat_normalize (v : String → Bool) (c : Clause) :
    clause_sat v (normalize_clause c) = true ↔ clause_sat v c = true := by
  rw [clause_sat_iff, clause_sat_iff]
  constructor
  · rintro ⟨l, hl, h⟩; exact ⟨l, (mem_normalize_clause c l).1 hl, h⟩
  · rintro ⟨l, hl, h⟩; exact ⟨l, (mem_normalize_clause c l).2 hl, h⟩

theorem mem_foldl_add_true (a : Clause) (R : List Clause) : ∀ (acc : List Clause) (c : Clause),
    c ∈ R.foldl (fun out b => add_clause_unique out (a ++ b) true) acc ↔
      c ∈ acc ∨ ∃ b ∈ R, c = normalize_clause (a ++ b) := by
  induction R with
  | nil => intro acc c; simp
  | cons b t ih =>
    intro acc c
    rw [List.foldl_cons, ih]
    simp only [add_clause_unique, Bool.not_true, Bool.false_and, Bool.false_eq_true, if_false,
      List.mem_append, List.mem_singleton, List.mem_cons, exists_eq_or_imp]
    tauto

theorem mem_distribute (L R : List Clause) : ∀ (acc : List Clause) (c : Clause),
    c ∈ L.foldl (fun out a => R.foldl (fun out b => add_clause_unique out (a ++ b) true) out) acc ↔
      c ∈ acc ∨ ∃ a ∈ L, ∃ b ∈ R, c = normalize_clause (a ++ b) := by
  induction L with
  | nil => intro acc c; simp
  | cons a t ih =>
    intro acc c
    rw [List.foldl_cons, ih, mem_foldl_add_true]
    simp only [List.mem_cons, exists_eq_or_imp, or_assoc]

/-- The clauses of a disjunction: the normalized unions of a clause of the left
side with a clause of the right side. -/
theorem mem_nodeToCNF_or (l r : Node) (c : Clause) :
    c ∈ nodeToCNF (.Or l r) ↔
      ∃ a ∈ nodeToCNF l, ∃ b ∈ nodeToCNF r, c = normalize_clause (a ++ b) := by
  simp only [nodeToCNF]
  rw [mem_unique, mem_sort, mem_distribute]
  simp

/-- On a tree in negation-normal form, the clauses of `nodeToCNF` are all true
exactly when the tree is; no clause is empty; the names are atoms of the tree. -/
theorem nodeToCNF_spec (m : Node) (hm : m.is_nnf = true) :
    (∀ v, (∀ c ∈ nodeToCNF m, clause_sat v c = true) ↔ m.eval v = true) ∧
    (∀ c ∈ nodeToCNF m, c ≠ []) ∧ (∀ c ∈ nodeToCNF m, ∀ l ∈ c, l.var ∈ m.atoms) := by
  induction m with
  | Var s =>
    refine ⟨fun v => ?_, ?_, ?_⟩
    · simp [nodeToCNF, clause_sat, Lit.eval, Node.eval]
    · simp [nodeToCNF]
    · simp [nodeToCNF, Node.atoms]
  | Not a _ =>
    cases a with
    | Var s =>
      refine ⟨fun v => ?_, ?_, ?_⟩
      · simp [nodeToCNF, clause_sat, Lit.eval, Node.eval, Node.name]
      · simp [nodeToCNF]
      · simp [nodeToCNF, Node.atoms, Node.name]
    | Not _ => simp [Node.is_nnf] at hm
    | And _ _ => simp [Node.is_nnf] at hm
    | Or _ _ => simp [Node.is_nnf] at hm
    | Imp _ _ => simp [Node.is_nnf] at hm
    | Iff _ _ => simp [Node.is_nnf] at hm
  | And a b iha ihb =>
    simp only [Node.is_nnf, Bool.and_eq_true] at hm
    obtain ⟨a1, a2, a3⟩ := iha hm.1
    obtain ⟨b1, b2, b3⟩ := ihb hm.2
    refine ⟨fun v => ?_, ?_, ?_⟩
    · simp only [nodeToCNF, List.mem_append, Node.eval, Bool.and_eq_true, ← a1 v, ← b1 v]
      constructor
      · intro h; exact ⟨fun c hc => h c (Or.inl hc), fun c hc => h c (Or.inr hc)⟩
      · rintro ⟨h1, h2⟩ c (hc | hc)
        · exact h1 c hc
        · exact h2 c hc
    · intro c hc
      simp only [nodeToCNF, List.mem_append] at hc
      rcases hc with hc | hc
      · exact a2 c hc
      · exact b2 c hc
    · intro c hc l hl
      simp only [nodeToCNF, List.mem_append] at hc
      simp only [Node.atoms, List.mem_append]
      rcases hc with hc | hc
      · left; exact a3 c hc l hl
      · right; exact b3 c hc l hl
  | Or a b iha ihb =>
    simp only [Node.is_nnf, Bool.and_eq_true] at hm
    obtain ⟨a1, a2, a3⟩ := iha hm.1
    obtain ⟨b1, b2, b3⟩ := ihb hm.2
    refine ⟨fun v => ?_, ?_, ?_⟩
    · simp only [Node.eval, Bool.or_eq_true, ← a1 v, ← b1 v]
      constructor
      · intro h
        by_contra hcon
        rw [not_or] at hcon
        obtain ⟨h1, h2⟩ := hcon
        push_neg at h1 h2
        obtain ⟨x, hx, hxs⟩ := h1
        obtain ⟨y, hy, hys⟩ := h2
        have := h _ ((mem_nodeToCNF_or a b _).2 ⟨x, hx, y, hy, rfl⟩)
        rw [clause_sat_normalize, clause_sat_iff] at this
        obtain ⟨l, hl, hlv⟩ := this
        rcases List.mem_append.1 hl with hl | hl
        · exact hxs ((clause_sat_iff v x).2 ⟨l, hl, hlv⟩)
        · exact hys ((clause_sat_iff v y).2 ⟨l, hl, hlv⟩)
      · intro h c hc
        obtain ⟨x, hx, y, hy, rfl⟩ := (mem_nodeToCNF_or a b c).1 hc
        rw [clause_sat_normalize, clause_sat_iff]
        rcases h with h | h
        · obtain ⟨l, hl, hlv⟩ := (clause_sat_iff v x).1 (h x hx)
          exact ⟨l, List.mem_append_left _ hl, hlv⟩
        · obtain ⟨l, hl, hlv⟩ := (clause_sat_iff v y).1 (h y hy)
          exact ⟨l, List.mem_append_right _ hl, hlv⟩
    · intro c hc
      obtain ⟨x, hx, y, hy, rfl⟩ := (mem_nodeToCNF_or a b c).1 hc
      intro hnil
      have hx0 := a2 x hx
      obtain ⟨l, hl⟩ := List.exists_mem_of_ne_nil x hx0
      have : l ∈ normalize_clause (x ++ y) :=
        (mem_normalize_clause _ _).2 (List.mem_append_left _ hl)
      rw [hnil] at this
      cases this
    · intro c hc l hl
      obtain ⟨x, hx, y, hy, rfl⟩ := (mem_nodeToCNF_or a b c).1 hc
      rw [mem_normalize_clause] at hl
      simp only [Node.atoms, List.mem_append]
      rcases List.mem_append.1 hl with hl | hl
      · left; exact a3 x hx l hl
      · right; exact b3 y hy l hl
  | Imp _ _ _ _ => simp [Node.is_nnf] at hm
  | Iff _ _ _ _ => simp [Node.is_nnf] at hm

theorem mem_foldl_add_false (cs : List Clause) : ∀ (acc : List Clause) (c : Clause),
    c ∈ cs.foldl (fun cl c => add_clause_unique cl c false) acc ↔
      c ∈ acc ∨ ∃ c0 ∈ cs, c = normalize_clause c0 := by
  induction cs with
  | nil => intro acc c; simp
  | cons x t ih =>
    intro acc c
    rw [List.foldl_cons, ih]
    have hx : c ∈ add_clause_unique acc x false ↔ c ∈ acc ∨ c = normalize_clause x := by
      unfold add_clause_unique
      simp only [Bool.not_false, Bool.true_and]
      by_cases hc : acc.contains (normalize_clause x) = true
      · rw [if_pos hc]
        constructor
        · intro h; left; exact h
        · rintro (h | h)
          · exact h
          · rw [h]; simpa using hc
      · rw [if_neg hc]
        simp [List.mem_append]
    rw [hx]
    simp only [List.mem_cons, exists_eq_or_imp, or_assoc]

/-- One sentence added to the clause list `cl`: the call returns, the new list
is true exactly when `cl` and the sentence are, and each new clause is non-empty,
strictly ascending and built from atoms of the sentence. -/
theorem add_sentence_spec (cl : List Clause) (n : Node) :
    ∃ cl1, add_sentence cl n = some cl1 ∧
      (∀ v, (∀ c ∈ cl1, clause_sat v c = true) ↔
        ((∀ c ∈ cl, clause_sat v c = true) ∧ n.eval v = true)) ∧
      (∀ c ∈ cl1, c ∈ cl ∨
        (c ≠ [] ∧ Ascending Lit.less c ∧ ∀ l ∈ c, l.var ∈ n.atoms)) := by
  obtain ⟨m, hm, em, nm, am⟩ := toNNF_eliminate n
  obtain ⟨s1, s2, s3⟩ := nodeToCNF_spec m nm
  refine ⟨(nodeToCNF m).foldl (fun cl c => add_clause_unique cl c false) cl,
    by simp only [add_sentence, hm], fun v => ?_, ?_⟩
  · rw [← em v, ← s1 v]
    constructor
    · intro h
      refine ⟨fun c hc => h c ((mem_foldl_add_false _ _ _).2 (Or.inl hc)), fun c hc => ?_⟩
      have := h _ ((mem_foldl_add_false _ _ _).2 (Or.inr ⟨c, hc, rfl⟩))
      exact (clause_sat_normalize v c).1 this
    · rintro ⟨h1, h2⟩ c hc
      rcases (mem_foldl_add_false _ _ _).1 hc with hc | ⟨c0, hc0, rfl⟩
      · exact h1 c hc
      · exact (clause_sat_normalize v c0).2 (h2 c0 hc0)
  · intro c hc
    rcases (mem_foldl_add_false _ _ _).1 hc with hc | ⟨c0, hc0, rfl⟩
    · left; exact hc
    · right
      refine ⟨?_, normalize_clause_ascending c0, fun l hl =>
        am _ (s3 c0 hc0 l ((mem_normalize_clause _ _).1 hl))⟩
      intro hnil
      obtain ⟨l, hl⟩ := List.exists_mem_of_ne_nil c0 (s2 c0 hc0)
      have : l ∈ normalize_clause c0 := (mem_normalize_clause _ _).2 hl
      rw [hnil] at this
      cases this

theorem add_sentences_spec : ∀ (nodes : List Node) (cl : List Clause),
    ∃ cl1, add_sentences nodes cl = some cl1 ∧
      (∀ v, (∀ c ∈ cl1, clause_sat v c = true) ↔
        ((∀ c ∈ cl, clause_sat v c = true) ∧ ∀ n ∈ nodes, n.eval v = true)) ∧
      (∀ c ∈ cl1, c ∈ cl ∨
        (c ≠ [] ∧ Ascending Lit.less c ∧ ∀ l ∈ c, ∃ n ∈ nodes, l.var ∈ n.atoms)) := by
  intro nodes
  induction nodes with
  | nil =>
    intro cl
    exact ⟨cl, rfl, fun v => by simp, fun c hc => Or.inl hc⟩
  | cons n t ih =>
    intro cl
    obtain ⟨cl1, h1, h2, h3⟩ := add_sentence_spec cl n
    obtain ⟨cl2, k1, k2, k3⟩ := ih cl1
    refine ⟨cl2, by simp only [add_sentences, h1, k1], fun v => ?_, fun c hc => ?_⟩
    · rw [k2 v, h2 v]
      simp only [List.mem_cons, forall_eq_or_imp]
      tauto
    · rcases k3 c hc with hc1 | ⟨a, b, d⟩
      · rcases h3 c hc1 with hc2 | ⟨a, b, d⟩
        · left; exact hc2
        · right
          exact ⟨a, b, fun l hl => ⟨n, List.mem_cons_self _ _, d l hl⟩⟩
      · right
        refine ⟨a, b, fun l hl => ?_⟩
        obtain ⟨n', hn', hl'⟩ := d l hl
        exact ⟨n', List.mem_cons_of_mem _ hn', hl'⟩

/-- The initial clause list: it is built, it is true exactly when the knowledge
base is true and the conclusion false, and its clauses are non-empty, strictly
ascending and built from atoms of the sentences. -/
theorem build_init_spec (kb_nodes : List Node) (alpha : Node) :
    ∃ init, build_init kb_nodes alpha = some init ∧
      (∀ v, (∀ c ∈ init, clause_sat v c = true) ↔
        ((∀ n ∈ kb_nodes, n.eval v = true) ∧ alpha.eval v = false)) ∧
      (∀ c ∈ init, c ≠ [] ∧ Ascending Lit.less c ∧
        ∀ l ∈ c, (∃ n ∈ kb_nodes, l.var ∈ n.atoms) ∨ l.var ∈ alpha.atoms) := by
  obtain ⟨cl1, h1, h2, h3⟩ := add_sentences_spec kb_nodes []
  obtain ⟨cl2, k1, k2, k3⟩ := add_sentence_spec cl1 (.Not alpha)
  refine ⟨cl2, by simp only [build_init, h1, k1], fun v => ?_, fun c hc => ?_⟩
  · rw [k2 v, h2 v]
    simp [Node.eval]
  · rcases k3 c hc with hc1 | ⟨a, b, d⟩
    · rcases h3 c hc1 with hc2 | ⟨a, b, d⟩
      · cases hc2
      · exact ⟨a, b, fun l hl => Or.inl (d l hl)⟩
    · exact ⟨a, b, fun l hl => Or.inr (d l hl)⟩

/-! ## Every clause of the registry follows from the initial clauses -/

/-- A literal of a clause other than the one at position `i` survives the removal
of position `i`. -/
theorem mem_remove_of_ne {cl : Clause} {i : Nat} {a x : Lit}
    (h : cl[i]? = some a) (hx : x ∈ cl) (hne : x ≠ a) : x ∈ cl.take i ++ cl.drop (i + 1) := by
  obtain ⟨hi, ha⟩ := List.getElem?_eq_some.1 h
  have hsplit : cl = cl.take i ++ (cl[i] :: cl.drop (i + 1)) := by
    rw [← List.drop_eq_getElem_cons hi, List.take_append_drop]
  rw [hsplit] at hx
  simp only [List.mem_append, List.mem_cons] at hx ⊢
  rcases hx with hx | hx | hx
  · left; exact hx
  · rw [ha] at hx; exact absurd hx hne
  · right; exact hx

theorem complementary_eval (v : String → Bool) (a b : Lit) (h : complementary a b = true) :
    a.eval v = !(b.eval v) := by
  simp only [complementary, Bool.and_eq_true, beq_iff_eq, bne_iff_ne, ne_eq] at h
  obtain ⟨h1, h2⟩ := h
  simp only [Lit.eval, h1]
  cases v b.var <;> cases ha : a.neg <;> cases hb : b.neg <;> simp_all

/-- The resolution rule is sound. -/
theorem Resolve_sound (v : String → Bool) {c1 c2 r : Clause} (h : r ∈ Resolve c1 c2)
    (h1 : clause_sat v c1 = true) (h2 : clause_sat v c2 = true) : clause_sat v r = true := by
  obtain ⟨i, j, a, b, hi, hj, hc, hr⟩ := (mem_Resolve c1 c2 r).1 h
  subst hr
  rw [clause_sat_normalize, clause_sat_iff]
  obtain ⟨x, hx, hxv⟩ := (clause_sat_iff v c1).1 h1
  obtain ⟨y, hy, hyv⟩ := (clause_sat_iff v c2).1 h2
  have hab := complementary_eval v a b hc
  by_cases hav : a.eval v = true
  · have hbv : b.eval v = false := by rw [hav] at hab; simpa using hab.symm
    have hne : y ≠ b := fun e => by rw [e, hbv] at hyv; cases hyv
    exact ⟨y, List.mem_append_right _ (mem_remove_of_ne hj hy hne), hyv⟩
  · have hne : x ≠ a := fun e => by rw [e] at hxv; exact hav hxv
    exact ⟨x, List.mem_append_left _ (mem_remove_of_ne hi hx hne), hxv⟩

theorem Inv.sound {init : List Clause} {s : Search} (hinv : Inv init s) (v : String → Bool)
    (hv : ∀ c ∈ init, clause_sat v c = true) :
    ∀ (k : Nat) (d : Deriv), s.all[k]? = some d → clause_sat v d.clause = true := by
  intro k
  induction k using Nat.strong_induction_on with
  | _ k ih =>
    intro d hd
    by_cases hk : k < init.length
    · rw [hinv.record_initial k hk] at hd
      simp only [Option.some.injEq] at hd
      subst hd
      exact hv _ (List.getElem_mem _)
    · obtain ⟨_, a, b, _, hab, hbk, hr⟩ := hinv.derived k d (by omega) hd
      have hklen : k < s.all.length := (List.getElem?_eq_some.1 hd).1
      have ha : s.all[a]? = some s.all[a] := List.getElem?_eq_getElem (by omega)
      have hb : s.all[b]? = some s.all[b] := List.getElem?_eq_getElem (by omega)
      rw [clause_at_eq ha, clause_at_eq hb] at hr
      exact Resolve_sound v hr (ih b hbk _ hb) (ih a (by omega) _ ha)

/-- When the empty clause was found, no assignment makes every initial clause true. -/
theorem Inv.found_unsat {init : List Clause} {s : Search} (hinv : Inv init s)
    (hf : s.found = true) (v : String → Bool) : ¬ ∀ c ∈ init, clause_sat v c = true := by
  intro hv
  obtain ⟨idx, _, hlen, _, hemp⟩ := hinv.found_idx hf
  have hd : s.all[idx]? = some s.all[idx] := List.getElem?_eq_getElem (by omega)
  have := hinv.sound v hv idx _ hd
  rw [← clause_at_eq hd, hemp] at this
  simp [clause_sat] at this

/-! ## The backward walk and the printed trace -/

/-- The walk `collect` from a record of the registry returns; it appends to
`used`, and appends at least one step when the record is a derived one. -/
theorem collect_total {init : List Clause} {s : Search} (hinv : Inv init s) :
    ∀ (fuel idx : Nat) (used : List (Int × Parent)), idx < fuel → idx < s.all.length →
      ∃ ext, collect s.all fuel (idx : Int) used = some (used ++ ext) ∧
        (init.length ≤ idx → ext ≠ []) := by
  intro fuel
  induction fuel with
  | zero => intro idx used h; omega
  | succ k ih =>
    intro idx used hfuel hidx
    have hd : s.all[idx]? = some s.all[idx] := List.getElem?_eq_getElem hidx
    rw [collect]
    have hneg : ¬ ((idx : Int) < 0) := by omega
    rw [if_neg hneg]
    simp only [Int.toNat_ofNat, hd]
    by_cases hk : idx < init.length
    · have h2 := hinv.record_initial idx hk
      rw [hd] at h2
      simp only [Option.some.injEq] at h2
      rw [h2]
      simp only [init_record, if_true]
      exact ⟨[], by simp, fun h => by omega⟩
    · obtain ⟨hni, a, b, hp, hab, hbk, _⟩ := hinv.derived idx _ (by omega) hd
      rw [hni]
      simp only [Bool.false_eq_true, if_false, hp]
      obtain ⟨e1, h1, _⟩ := ih a (used ++ [((idx : Int), s.all[idx].parent)]) (by omega) (by omega)
      rw [hp] at h1
      rw [h1]
      simp only
      obtain ⟨e2, h2, _⟩ := ih b (used ++ [((idx : Int), (⟨(a : Int), (b : Int)⟩ : Parent))] ++ e1)
        (by omega) (by omega)
      rw [h2]
      exact ⟨[((idx : Int), (⟨(a : Int), (b : Int)⟩ : Parent))] ++ e1 ++ e2,
        by simp [List.append_assoc], fun _ => by simp⟩

theorem length_trace_lines (all : List Deriv) : ∀ (used : List (Int × Parent))
    (needed : List Bool), (trace_lines all used needed).length = used.length := by
  intro used
  induction used with
  | nil => intro needed; rfl
  | cons x t ih =>
    intro needed
    obtain ⟨idx, p⟩ := x
    simp [trace_lines, ih]

/-- The branch `if(found)`: the walk returns at least one step, and the output
is `yes`, the count, the initial CNF, and one line per step. -/
theorem print_trace_spec {init : List Clause} {s : Search} (hinv : Inv init s)
    (hf : s.found = true) :
    ∃ (used : List (Int × Parent)) (steps : List String),
      collect s.all s.all.length s.empty_index [] = some used ∧ used ≠ [] ∧
      print_trace init s =
        some ("yes" :: toString (used.length + 1) :: CNF_to_string init :: steps) ∧
      steps.length = used.length := by
  obtain ⟨idx, h1, h2, h3, _⟩ := hinv.found_idx hf
  obtain ⟨ext, hc, hne⟩ := collect_total hinv s.all.length idx [] (by omega) (by omega)
  rw [← h1] at hc
  simp only [List.nil_append] at hc
  refine ⟨ext, trace_lines s.all ext.reverse (needed_init s.all.length init.length), hc,
    hne h3, ?_, by rw [length_trace_lines, List.length_reverse]⟩
  unfold print_trace
  rw [hc]
  simp

/-- The part of `main` after parsing returns, with the result of the search. -/
theorem prove_spec (kb_nodes : List Node) (alpha : Node) :
    ∃ init t, build_init kb_nodes alpha = some init ∧
      search (search_fuel init) (search_init init) = some t ∧ Inv init t ∧ Saturated t ∧
      ¬ (t.head < t.all.length ∧ t.found = false) ∧
      ((t.found = false ∧ prove kb_nodes alpha = some ["no"]) ∨
       (t.found = true ∧ ∃ (used : List (Int × Parent)) (steps : List String),
          collect t.all t.all.length t.empty_index [] = some used ∧ used ≠ [] ∧
          prove kb_nodes alpha =
            some ("yes" :: toString (used.length + 1) :: CNF_to_string init :: steps) ∧
          steps.length = used.length)) := by
  obtain ⟨init, hinit, _⟩ := build_init_spec kb_nodes alpha
  obtain ⟨t, ht, hinv, hsat, hstop⟩ := search_returns init
  refine ⟨init, t, hinit, ht, hinv, hsat, hstop, ?_⟩
  cases hf : t.found with
  | false =>
    left
    refine ⟨rfl, ?_⟩
    simp [prove, hinit, ht, hf]
  | true =>
    right
    obtain ⟨used, steps, h1, h2, h3, h4⟩ := print_trace_spec hinv hf
    refine ⟨rfl, used, steps, h1, h2, ?_, h4⟩
    simp only [prove, hinit, ht, hf, if_true]
    exact h3

/-! ## The function `main` -/

/-- When both lines parse, the conclusion to one sentence, `main` is `prove`. -/
theorem main_eq_prove (kb_line alpha_line : String) (kb_nodes : List Node) (st1 : PState)
    (alpha : Node) (st2 : PState)
    (h1 : parse_sentences kb_line initial_state = some (kb_nodes, st1))
    (hf1 : st1.syntax_error_flag = false)
    (h2 : parse_sentences alpha_line st1 = some ([alpha], st2))
    (hf2 : st2.syntax_error_flag = false) :
    main kb_line alpha_line = prove kb_nodes alpha := by
  simp [main, h1, hf1, h2, hf2]

/-- The three ways `main` ends. -/
theorem main_cases (kb_line alpha_line : String) :
    main kb_line alpha_line = some ["syntax error"] ∨
    ∃ kb_nodes st1 alpha st2,
      parse_sentences kb_line initial_state = some (kb_nodes, st1) ∧
      st1.syntax_error_flag = false ∧
      parse_sentences alpha_line st1 = some ([alpha], st2) ∧
      st2.syntax_error_flag = false ∧
      main kb_line alpha_line = prove kb_nodes alpha := by
  obtain ⟨kb_nodes, st1, h1⟩ := parse_sentences_total kb_line initial_state
  obtain ⟨tmp, st2, h2⟩ := parse_sentences_total alpha_line st1
  by_cases hf1 : st1.syntax_error_flag = true
  · left; simp [main, h1, hf1]
  have hf1' : st1.syntax_error_flag = false := by simpa using hf1
  by_cases hf2 : st2.syntax_error_flag = true
  · left
    have := parse_sentences_flag alpha_line st1 (tmp, st2) hf1' h2 hf2
    simp only at this
    subst this
    simp [main, h1, hf1', h2]
  have hf2' : st2.syntax_error_flag = false := by simpa using hf2
  match tmp, h2 with
  | [], h2 => left; simp [main, h1, hf1', h2]
  | [a], h2 =>
    right
    exact ⟨kb_nodes, st1, a, st2, h1, hf1', h2, hf2',
      main_eq_prove _ _ _ _ _ _ h1 hf1' h2 hf2'⟩
  | _ :: _ :: _, h2 => left; simp [main, h1, hf1', h2]

/-- When the search finds the empty clause, the conclusion is entailed. -/
theorem found_entails (kb_nodes : List Node) (alpha : Node) (init : List Clause) (t : Search)
    (hinit : build_init kb_nodes alpha = some init) (hinv : Inv init t)
    (hf : t.found = true) : Entails kb_nodes alpha := by
  obtain ⟨init', hinit', hsem, _⟩ := build_init_spec kb_nodes alpha
  rw [hinit] at hinit'
  simp only [Option.some.injEq] at hinit'
  subst hinit'
  intro v hv
  by_contra hne
  have hfalse : alpha.eval v = false := by simpa using hne
  exact hinv.found_unsat hf v ((hsem v).2 ⟨hv, hfalse⟩)

/-! ## Resolution is refutation-complete -/

theorem flatMap_ite_singleton {α β : Type} (p : α → Bool) (f : α → β) (l : List α) :
    (l.flatMap fun x => if p x = true then [f x] else []) = (l.filter p).map f := by
  induction l with
  | nil => rfl
  | cons x t ih =>
    rw [List.flatMap_cons, ih]
    by_cases h : p x = true
    · simp [h]
    · simp [h]

/-- The function `Resolve` is the list described by `Resolve_by_pairs`. -/
theorem Resolve_eq_by_pairs (c1 c2 : Clause) : Resolve c1 c2 = Resolve_by_pairs c1 c2 := by
  unfold Resolve Resolve_by_pairs complementary_pairs
  rw [← flatMap_ite_singleton, List.flatMap_assoc]
  refine List.flatMap_congr (fun i _ => ?_)
  rw [List.flatMap_map]
  refine List.flatMap_congr (fun j _ => ?_)
  simp only [List.eraseIdx_eq_take_drop_succ, List.append_assoc]
  cases h1 : c1[i]? with
  | none => simp
  | some a =>
    cases h2 : c2[j]? with
    | none => simp
    | some b =>
      simp only [complementary, Bool.and_eq_true, beq_iff_eq, bne_iff_ne, ne_eq,
        decide_eq_true_eq]

theorem complementary_pairs_nil (c1 c2 : Clause)
    (h : ∀ a ∈ c1, ∀ b ∈ c2, ¬ (a.var = b.var ∧ a.neg ≠ b.neg)) :
    complementary_pairs c1 c2 = [] := by
  unfold complementary_pairs
  rw [List.filter_eq_nil_iff]
  intro p _
  cases h1 : c1[p.1]? with
  | none => simp
  | some a =>
    cases h2 : c2[p.2]? with
    | none => simp
    | some b =>
      have ha : a ∈ c1 := List.mem_iff_getElem?.2 ⟨_, h1⟩
      have hb : b ∈ c2 := List.mem_iff_getElem?.2 ⟨_, h2⟩
      simpa using h a ha b hb

/-! ## Canonical clauses, and the normalizer's result -/

/-- A strictly ascending clause is left unchanged by `normalize_clause`. -/
theorem normalize_clause_of_ascending (c : Clause) (h : Ascending Lit.less c) :
    normalize_clause c = c :=
  Ascending.ext strictTotal_lit_less (normalize_clause_ascending c) h (mem_normalize_clause c)

/-- The order of the literals: by name, and for one name the positive literal
before the negated one. -/
theorem Lit.less_iff (a b : Lit) :
    Lit.less a b = true ↔
      (string_less a.var b.var = true ∨ (a.var = b.var ∧ a.neg = false ∧ b.neg = true)) := by
  obtain ⟨av, an⟩ := a
  obtain ⟨bv, bn⟩ := b
  unfold Lit.less
  by_cases h : av = bv
  · subst h
    have hirr : string_less av av = false := strictTotal_string_less.irrefl _
    cases an <;> cases bn <;> simp [hirr]
  · simp only [ne_eq, h, not_false_eq_true, if_true, false_and, or_false]

theorem toNNF_go_mono : ∀ (fuel fuel' : Nat) (n m : Node), fuel ≤ fuel' →
    toNNF_go fuel n = some m → toNNF_go fuel' n = some m := by
  intro fuel
  induction fuel with
  | zero => intro fuel' n m _ h; simp [toNNF_go] at h
  | succ k ih =>
    intro fuel' n m hf h
    obtain ⟨j, rfl⟩ : ∃ j, fuel' = j + 1 := ⟨fuel' - 1, by omega⟩
    have hkj : k ≤ j := by omega
    cases n with
    | Var s => exact h
    | Imp a b => exact h
    | Iff a b => exact h
    | And a b =>
      simp only [toNNF_go] at h ⊢
      cases ha : toNNF_go k a with
      | none => simp [ha] at h
      | some x =>
        cases hb : toNNF_go k b with
        | none => simp [ha, hb] at h
        | some y =>
          rw [ha, hb] at h
          rw [ih j a x hkj ha, ih j b y hkj hb]
          exact h
    | Or a b =>
      simp only [toNNF_go] at h ⊢
      cases ha : toNNF_go k a with
      | none => simp [ha] at h
      | some x =>
        cases hb : toNNF_go k b with
        | none => simp [ha, hb] at h
        | some y =>
          rw [ha, hb] at h
          rw [ih j a x hkj ha, ih j b y hkj hb]
          exact h
    | Not c =>
      cases c with
      | Var s => exact h
      | Imp a b => exact h
      | Iff a b => exact h
      | Not a =>
        simp only [toNNF_go] at h ⊢
        exact ih j _ _ hkj h
      | And a b =>
        simp only [toNNF_go] at h ⊢
        exact ih j _ _ hkj h
      | Or a b =>
        simp only [toNNF_go] at h ⊢
        exact ih j _ _ hkj h

/-- The clause list of a tree in negation-normal form is not empty. -/
theorem nodeToCNF_ne_nil (m : Node) (hm : m.is_nnf = true) : nodeToCNF m ≠ [] := by
  induction m with
  | Var s => simp [nodeToCNF]
  | Not a _ =>
    cases a with
    | Var s => simp [nodeToCNF]
    | Not _ => simp [Node.is_nnf] at hm
    | And _ _ => simp [Node.is_nnf] at hm
    | Or _ _ => simp [Node.is_nnf] at hm
    | Imp _ _ => simp [Node.is_nnf] at hm
    | Iff _ _ => simp [Node.is_nnf] at hm
  | And a b iha _ =>
    simp only [Node.is_nnf, Bool.and_eq_true] at hm
    simp only [nodeToCNF, ne_eq, List.append_eq_nil, not_and]
    intro h
    exact absurd h (iha hm.1)
  | Or a b iha ihb =>
    simp only [Node.is_nnf, Bool.and_eq_true] at hm
    obtain ⟨x, hx⟩ := List.exists_mem_of_ne_nil _ (iha hm.1)
    obtain ⟨y, hy⟩ := List.exists_mem_of_ne_nil _ (ihb hm.2)
    have := (mem_nodeToCNF_or a b _).2 ⟨x, hx, y, hy, rfl⟩
    exact List.ne_nil_of_mem this
  | Imp _ _ _ _ => simp [Node.is_nnf] at hm
  | Iff _ _ _ _ => simp [Node.is_nnf] at hm

/-! ## The invariant at every point of the search -/

theorem search_iter_inv {init : List Clause} : ∀ (n : Nat) (s : Search), Inv init s →
    Saturated s → Inv init (search_iter n s) ∧ Saturated (search_iter n s) := by
  intro n
  induction n with
  | zero => intro s h1 h2; exact ⟨h1, h2⟩
  | succ k ih =>
    intro s h1 h2
    rw [search_iter]
    by_cases hc : s.head < s.all.length ∧ s.found = false
    · rw [if_pos hc]
      obtain ⟨k1, k2, _⟩ := search_step_inv s h1 h2 hc.1 hc.2
      exact ih _ k1 k2
    · rw [if_neg hc]
      exact ⟨h1, h2⟩

/-- The result of the `while` loop is the state after as many passes as there was fuel. -/
theorem search_eq_iter : ∀ (fuel : Nat) (s t : Search), search fuel s = some t →
    t = search_iter fuel s := by
  intro fuel
  induction fuel with
  | zero => intro s t h; simp [search] at h
  | succ k ih =>
    intro s t h
    rw [search] at h
    rw [search_iter]
    by_cases hc : s.head < s.all.length ∧ s.found = false
    · rw [if_pos hc] at h ⊢
      exact ih _ _ h
    · rw [if_neg hc] at h ⊢
      simpa using h.symm

theorem resolve_pair_upto_inv {init : List Clause} (m : Nat) (t : Search) (k : Nat)
    (hinv : Inv init t) (hhead : t.head < t.all.length) (hk : k < t.head) :
    Inv init (resolve_pair_upto m t k) := by
  unfold resolve_pair_upto
  by_cases hf : t.found = true
  · rw [if_pos hf]; exact hinv
  · rw [if_neg hf]
    have hf' : t.found = false := by simpa using hf
    exact (@add_resolvents_inv init k t.head hk _ t hinv hf' hhead
      (fun r hr => List.mem_of_mem_take hr)).1

/-- The invariant holds at every point of the search. -/
theorem search_point_inv (init : List Clause) (n k m : Nat) :
    Inv init (search_point init n k m) := by
  obtain ⟨h1, _⟩ := search_iter_inv n (search_init init) (inv_search_init init)
    (saturated_search_init init)
  unfold search_point
  simp only
  generalize search_iter n (search_init init) = s at h1
  by_cases hc : s.head < s.all.length ∧ s.found = false
  · rw [if_pos hc]
    by_cases hk : k < s.head
    · rw [if_pos hk]
      obtain ⟨k1, k2, _⟩ := for_j_inv s h1 hc.1 k (by omega)
      have hlen := k2.all_length_le
      exact resolve_pair_upto_inv m _ k k1 (by rw [k2.1]; omega) (by rw [k2.1]; exact hk)
    · rw [if_neg hk]
      exact (for_j_inv s h1 hc.1 s.head (le_refl _)).1
  · rw [if_neg hc]; exact h1

theorem search_point_zero (init : List Clause) (n : Nat) :
    search_point init n 0 0 = search_iter n (search_init init) := by
  unfold search_point
  simp only
  generalize search_iter n (search_init init) = s
  by_cases hc : s.head < s.all.length ∧ s.found = false
  · rw [if_pos hc]
    by_cases hk : 0 < s.head
    · rw [if_pos hk]
      simp [resolve_pair_upto, add_resolvents]
    · rw [if_neg hk]
      have : s.head = 0 := by omega
      rw [this]; rfl
  · rw [if_neg hc]

/-! ### Uniqueness of the clauses of the registry -/

theorem uniq_push {init : List Clause} {s : Search} (hinv : Inv init s) (hu : Uniq s.all)
    (r : Clause) (p : Parent) (hnew : s.seen.has (clause_to_string r) = false) :
    Uniq (s.all ++ [{ clause := r, is_initial := false, parent := p }]) := by
  unfold Uniq at hu ⊢
  rw [List.map_append, List.nodup_append]
  refine ⟨hu, by simp, ?_⟩
  intro x hx hx2
  simp only [List.map_cons, List.map_nil, List.mem_singleton] at hx2
  subst hx2
  obtain ⟨d, hd, hdc⟩ := List.mem_map.1 hx
  have : s.seen.has (clause_to_string x) = true :=
    (hinv.seen_iff _).2 ⟨d, hd, by rw [hdc]⟩
  rw [hnew] at this
  cases this

theorem add_resolvents_uniq {init : List Clause} {j head : Nat} (hj : j < head) :
    ∀ (rs : List Clause) (s : Search), Inv init s → s.found = false → head < s.all.length →
      (∀ r ∈ rs, r ∈ Resolve (clause_at s.all head) (clause_at s.all j)) →
      Uniq s.all → Uniq (add_resolvents j head rs s).all := by
  intro rs
  induction rs with
  | nil => intro s _ _ _ _ hu; exact hu
  | cons r rest ih =>
    intro s hinv hfound hhead hrs hu
    have hr := hrs r (List.mem_cons_self _ _)
    have hrest : ∀ x ∈ rest, x ∈ Resolve (clause_at s.all head) (clause_at s.all j) :=
      fun x hx => hrs x (List.mem_cons_of_mem _ hx)
    rw [add_resolvents]
    simp only
    by_cases hseen : s.seen.has (clause_to_string r) = true
    · rw [if_pos hseen]
      exact ih s hinv hfound hhead hrest hu
    · rw [if_neg hseen]
      have hnew : s.seen.has (clause_to_string r) = false := by simpa using hseen
      have hu1 := uniq_push hinv hu r ⟨j, head⟩ hnew
      by_cases hemp : r.isEmpty = true
      · rw [if_pos hemp]
        exact hu1
      · rw [if_neg hemp]
        have hr0 : r ≠ [] := fun h => hemp (List.isEmpty_iff.2 h)
        obtain ⟨h1, h2⟩ := inv_push false s.empty_index hinv hfound hj hhead hr hnew
          (fun h => by cases h) (fun _ => hr0)
        have hs1 : ({ s with
            all := s.all ++ [{ clause := r, is_initial := false, parent := ⟨j, head⟩ }],
            seen := s.seen.set (clause_to_string r) s.all.length } : Search) =
          ⟨s.all ++ [{ clause := r, is_initial := false, parent := ⟨j, head⟩ }],
            s.seen.set (clause_to_string r) s.all.length, s.head, false, s.empty_index⟩ := by
          rw [← hfound]
        rw [hs1]
        have hlen := h2.all_length_le
        have hrest' : ∀ x ∈ rest, x ∈ Resolve
            (clause_at (⟨s.all ++ [{ clause := r, is_initial := false, parent := ⟨j, head⟩ }],
              s.seen.set (clause_to_string r) s.all.length, s.head, false,
              s.empty_index⟩ : Search).all head)
            (clause_at (⟨s.all ++ [{ clause := r, is_initial := false, parent := ⟨j, head⟩ }],
              s.seen.set (clause_to_string r) s.all.length, s.head, false,
              s.empty_index⟩ : Search).all j) := by
          intro x hx
          rw [h2.clause_at _ hhead, h2.clause_at _ (by omega)]
          exact hrest x hx
        exact ih _ h1 rfl (by omega) hrest' hu1

theorem resolve_pair_upto_uniq {init : List Clause} (m : Nat) (t : Search) (k : Nat)
    (hinv : Inv init t) (hhead : t.head < t.all.length) (hk : k < t.head) (hu : Uniq t.all) :
    Uniq (resolve_pair_upto m t k).all := by
  unfold resolve_pair_upto
  by_cases hf : t.found = true
  · rw [if_pos hf]; exact hu
  · rw [if_neg hf]
    have hf' : t.found = false := by simpa using hf
    exact @add_resolvents_uniq init k t.head hk _ t hinv hf' hhead
      (fun r hr => List.mem_of_mem_take hr) hu

theorem resolve_pair_eq_upto (t : Search) (k : Nat) :
    resolve_pair t k =
      resolve_pair_upto (Resolve (clause_at t.all t.head) (clause_at t.all k)).length t k := by
  unfold resolve_pair resolve_pair_upto
  rw [List.take_length]

theorem for_j_uniq {init : List Clause} (s : Search) (hinv : Inv init s)
    (hhead : s.head < s.all.length) (hu : Uniq s.all) : ∀ n, n ≤ s.head →
      Uniq ((List.range n).foldl resolve_pair s).all := by
  intro n
  induction n with
  | zero => intro _; exact hu
  | succ k ih =>
    intro hk
    have hu1 := ih (by omega)
    obtain ⟨h1, h2, _⟩ := for_j_inv s hinv hhead k (by omega)
    rw [List.range_succ, List.foldl_append]
    simp only [List.foldl_cons, List.foldl_nil]
    have hlen := h2.all_length_le
    rw [resolve_pair_eq_upto]
    exact resolve_pair_upto_uniq _ _ k h1 (by rw [h2.1]; omega) (by rw [h2.1]; omega) hu1

theorem search_step_uniq {init : List Clause} (s : Search) (hinv : Inv init s)
    (hhead : s.head < s.all.length) (hu : Uniq s.all) : Uniq (search_step s).all :=
  for_j_uniq s hinv hhead hu s.head (le_refl _)

theorem search_iter_uniq {init : List Clause} : ∀ (n : Nat) (s : Search), Inv init s →
    Saturated s → Uniq s.all → Uniq (search_iter n s).all := by
  intro n
  induction n with
  | zero => intro s _ _ hu; exact hu
  | succ k ih =>
    intro s h1 h2 hu
    rw [search_iter]
    by_cases hc : s.head < s.all.length ∧ s.found = false
    · rw [if_pos hc]
      obtain ⟨k1, k2, _⟩ := search_step_inv s h1 h2 hc.1 hc.2
      exact ih _ k1 k2 (search_step_uniq s h1 hc.1 hu)
    · rw [if_neg hc]
      exact hu

theorem uniq_search_init (init : List Clause) (h : init.Nodup) : Uniq (search_init init).all := by
  unfold Uniq search_init
  simp only [List.map_map]
  have : ((fun d : Deriv => d.clause) ∘ fun c : Clause =>
      ({ clause := c, is_initial := true, parent := ⟨-1, -1⟩ } : Deriv)) = id := by
    funext c; rfl
  rw [this, List.map_id]
  exact h

/-- The clauses of the registry are pairwise different at every point of the search. -/
theorem search_point_uniq (init : List Clause) (h : init.Nodup) (n k m : Nat) :
    Uniq (search_point init n k m).all := by
  obtain ⟨h1, _⟩ := search_iter_inv n (search_init init) (inv_search_init init)
    (saturated_search_init init)
  have hu := search_iter_uniq n (search_init init) (inv_search_init init)
    (saturated_search_init init) (uniq_search_init init h)
  unfold search_point
  simp only
  generalize search_iter n (search_init init) = s at h1 hu
  by_cases hc : s.head < s.all.length ∧ s.found = false
  · rw [if_pos hc]
    by_cases hk : k < s.head
    · rw [if_pos hk]
      obtain ⟨k1, k2, _⟩ := for_j_inv s h1 hc.1 k (by omega)
      have hlen := k2.all_length_le
      exact resolve_pair_upto_uniq m _ k k1 (by rw [k2.1]; omega) (by rw [k2.1]; exact hk)
        (for_j_uniq s h1 hc.1 hu k (by omega))
    · rw [if_neg hk]
      exact for_j_uniq s h1 hc.1 hu s.head (le_refl _)
  · rw [if_neg hc]; exact hu

/-! ### The initial clause list has no duplicate -/

theorem add_clause_unique_nodup (cl : List Clause) (c : Clause) (h : cl.Nodup) :
    (add_clause_unique cl c false).Nodup := by
  unfold add_clause_unique
  simp only [Bool.not_false, Bool.true_and]
  by_cases hc : cl.contains (normalize_clause c) = true
  · rw [if_pos hc]; exact h
  · rw [if_neg hc]
    have hn : normalize_clause c ∉ cl := by simpa using hc
    rw [List.nodup_append]
    refine ⟨h, by simp, ?_⟩
    intro x hx hx2
    simp only [List.mem_singleton] at hx2
    subst hx2
    exact hn hx

theorem foldl_add_nodup : ∀ (cs cl : List Clause), cl.Nodup →
    (cs.foldl (fun cl c => add_clause_unique cl c false) cl).Nodup := by
  intro cs
  induction cs with
  | nil => intro cl h; exact h
  | cons c rest ih =>
    intro cl h
    exact ih _ (add_clause_unique_nodup cl c h)

theorem add_sentence_nodup (cl cl1 : List Clause) (n : Node) (h : cl.Nodup)
    (h1 : add_sentence cl n = some cl1) : cl1.Nodup := by
  unfold add_sentence at h1
  cases hn : toNNF (eliminate_imp_iff n) with
  | none => rw [hn] at h1; cases h1
  | some nnf =>
    rw [hn] at h1
    simp only [Option.some.injEq] at h1
    subst h1
    exact foldl_add_nodup _ _ h

theorem add_sentences_nodup : ∀ (nodes : List Node) (cl cl1 : List Clause), cl.Nodup →
    add_sentences nodes cl = some cl1 → cl1.Nodup := by
  intro nodes
  induction nodes with
  | nil =>
    intro cl cl1 h h1
    simp only [add_sentences, Option.some.injEq] at h1
    subst h1; exact h
  | cons n rest ih =>
    intro cl cl1 h h1
    rw [add_sentences] at h1
    cases hn : add_sentence cl n with
    | none => rw [hn] at h1; cases h1
    | some cl2 =>
      rw [hn] at h1
      exact ih _ _ (add_sentence_nodup _ _ _ h hn) h1

theorem build_init_nodup (kb_nodes : List Node) (alpha : Node) (init : List Clause)
    (h : build_init kb_nodes alpha = some init) : init.Nodup := by
  unfold build_init at h
  cases hn : add_sentences kb_nodes [] with
  | none => rw [hn] at h; cases h
  | some cl =>
    rw [hn] at h
    exact add_sentence_nodup _ _ _ (add_sentences_nodup _ _ _ List.nodup_nil hn) h

theorem Uniq.index_eq {all : List Deriv} (hu : Uniq all) {i j : Nat} {di dj : Deriv}
    (hi : all[i]? = some di) (hj : all[j]? = some dj) (h : di.clause = dj.clause) : i = j := by
  have key : ∀ a b : Nat, ∀ da db : Deriv, all[a]? = some da → all[b]? = some db →
      da.clause = db.clause → ¬ a < b := by
    intro a b da db ha hb hab hlt
    have hblen : b < all.length := (List.getElem?_eq_some.1 hb).1
    have := (List.nodup_iff_getElem?_ne_getElem?.1 hu) a b hlt (by simpa using hblen)
    rw [List.getElem?_map, List.getElem?_map, ha, hb] at this
    exact this (by simp [hab])
  have h1 := key i j di dj hi hj h
  have h2 := key j i dj di hj hi h.symm
  omega

/-- Every record of a state that satisfies the invariant is an initial record
in front of the derived ones, or a derived record whose parents come before it. -/
theorem Inv.record_cases {init : List Clause} {s : Search} (hinv : Inv init s) (i : Nat)
    (d : Deriv) (hd : s.all[i]? = some d) :
    (∃ h : i < init.length, d = init_record init[i]) ∨
    (init.length ≤ i ∧ DerivedOk s.all i d) := by
  by_cases hi : i < init.length
  · left
    refine ⟨hi, ?_⟩
    have := hinv.record_initial i hi
    rw [hd] at this
    simpa using this
  · right
    exact ⟨by omega, hinv.derived i d (by omega) hd⟩

/-! ## The last step of the trace -/

/-- The walk `collect` from a derived record puts this record first. -/
theorem collect_head {init : List Clause} {s : Search} (hinv : Inv init s)
    (fuel idx : Nat) (used : List (Int × Parent)) (d : Deriv) (hfuel : idx < fuel)
    (hd : s.all[idx]? = some d) (hder : init.length ≤ idx) :
    ∃ ext, collect s.all fuel (idx : Int) used = some (used ++ ((idx : Int), d.parent) :: ext) := by
  obtain ⟨k, rfl⟩ : ∃ k, fuel = k + 1 := ⟨fuel - 1, by omega⟩
  have hidx : idx < s.all.length := (List.getElem?_eq_some.1 hd).1
  obtain ⟨hni, a, b, hp, hab, hbk, _⟩ := hinv.derived idx d hder hd
  rw [collect]
  have hneg : ¬ ((idx : Int) < 0) := by omega
  rw [if_neg hneg]
  simp only [Int.toNat_ofNat, hd, hni, Bool.false_eq_true, if_false, hp]
  obtain ⟨e1, h1, _⟩ := collect_total hinv k a
    (used ++ [((idx : Int), (⟨(a : Int), (b : Int)⟩ : Parent))]) (by omega) (by omega)
  rw [h1]
  simp only
  obtain ⟨e2, h2, _⟩ := collect_total hinv k b
    (used ++ [((idx : Int), (⟨(a : Int), (b : Int)⟩ : Parent))] ++ e1) (by omega) (by omega)
  rw [h2]
  exact ⟨e1 ++ e2, by simp [List.append_assoc]⟩

/-- The last line printed by the output loop is the line of the last step. -/
theorem trace_lines_snoc (all : List Deriv) (idx : Int) (p : Parent) :
    ∀ (l : List (Int × Parent)) (needed : List Bool), ∃ (lines : List String)
      (needed1 : List Bool), needed1.length = needed.length ∧
      trace_lines all (l ++ [(idx, p)]) needed = lines ++
        [needed_string all (((needed1.set idx.toNat true).set p.a.toNat false).set
          p.b.toNat false)] := by
  intro l
  induction l with
  | nil =>
    intro needed
    exact ⟨[], needed, rfl, rfl⟩
  | cons x t ih =>
    intro needed
    obtain ⟨i, q⟩ := x
    obtain ⟨lines, needed1, h1, h2⟩ :=
      ih (((needed.set i.toNat true).set q.a.toNat false).set q.b.toNat false)
    refine ⟨needed_string all
      (((needed.set i.toNat true).set q.a.toNat false).set q.b.toNat false) :: lines,
      needed1, by simpa using h1, ?_⟩
    simp only [List.cons_append, trace_lines]
    exact congrArg (List.cons _) h2

/-- When the last record holds the empty clause and is marked, the line ends in `0`. -/
theorem needed_string_last (all : List Deriv) (needed : List Bool) (idx : Nat)
    (hlen : idx + 1 = all.length) (hn : needed.getD idx false = true)
    (hemp : clause_at all idx = []) :
    needed_string all needed = "0" ∨ ∃ pre, pre ≠ "" ∧ needed_string all needed = pre ++ "+" ++ "0" := by
  unfold needed_string
  rw [← hlen, List.range_succ, List.foldl_append]
  simp only [List.foldl_cons, List.foldl_nil, hn, if_true, hemp]
  have h0 : clause_to_string [] = "0" := rfl
  rw [h0]
  generalize (List.range idx).foldl _ "" = s
  by_cases hs : s = ""
  · left
    rw [hs]
    decide
  · right
    exact ⟨s, hs, by rw [if_pos hs]⟩

theorem getD_set_last (needed : List Bool) (idx a b : Nat) (hidx : idx < needed.length)
    (ha : a ≠ idx) (hb : b ≠ idx) :
    (((needed.set idx true).set a false).set b false).getD idx false = true := by
  rw [List.getD_eq_getElem?_getD, List.getElem?_set_ne hb, List.getElem?_set_ne ha,
    List.getElem?_set_self]
  · rfl
  · exact hidx

/-- The branch `if(found)`: the empty clause is the last record, its step is the
last of the reversed list, and the last line printed ends in its clause `0`. -/
theorem print_trace_last {init : List Clause} {s : Search} (hinv : Inv init s)
    (hf : s.found = true) :
    ∃ (idx : Nat) (p : Parent) (used : List (Int × Parent)) (steps : List String) (line : String),
      s.empty_index = (idx : Int) ∧ idx + 1 = s.all.length ∧
      s.all[idx]? = some { clause := [], is_initial := false, parent := p } ∧
      collect s.all s.all.length s.empty_index [] = some used ∧
      used.reverse.getLast? = some (s.empty_index, p) ∧
      print_trace init s =
        some ("yes" :: toString (used.length + 1) :: CNF_to_string init :: steps) ∧
      steps.getLast? = some line ∧
      (line = "0" ∨ ∃ pre, pre ≠ "" ∧ line = pre ++ "+" ++ "0") := by
  obtain ⟨idx, hidx, hlen, hder, hemp⟩ := hinv.found_idx hf
  have hd : s.all[idx]? = some s.all[idx] := List.getElem?_eq_getElem (by omega)
  obtain ⟨hni, a, b, hp, hab, hbk, _⟩ := hinv.derived idx _ hder hd
  obtain ⟨ext, hcol⟩ := collect_head hinv s.all.length idx [] _ (by omega) hd hder
  have hcol2 : collect s.all s.all.length s.empty_index [] =
      some ((s.empty_index, s.all[idx].parent) :: ext) := by
    rw [hidx]; simpa using hcol
  obtain ⟨lines, needed1, hn1, hlines⟩ := trace_lines_snoc s.all s.empty_index s.all[idx].parent
    ext.reverse (needed_init s.all.length init.length)
  have hcl : s.all[idx].clause = [] := by rw [← clause_at_eq hd]; exact hemp
  have hrec : ∀ d : Deriv, d.clause = [] → d.is_initial = false →
      d = { clause := [], is_initial := false, parent := d.parent } := by
    intro d h1 h2
    cases d
    simp_all
  obtain ⟨line, hline⟩ : ∃ line, line = needed_string s.all
      (((needed1.set s.empty_index.toNat true).set s.all[idx].parent.a.toNat false).set
        s.all[idx].parent.b.toNat false) := ⟨_, rfl⟩
  rw [← hline] at hlines
  refine ⟨idx, s.all[idx].parent, (s.empty_index, s.all[idx].parent) :: ext, lines ++ [line],
    line, hidx, hlen, ?_, hcol2, by simp, ?_, by simp, ?_⟩
  · rw [hd, ← hrec _ hcl hni]
  · unfold print_trace
    rw [hcol2]
    simp only [List.reverse_cons, hlines, List.length_append, List.length_reverse,
      List.length_singleton, List.cons_append, List.nil_append, List.length_cons,
      List.length_nil, Nat.zero_add]
  · rw [hline]
    apply needed_string_last s.all _ idx hlen _ hemp
    rw [hidx, hp]
    simp only [Int.toNat_ofNat]
    apply getD_set_last
    · rw [hn1]
      simp only [needed_init, List.length_map, List.length_range]
      omega
    · omega
    · omega

/-! ## The comparator of `nodeToCNF` -/

theorem lex_less_irrefl {β : Type} [DecidableEq β] (less : β → β → Bool) (a : List β) :
    lex_less less a a = false := by
  induction a with
  | nil => rfl
  | cons x t ih => simp [lex_less, ih]

theorem lex_less_trans {β : Type} [DecidableEq β] {less : β → β → Bool}
    (h : StrictTotal less) : ∀ (a b c : List β),
    lex_less less a b = true → lex_less less b c = true → lex_less less a c = true := by
  intro a
  induction a with
  | nil =>
    intro b c h1 h2
    cases b with
    | nil => simp [lex_less] at h1
    | cons y bt =>
      cases c with
      | nil => simp [lex_less] at h2
      | cons z ct => simp [lex_less]
  | cons x at' ih =>
    intro b c h1 h2
    cases b with
    | nil => simp [lex_less] at h1
    | cons y bt =>
      cases c with
      | nil => simp [lex_less] at h2
      | cons z ct =>
        simp only [lex_less] at h1 h2 ⊢
        by_cases hxy : x = y
        · subst hxy
          rw [if_pos rfl] at h1
          by_cases hxz : x = z
          · subst hxz
            rw [if_pos rfl] at h2 ⊢
            exact ih _ _ h1 h2
          · rw [if_neg hxz] at h2 ⊢
            exact h2
        · rw [if_neg hxy] at h1
          by_cases hyz : y = z
          · subst hyz
            rw [if_neg hxy]
            exact h1
          · rw [if_neg hyz] at h2
            have hxz := h.trans _ _ _ h1 h2
            by_cases hxz2 : x = z
            · subst hxz2
              rw [h.irrefl] at hxz
              cases hxz
            · rw [if_neg hxz2]
              exact hxz

theorem lex_less_total {β : Type} [DecidableEq β] {less : β → β → Bool}
    (h : StrictTotal less) : ∀ (a b : List β),
    lex_less less a b = true ∨ a = b ∨ lex_less less b a = true := by
  intro a
  induction a with
  | nil =>
    intro b
    cases b with
    | nil => right; left; rfl
    | cons y bt => left; rfl
  | cons x at' ih =>
    intro b
    cases b with
    | nil => right; right; rfl
    | cons y bt =>
      simp only [lex_less]
      by_cases hxy : x = y
      · subst hxy
        rw [if_pos rfl, if_pos rfl]
        rcases ih bt with h1 | h1 | h1
        · left; exact h1
        · right; left; rw [h1]
        · right; right; exact h1
      · have hyx : ¬ y = x := fun e => hxy e.symm
        rw [if_neg hxy, if_neg hyx]
        rcases h.total x y with h1 | h1 | h1
        · left; exact h1
        · exact absurd h1 hxy
        · right; right; exact h1

theorem strictTotal_lex_less {β : Type} [DecidableEq β] {less : β → β → Bool}
    (h : StrictTotal less) : StrictTotal (lex_less less) where
  irrefl := lex_less_irrefl less
  trans := lex_less_trans h
  total := lex_less_total h

theorem strictTotal_neg_less : StrictTotal neg_less where
  irrefl a := by cases a <;> rfl
  trans a b c := by cases a <;> cases b <;> cases c <;> decide
  total a b := by cases a <;> cases b <;> decide

/-- The first loop of the comparator, on clauses of one size. -/
theorem cmp_var_eq : ∀ (a b : Clause), a.length = b.length →
    cmp_var a b = if a.map (fun l => l.var) = b.map (fun l => l.var) then none
      else some (lex_less string_less (a.map fun l => l.var) (b.map fun l => l.var)) := by
  intro a
  induction a with
  | nil =>
    intro b hb
    cases b with
    | nil => rfl
    | cons y bt => simp at hb
  | cons x at' ih =>
    intro b hb
    cases b with
    | nil => simp at hb
    | cons y bt =>
      simp only [List.length_cons, Nat.add_right_cancel_iff] at hb
      simp only [cmp_var, List.map_cons, List.cons.injEq, lex_less]
      by_cases hxy : x.var = y.var
      · rw [if_neg (by simpa using hxy), ih bt hb, if_pos hxy]
        simp only [hxy, true_and]
      · rw [if_pos (by simpa using hxy), if_neg hxy]
        simp only [hxy, false_and, if_false]

/-- The second loop of the comparator, on clauses of one size. -/
theorem cmp_neg_eq : ∀ (a b : Clause), a.length = b.length →
    cmp_neg a b = if a.map (fun l => l.neg) = b.map (fun l => l.neg) then none
      else some (lex_less neg_less (a.map fun l => l.neg) (b.map fun l => l.neg)) := by
  intro a
  induction a with
  | nil =>
    intro b hb
    cases b with
    | nil => rfl
    | cons y bt => simp at hb
  | cons x at' ih =>
    intro b hb
    cases b with
    | nil => simp at hb
    | cons y bt =>
      simp only [List.length_cons, Nat.add_right_cancel_iff] at hb
      simp only [cmp_neg, List.map_cons, List.cons.injEq, lex_less]
      by_cases hxy : x.neg = y.neg
      · rw [if_neg (by simpa using hxy), ih bt hb, if_pos hxy]
        simp only [hxy, true_and]
      · rw [if_pos (by simpa using hxy), if_neg hxy]
        simp only [hxy, false_and, if_false]
        rfl

/-- The comparator of `nodeToCNF`: by size, then by the sequence of the names,
then by the sequence of the negation flags. -/
theorem clause_less_eq (a b : Clause) :
    clause_less a b =
      if a.length ≠ b.length then decide (a.length < b.length)
      else if a.map (fun l => l.var) ≠ b.map (fun l => l.var) then
        lex_less string_less (a.map fun l => l.var) (b.map fun l => l.var)
      else lex_less neg_less (a.map fun l => l.neg) (b.map fun l => l.neg) := by
  unfold clause_less
  by_cases hlen : a.length = b.length
  · have hlen2 : ¬ a.length ≠ b.length := by simpa using hlen
    rw [if_neg hlen2, if_neg hlen2, cmp_var_eq a b hlen, cmp_neg_eq a b hlen]
    by_cases hv : a.map (fun l => l.var) = b.map (fun l => l.var)
    · by_cases hn : a.map (fun l => l.neg) = b.map (fun l => l.neg)
      · simp only [hv, hn, if_true, ne_eq, not_true_eq_false, if_false, lex_less_irrefl]
      · simp only [hv, hn, if_true, ne_eq, not_true_eq_false, if_false]
    · simp only [hv, if_false, ne_eq, not_false_eq_true, if_true]
  · rw [if_pos hlen, if_pos hlen]

theorem lit_list_ext : ∀ (a b : Clause), a.map (fun l => l.var) = b.map (fun l => l.var) →
    a.map (fun l => l.neg) = b.map (fun l => l.neg) → a = b := by
  intro a
  induction a with
  | nil =>
    intro b h1 _
    cases b with
    | nil => rfl
    | cons y bt => simp at h1
  | cons x at' ih =>
    intro b h1 h2
    cases b with
    | nil => simp at h1
    | cons y bt =>
      simp only [List.map_cons, List.cons.injEq] at h1 h2
      obtain ⟨xv, xn⟩ := x
      obtain ⟨yv, yn⟩ := y
      simp only at h1 h2
      rw [ih bt h1.2 h2.2, h1.1, h2.1]

theorem clause_less_iff (a b : Clause) :
    clause_less a b = true ↔
      a.length < b.length ∨ (a.length = b.length ∧
        (lex_less string_less (a.map fun l => l.var) (b.map fun l => l.var) = true ∨
          (a.map (fun l => l.var) = b.map (fun l => l.var) ∧
            lex_less neg_less (a.map fun l => l.neg) (b.map fun l => l.neg) = true))) := by
  rw [clause_less_eq]
  by_cases hlen : a.length = b.length
  · rw [if_neg (by simpa using hlen)]
    by_cases hv : a.map (fun l => l.var) = b.map (fun l => l.var)
    · rw [if_neg (by simpa using hv)]
      simp only [hlen, lt_self_iff_false, hv, lex_less_irrefl, Bool.false_eq_true, true_and,
        false_or]
    · rw [if_pos hv]
      simp only [hlen, lt_self_iff_false, hv, false_and, or_false, true_and, false_or]
  · rw [if_pos hlen]
    simp only [decide_eq_true_eq, hlen, false_and, or_false]

theorem strictTotal_clause_less : StrictTotal clause_less where
  irrefl a := by
    rw [clause_less_eq]
    simp [lex_less_irrefl]
  trans a b c := by
    have hs := strictTotal_lex_less strictTotal_string_less
    have hn := strictTotal_lex_less strictTotal_neg_less
    rw [clause_less_iff, clause_less_iff, clause_less_iff]
    rintro (h1 | ⟨h1, h1v | ⟨h1v, h1n⟩⟩) (h2 | ⟨h2, h2v | ⟨h2v, h2n⟩⟩)
    · left; omega
    · left; omega
    · left; omega
    · left; omega
    · right; exact ⟨by omega, Or.inl (hs.trans _ _ _ h1v h2v)⟩
    · right; refine ⟨by omega, Or.inl ?_⟩; rw [← h2v]; exact h1v
    · left; omega
    · right; refine ⟨by omega, Or.inl ?_⟩; rw [h1v]; exact h2v
    · right; exact ⟨by omega, Or.inr ⟨h1v.trans h2v, hn.trans _ _ _ h1n h2n⟩⟩
  total a b := by
    have hs := strictTotal_lex_less strictTotal_string_less
    have hn := strictTotal_lex_less strictTotal_neg_less
    rw [clause_less_iff, clause_less_iff]
    rcases Nat.lt_trichotomy a.length b.length with h | h | h
    · left; left; exact h
    · rcases hs.total (a.map fun l => l.var) (b.map fun l => l.var) with hv | hv | hv
      · left; right; exact ⟨h, Or.inl hv⟩
      · rcases hn.total (a.map fun l => l.neg) (b.map fun l => l.neg) with hg | hg | hg
        · left; right; exact ⟨h, Or.inr ⟨hv, hg⟩⟩
        · right; left; exact lit_list_ext a b hv hg
        · right; right; right; exact ⟨h.symm, Or.inr ⟨hv.symm, hg⟩⟩
      · right; right; right; exact ⟨h.symm, Or.inl hv⟩
    · right; right; left; exact h

/-- The clause list of a disjunction is strictly ascending for the comparator. -/
theorem nodeToCNF_or_ascending (l r : Node) : Ascending clause_less (nodeToCNF (.Or l r)) := by
  simp only [nodeToCNF]
  exact unique_ascending strictTotal_clause_less _ (sort_sorted strictTotal_clause_less _)

/-! ## A comma behind the line -/

theorem dropWhile_append_stop {p : Char → Bool} (x : Char) (t : List Char) (hx : p x = false) :
    ∀ l : List Char, (l ++ x :: t).dropWhile p = l.dropWhile p ++ x :: t := by
  intro l
  induction l with
  | nil => simp [List.dropWhile, hx]
  | cons a l ih =>
    by_cases ha : p a = true
    · simp [List.dropWhile, ha, ih]
    · have ha' : p a = false := by simpa using ha
      simp [List.dropWhile, ha']

theorem takeWhile_append_stop {p : Char → Bool} (x : Char) (t : List Char) (hx : p x = false) :
    ∀ l : List Char, (l ++ x :: t).takeWhile p = l.takeWhile p := by
  intro l
  induction l with
  | nil => simp [List.takeWhile, hx]
  | cons a l ih =>
    by_cases ha : p a = true
    · simp [List.takeWhile, ha, ih]
    · have ha' : p a = false := by simpa using ha
      simp [List.takeWhile, ha']

/-- The lexer reads the same token when a comma is added behind the line, and
reads the comma where the line ends. -/
theorem next_behind (t : List Char) (st st' : PState) (h : st'.rest = st.rest ++ ',' :: t) :
    Behind t (next_token st) (next_token st') := by
  have hsp : isspace ',' = false := by decide
  have hvc : isVarChar ',' = false := by decide
  have hd : st'.rest.dropWhile isspace = st.rest.dropWhile isspace ++ ',' :: t := by
    rw [h, dropWhile_append_stop ',' t hsp]
  cases hr : st.rest.dropWhile isspace with
  | nil =>
    right
    rw [hr] at hd
    simp [next_token, skip_spaces, hr, hd]
  | cons c cs =>
    left
    rw [hr] at hd
    simp only [List.cons_append] at hd
    simp only [next_token, skip_spaces, hr, hd]
    by_cases h1 : c = '('
    · simp [h1]
    rw [if_neg h1, if_neg h1]
    by_cases h2 : c = ')'
    · simp [h2]
    rw [if_neg h2, if_neg h2]
    by_cases h3 : c = '!'
    · simp [h3]
    rw [if_neg h3, if_neg h3]
    by_cases h4 : c = '+'
    · simp [h4]
    rw [if_neg h4, if_neg h4]
    by_cases h5 : c = '-'
    · simp [h5]
    rw [if_neg h5, if_neg h5]
    by_cases h6 : c = '>'
    · simp [h6]
    rw [if_neg h6, if_neg h6]
    by_cases h7 : c = '='
    · simp [h7]
    rw [if_neg h7, if_neg h7]
    by_cases h8 : c = ','
    · simp [h8]
    rw [if_neg h8, if_neg h8]
    by_cases h9 : isVarStart c = true
    · rw [if_pos h9, if_pos h9]
      simp [dropWhile_append_stop ',' t hvc, takeWhile_append_stop ',' t hvc]
    · rw [if_neg h9, if_neg h9]
      simp only [Behind, true_and, reduceCtorEq, ne_eq, forall_const, and_true, false_and,
        or_false]
      intro he
      exact absurd (congrArg String.data he) (by simp)

theorem Behind.next {t : List Char} {st st' : PState} (h : Behind t st st')
    (hne : st.toktype ≠ .TOK_END) : Behind t (next_token st) (next_token st') := by
  rcases h with ⟨h1, _, _, _⟩ | ⟨_, h2, _⟩
  · exact next_behind t st st' h1
  · exact absurd h2 hne

theorem Behind.toktype_eq {t : List Char} {st st' : PState} (h : Behind t st st')
    (hne : st.toktype ≠ .TOK_END) : st'.toktype = st.toktype ∧ st'.token = st.token := by
  rcases h with ⟨_, h1, h2, _⟩ | ⟨_, h2, _⟩
  · exact ⟨h2, h1⟩
  · exact absurd h2 hne

theorem pbl_sim {t : List Char} {mk : Node → Node → Node} {op : TokType}
    {sub : PState → PResult} (hsub : SimOk t sub) (hop1 : op ≠ .TOK_END)
    (hop2 : op ≠ .TOK_COMMA) :
    ∀ (fuel : Nat) (left : Node) (st st' : PState) (n : Node) (st1 : PState), Behind t st st' →
      parse_binary_loop mk op sub fuel left st = some (some n, st1) →
      ∃ st1', parse_binary_loop mk op sub fuel left st' = some (some n, st1') ∧
        Behind t st1 st1' := by
  intro fuel
  induction fuel with
  | zero => intro left st st' n st1 _ h; simp [parse_binary_loop] at h
  | succ k ih =>
    intro left st st' n st1 hb h
    simp only [parse_binary_loop] at h ⊢
    by_cases hop : op = st.toktype
    · have hne : st.toktype ≠ .TOK_END := by rw [← hop]; exact hop1
      have hop' : op = st'.toktype := by rw [(hb.toktype_eq hne).1]; exact hop
      rw [if_pos hop] at h
      rw [if_pos hop']
      cases hs : sub (next_token st) with
      | none => simp [hs] at h
      | some q =>
        rw [hs] at h
        obtain ⟨qn, qst⟩ := q
        cases qn with
        | none => simp at h
        | some right =>
          obtain ⟨_, qst', hq1, hq2⟩ := hsub _ _ _ _ (hb.next hne) hs
          rw [hq1]
          exact ih _ _ _ _ _ hq2 h
    · rw [if_neg hop] at h
      simp only [Option.some.injEq, Prod.mk.injEq] at h
      obtain ⟨h1, h2⟩ := h
      subst h1 h2
      have hop' : ¬ op = st'.toktype := by
        rcases hb with ⟨_, _, h3, _⟩ | ⟨_, _, _, _, h3, _⟩
        · rw [h3]; exact hop
        · rw [h3]; exact hop2
      rw [if_neg hop']
      exact ⟨st', rfl, hb⟩

theorem pb_sim {t : List Char} {mk : Node → Node → Node} {op : TokType}
    {sub : PState → PResult} (hsub : SimOk t sub) (hop1 : op ≠ .TOK_END)
    (hop2 : op ≠ .TOK_COMMA) (fuel : Nat) : SimOk t (parse_binary fuel mk op sub) := by
  intro st st' n st1 hb h
  unfold parse_binary at h ⊢
  cases hs : sub st with
  | none => simp [hs] at h
  | some q =>
    rw [hs] at h
    obtain ⟨qn, qst⟩ := q
    cases qn with
    | none => simp at h
    | some left =>
      obtain ⟨hne, qst', hq1, hq2⟩ := hsub _ _ _ _ hb hs
      rw [hq1]
      exact ⟨hne, pbl_sim hsub hop1 hop2 fuel _ _ _ _ _ hq2 h⟩

/-- All six parsing functions read the same tree with a comma behind the line. -/
theorem parse_sim_all (t : List Char) : ∀ fuel : Nat,
    SimOk t (parse_primary fuel) ∧ SimOk t (parse_and fuel) ∧ SimOk t (parse_or fuel) ∧
    SimOk t (parse_imp fuel) ∧ SimOk t (parse_iff fuel) ∧ SimOk t (parse_expression fuel) := by
  intro fuel
  induction fuel with
  | zero =>
    refine ⟨?_, ?_, ?_, ?_, ?_, ?_⟩ <;> intro st st' n st1 _ h <;>
      simp [parse_primary, parse_and, parse_or, parse_imp, parse_iff, parse_expression] at h
  | succ k ih =>
    obtain ⟨i1, i2, i3, i4, i5, i6⟩ := ih
    refine ⟨?_, ?_, ?_, ?_, ?_, ?_⟩
    · intro st st' n st1 hb h
      simp only [parse_primary] at h ⊢
      by_cases h1 : st.toktype = .TOK_END
      · rw [if_pos h1] at h
        simp at h
      refine ⟨h1, ?_⟩
      obtain ⟨ht, htok⟩ := hb.toktype_eq h1
      rw [ht, htok]
      rw [if_neg h1] at h ⊢
      by_cases h2 : st.toktype = .TOK_VAR
      · rw [if_pos h2] at h ⊢
        simp only [Option.some.injEq, Prod.mk.injEq] at h
        obtain ⟨h3, h4⟩ := h
        subst h3 h4
        exact ⟨_, rfl, hb.next h1⟩
      rw [if_neg h2] at h ⊢
      by_cases h3 : st.toktype = .TOK_NOT
      · rw [if_pos h3] at h ⊢
        cases hs : parse_primary k (next_token st) with
        | none => simp [hs] at h
        | some q =>
          rw [hs] at h
          obtain ⟨qn, qst⟩ := q
          cases qn with
          | none => simp at h
          | some a =>
            simp only [Option.some.injEq, Prod.mk.injEq] at h
            obtain ⟨h4, h5⟩ := h
            subst h4 h5
            obtain ⟨_, qst', hq1, hq2⟩ := i1 _ _ _ _ (hb.next h1) hs
            rw [hq1]
            exact ⟨_, rfl, hq2⟩
      rw [if_neg h3] at h ⊢
      by_cases h4 : st.toktype = .TOK_LP
      · rw [if_pos h4] at h ⊢
        cases hs : parse_expression k (next_token st) with
        | none => simp [hs] at h
        | some q =>
          rw [hs] at h
          obtain ⟨qn, qst⟩ := q
          cases qn with
          | none => simp at h
          | some a =>
            obtain ⟨_, qst', hq1, hq2⟩ := i6 _ _ _ _ (hb.next h1) hs
            rw [hq1]
            by_cases h6 : qst.toktype = .TOK_RP
            · have h7 : qst.toktype ≠ .TOK_END := by rw [h6]; decide
              have h8 : qst'.toktype = .TOK_RP := by rw [(hq2.toktype_eq h7).1]; exact h6
              simp only [h6, h8, ne_eq, not_true_eq_false, if_false, Option.some.injEq,
                Prod.mk.injEq] at h ⊢
              obtain ⟨h9, h10⟩ := h
              subst h9 h10
              exact ⟨_, ⟨rfl, rfl⟩, hq2.next h7⟩
            · simp [h6] at h
      rw [if_neg h4] at h
      simp at h
    · intro st st' n st1 hb h
      simp only [parse_and] at h ⊢
      exact pb_sim i1 (by decide) (by decide) k st st' n st1 hb h
    · intro st st' n st1 hb h
      simp only [parse_or] at h ⊢
      exact pb_sim i2 (by decide) (by decide) k st st' n st1 hb h
    · intro st st' n st1 hb h
      simp only [parse_imp] at h ⊢
      exact pb_sim i3 (by decide) (by decide) k st st' n st1 hb h
    · intro st st' n st1 hb h
      simp only [parse_iff] at h ⊢
      exact pb_sim i4 (by decide) (by decide) k st st' n st1 hb h
    · intro st st' n st1 hb h
      simp only [parse_expression] at h ⊢
      exact i5 st st' n st1 hb h

/-- The loop of `parse_sentences` on a line of valid sentences, a comma behind
each of them: it returns their trees. -/
theorem comma_line_loop (st : PState) : ∀ (ws : List String) (es : List Node),
    List.Forall₂ (ValidSentence st) ws es → ∀ (st0 : PState) (res : List Node),
    st0.rest = (comma_line ws).data →
    ∃ fuel stf, parse_sentences_loop fuel (next_token st0) res = some (res ++ es, stf) := by
  intro ws es hv
  induction hv with
  | nil =>
    intro st0 res h0
    refine ⟨1, next_token st0, ?_⟩
    have h1 : st0.rest = [] := by rw [h0]; rfl
    simp [parse_sentences_loop, next_token, skip_spaces, h1]
  | @cons w e ws es hw _ ih =>
    intro st0 res h0
    obtain ⟨f, st1, hp, hr1, ht1, htok1⟩ := hw
    have h1 : st0.rest = w.data ++ ',' :: (comma_line ws).data := by
      rw [h0]
      simp [comma_line]
    have hb : Behind (comma_line ws).data (next_token { st with rest := w.data })
        (next_token st0) := next_behind _ _ st0 h1
    obtain ⟨hne, st1', hp', hb1⟩ := (parse_sim_all (comma_line ws).data f).2.2.2.2.2 _ _ _ _ hb hp
    have h2 : st1'.rest = (comma_line ws).data ∧ st1'.toktype = .TOK_COMMA := by
      rcases hb1 with ⟨_, _, _, h3⟩ | ⟨_, _, _, h3, h4, _⟩
      · exact absurd htok1 (h3 ht1)
      · exact ⟨h3, h4⟩
    obtain ⟨f2, stf, hloop⟩ := ih st1' (res ++ [e]) h2.1
    refine ⟨max f f2 + 1, stf, ?_⟩
    have hne' : (next_token st0).toktype ≠ .TOK_END := by
      rw [(hb.toktype_eq hne).1]; exact hne
    simp only [parse_sentences_loop]
    rw [if_pos hne', (parse_mono_all f (max f f2) (le_max_left _ _) _ _).2.2.2.2.2 hp']
    simp only [h2.2, if_true]
    rw [parse_sentences_loop_mono f2 _ _ _ _ (le_max_right _ _) hloop]
    simp [List.append_assoc]

/-- A line of one or more valid sentences, a comma behind each of them, is parsed
without error to the trees of the sentences. -/
theorem parse_comma_line (st : PState) (ws : List String) (es : List Node) (hne : ws ≠ [])
    (hv : List.Forall₂ (ValidSentence st) ws es) :
    ∃ st2, parse_sentences (comma_line ws) st = some (es, st2) ∧
      st2.syntax_error_flag = st.syntax_error_flag := by
  obtain ⟨f, stf, hloop⟩ := comma_line_loop st ws es hv
    { st with rest := (comma_line ws).data } [] rfl
  obtain ⟨nodes, st2, hps⟩ := parse_sentences_total (comma_line ws) st
  have hps2 := hps
  unfold parse_sentences at hps2
  have e1 := parse_sentences_loop_mono f (max f (parse_fuel (comma_line ws).length)) _ _ _
    (le_max_left _ _) hloop
  have e2 := parse_sentences_loop_mono _ (max f (parse_fuel (comma_line ws).length)) _ _ _
    (le_max_right _ _) hps2
  rw [e1] at e2
  simp only [List.nil_append, Option.some.injEq, Prod.mk.injEq] at e2
  obtain ⟨e3, e4⟩ := e2
  subst e3 e4
  refine ⟨stf, hps, ?_⟩
  rcases (parse_sentences_post parseInv_true _ st _ trivial hps).2.2 with h | h
  · exact h
  · exfalso
    have h1 : es = [] := h.2
    subst h1
    cases hv
    exact hne rfl

/-- The loop over the resolvents of the pair `(j, head)` only appends records,
each of them derived, with the parents `(j, head)`. -/
theorem add_resolvents_parents (j head : Nat) : ∀ (rs : List Clause) (s : Search),
    ∃ ext, (add_resolvents j head rs s).all = s.all ++ ext ∧
      ∀ d ∈ ext, d.is_initial = false ∧ d.parent = ⟨(j : Int), (head : Int)⟩ ∧ d.clause ∈ rs := by
  intro rs
  induction rs with
  | nil => intro s; exact ⟨[], by simp [add_resolvents], by simp⟩
  | cons r rest ih =>
    intro s
    rw [add_resolvents]
    simp only
    by_cases hseen : s.seen.has (clause_to_string r) = true
    · rw [if_pos hseen]
      obtain ⟨ext, h1, h2⟩ := ih s
      exact ⟨ext, h1, fun d hd => ⟨(h2 d hd).1, (h2 d hd).2.1, List.mem_cons_of_mem _ (h2 d hd).2.2⟩⟩
    · rw [if_neg hseen]
      by_cases hemp : r.isEmpty = true
      · rw [if_pos hemp]
        refine ⟨[{ clause := r, is_initial := false, parent := ⟨j, head⟩ }], rfl, ?_⟩
        intro d hd
        simp only [List.mem_singleton] at hd
        subst hd
        exact ⟨rfl, rfl, List.mem_cons_self _ _⟩
      · rw [if_neg hemp]
        obtain ⟨ext, h1, h2⟩ := ih { s with
          all := s.all ++ [{ clause := r, is_initial := false, parent := ⟨j, head⟩ }],
          seen := s.seen.set (clause_to_string r) s.all.length }
        refine ⟨{ clause := r, is_initial := false, parent := ⟨j, head⟩ } :: ext, ?_, ?_⟩
        · rw [h1]; simp
        · intro d hd
          rcases List.mem_cons.1 hd with hd | hd
          · subst hd
            exact ⟨rfl, rfl, List.mem_cons_self _ _⟩
          · exact ⟨(h2 d hd).1, (h2 d hd).2.1, List.mem_cons_of_mem _ (h2 d hd).2.2⟩

/-! ## The run of `main` on lines that parse -/

/-- When both lines parse and the search finds the empty clause, `main` prints
`yes`, the count, the initial CNF and the trace; the empty clause is the last
record, its step the last of the reversed list, and the last line ends in `0`. -/
theorem main_found (kb_line alpha_line : String) (kb_nodes : List Node) (st1 : PState)
    (alpha : Node) (st2 : PState) (init : List Clause) (t : Search)
    (h1 : parse_sentences kb_line initial_state = some (kb_nodes, st1))
    (hf1 : st1.syntax_error_flag = false)
    (h2 : parse_sentences alpha_line st1 = some ([alpha], st2))
    (hf2 : st2.syntax_error_flag = false)
    (hinit : build_init kb_nodes alpha = some init)
    (hsearch : search (search_fuel init) (search_init init) = some t)
    (hf : t.found = true) :
    ∃ (idx : Nat) (p : Parent) (used : List (Int × Parent)) (line : String),
      t.empty_index = (idx : Int) ∧ idx + 1 = t.all.length ∧
      t.all[idx]? = some { clause := [], is_initial := false, parent := p } ∧
      collect t.all t.all.length t.empty_index [] = some used ∧ used ≠ [] ∧
      used.reverse.getLast? = some (t.empty_index, p) ∧
      main kb_line alpha_line =
        some ("yes" :: toString (used.length + 1) :: CNF_to_string init ::
          trace_lines t.all used.reverse (needed_init t.all.length init.length)) ∧
      (trace_lines t.all used.reverse (needed_init t.all.length init.length)).getLast?
        = some line ∧
      (line = "0" ∨ ∃ pre, pre ≠ "" ∧ line = pre ++ "+" ++ "0") := by
  obtain ⟨t', ht', hinv, _, _⟩ := search_returns init
  rw [hsearch] at ht'
  simp only [Option.some.injEq] at ht'
  subst ht'
  obtain ⟨idx, p, used, steps, line, k1, k2, k3, k4, k5, k6, k7, k8⟩ := print_trace_last hinv hf
  have hprove : prove kb_nodes alpha = print_trace init t := by
    simp only [prove, hinit, hsearch, hf, if_true]
  have hsteps : steps = trace_lines t.all used.reverse
      (needed_init t.all.length init.length) := by
    have h6b := k6
    unfold print_trace at h6b
    rw [k4] at h6b
    simp only [List.cons_append, List.nil_append, Option.some.injEq, List.cons.injEq,
      true_and] at h6b
    exact h6b.2.symm
  subst hsteps
  have hne : used ≠ [] := by
    intro h
    subst h
    simp at k5
  exact ⟨idx, p, used, line, k1, k2, k3, k4, hne, k5,
    (main_eq_prove _ _ _ _ _ _ h1 hf1 h2 hf2).trans (hprove.trans k6), k7, k8⟩

/-- When both lines parse and the search ends without the empty clause, `main`
prints `no`. -/
theorem main_not_found (kb_line alpha_line : String) (kb_nodes : List Node) (st1 : PState)
    (alpha : Node) (st2 : PState) (init : List Clause) (t : Search)
    (h1 : parse_sentences kb_line initial_state = some (kb_nodes, st1))
    (hf1 : st1.syntax_error_flag = false)
    (h2 : parse_sentences alpha_line st1 = some ([alpha], st2))
    (hf2 : st2.syntax_error_flag = false)
    (hinit : build_init kb_nodes alpha = some init)
    (hsearch : search (search_fuel init) (search_init init) = some t)
    (hf : t.found = false) : main kb_line alpha_line = some ["no"] := by
  rw [main_eq_prove _ _ _ _ _ _ h1 hf1 h2 hf2]
  simp [prove, hinit, hsearch, hf]

/-- An output that starts with `yes` comes from two lines that parse, the
conclusion to one sentence, and a search that found the empty clause. -/
theorem main_yes_parsed (kb_line alpha_line : String) (out : List String)
    (hmain : main kb_line alpha_line = some out) (hyes : out.head? = some "yes") :
    ∃ (kb_nodes : List Node) (st1 : PState) (alpha : Node) (st2 : PState) (init : List Clause)
      (t : Search),
      parse_sentences kb_line initial_state = some (kb_nodes, st1) ∧
      st1.syntax_error_flag = false ∧
      parse_sentences alpha_line st1 = some ([alpha], st2) ∧
      st2.syntax_error_flag = false ∧
      build_init kb_nodes alpha = some init ∧
      search (search_fuel init) (search_init init) = some t ∧ t.found = true := by
  rcases main_cases kb_line alpha_line with h | ⟨kb_nodes, st1, alpha, st2, h1, hf1, h2, hf2, _⟩
  · rw [hmain] at h
    simp only [Option.some.injEq] at h
    subst h
    simp at hyes
  · obtain ⟨init, t, hinit, hsearch, _, _, _, _⟩ := prove_spec kb_nodes alpha
    refine ⟨kb_nodes, st1, alpha, st2, init, t, h1, hf1, h2, hf2, hinit, hsearch, ?_⟩
    cases hf : t.found with
    | true => rfl
    | false =>
      have := main_not_found _ _ _ _ _ _ _ _ h1 hf1 h2 hf2 hinit hsearch hf
      rw [hmain] at this
      simp only [Option.some.injEq] at this
      subst this
      simp at hyes

/-! ## Claims on the parser's error handling -/

/-- C4: a character the lexer does not recognise should be surfaced as a syntax
error.  On the lines `A @` and `A b` it is not: `next_token` turns the unknown
character into the end token, `parse_sentences` takes that as the end of the
line, returns the sentence `A` with the error flag clear, and the program goes
on to print `yes`. -/
theorem C4_unknown_char_ends_line :
    (parse_sentences "A @" initial_state).map (fun r => (r.1, r.2.syntax_error_flag))
      = some ([Node.Var "A"], false) ∧
    (parse_sentences "A b" initial_state).map (fun r => (r.1, r.2.syntax_error_flag))
      = some ([Node.Var "A"], false) ∧
    main "A @" "A" = some ["yes", "2", "A+!A", "0"] ∧
    main "A b" "A" = some ["yes", "2", "A+!A", "0"] := by
  decide

/-- C5: both calls of `parse_sentences` return; when the knowledge-base line
sets the error flag, or the conclusion line sets it or yields a vector whose
length is not 1, the output of `main` is the single line `syntax error`. -/
theorem C5_syntax_error_output (kb_line alpha_line : String) :
    ∃ kb_nodes st1, parse_sentences kb_line initial_state = some (kb_nodes, st1) ∧
      (st1.syntax_error_flag = true → main kb_line alpha_line = some ["syntax error"]) ∧
      ∃ tmp st2, parse_sentences alpha_line st1 = some (tmp, st2) ∧
        (st2.syntax_error_flag = true ∨ tmp.length ≠ 1 →
          main kb_line alpha_line = some ["syntax error"]) := by
  obtain ⟨kb_nodes, st1, h1⟩ := parse_sentences_total kb_line initial_state
  obtain ⟨tmp, st2, h2⟩ := parse_sentences_total alpha_line st1
  refine ⟨kb_nodes, st1, h1, ?_, tmp, st2, h2, ?_⟩
  · intro hf
    simp [main, h1, hf]
  · intro hf
    unfold main
    rw [h1]
    simp only
    by_cases hk : st1.syntax_error_flag = true
    · simp [hk]
    simp only [hk, Bool.false_eq_true, if_false, h2]
    rcases hf with hf | hf
    · have := parse_sentences_flag alpha_line st1 (tmp, st2) (by simpa using hk) h2 hf
      simp only at this
      subst this
      rfl
    · match tmp, hf with
      | [], _ => rfl
      | [_], hf => simp at hf
      | _ :: _ :: _, _ => rfl

/-- C6: a line whose first character after white space is `(` and that holds no
`)` makes `parse_sentences` set the error flag and return the empty vector;
whenever `parse_sentences`, entered with the flag clear, sets the flag, the
vector it returns is empty; and the knowledge base `(A+B` with conclusion `A`
prints `syntax error` only. -/
theorem C6_unmatched_paren_rejected :
    (∀ (s : String) (st : PState) (cs : List Char),
      s.data.dropWhile isspace = '(' :: cs → ')' ∉ s.data →
      ∃ st1, parse_sentences s st = some ([], st1) ∧ st1.syntax_error_flag = true) ∧
    (∀ (s : String) (st : PState) (nodes : List Node) (st1 : PState),
      st.syntax_error_flag = false → parse_sentences s st = some (nodes, st1) →
      st1.syntax_error_flag = true → nodes = []) ∧
    main "(A+B" "A" = some ["syntax error"] := by
  refine ⟨parse_sentences_unmatched, ?_, by decide⟩
  intro s st nodes st1 hst h hf
  exact parse_sentences_flag s st (nodes, st1) hst h hf

/-! ## Claims on the grammar -/

/-- C7: all four binary operators are left-associative.  For valid atom names
`a`, `b`, `c` and each operator `o` of `+`, `-`, `>`, `=`, the line `a o b o c`,
written with any white space (also none) around the two operators, is parsed
without error to the single tree `Op(Op(a, b), c)`. -/
theorem C7_left_associative (a b c w1 w2 w3 w4 : String) (st : PState)
    (ha : valid_name a = true) (hb : valid_name b = true) (hc : valid_name c = true)
    (h1 : w1.data.all isspace = true) (h2 : w2.data.all isspace = true)
    (h3 : w3.data.all isspace = true) (h4 : w4.data.all isspace = true) :
    parse_sentences (a ++ w1 ++ "+" ++ w2 ++ b ++ w3 ++ "+" ++ w4 ++ c) st =
      some ([.And (.And (.Var a) (.Var b)) (.Var c)], tk_state st [] "" .TOK_END) ∧
    parse_sentences (a ++ w1 ++ "-" ++ w2 ++ b ++ w3 ++ "-" ++ w4 ++ c) st =
      some ([.Or (.Or (.Var a) (.Var b)) (.Var c)], tk_state st [] "" .TOK_END) ∧
    parse_sentences (a ++ w1 ++ ">" ++ w2 ++ b ++ w3 ++ ">" ++ w4 ++ c) st =
      some ([.Imp (.Imp (.Var a) (.Var b)) (.Var c)], tk_state st [] "" .TOK_END) ∧
    parse_sentences (a ++ w1 ++ "=" ++ w2 ++ b ++ w3 ++ "=" ++ w4 ++ c) st =
      some ([.Iff (.Iff (.Var a) (.Var b)) (.Var c)], tk_state st [] "" .TOK_END) :=
  ⟨parse_three_and a b c w1 w2 w3 w4 st ha hb hc h1 h2 h3 h4,
   parse_three_or a b c w1 w2 w3 w4 st ha hb hc h1 h2 h3 h4,
   parse_three_imp a b c w1 w2 w3 w4 st ha hb hc h1 h2 h3 h4,
   parse_three_iff a b c w1 w2 w3 w4 st ha hb hc h1 h2 h3 h4⟩

/-- C7 at the names `P`, `Q1`, `Rx` with one blank on each side of the
operators, from the globals at program start. -/
theorem C7_left_associative_witness :
    (valid_name "P" = true ∧ valid_name "Q1" = true ∧ valid_name "Rx" = true ∧
      " ".data.all isspace = true) ∧
    parse_sentences "P + Q1 + Rx" initial_state =
      some ([.And (.And (.Var "P") (.Var "Q1")) (.Var "Rx")],
        tk_state initial_state [] "" .TOK_END) ∧
    parse_sentences "P - Q1 - Rx" initial_state =
      some ([.Or (.Or (.Var "P") (.Var "Q1")) (.Var "Rx")],
        tk_state initial_state [] "" .TOK_END) ∧
    parse_sentences "P > Q1 > Rx" initial_state =
      some ([.Imp (.Imp (.Var "P") (.Var "Q1")) (.Var "Rx")],
        tk_state initial_state [] "" .TOK_END) ∧
    parse_sentences "P = Q1 = Rx" initial_state =
      some ([.Iff (.Iff (.Var "P") (.Var "Q1")) (.Var "Rx")],
        tk_state initial_state [] "" .TOK_END) :=
  ⟨by decide,
   C7_left_associative "P" "Q1" "Rx" " " " " " " " " initial_state (by decide) (by decide)
     (by decide) (by decide) (by decide) (by decide) (by decide)⟩

/-- C8: operator precedence, lowest to highest `=`, `>`, `-`, `+`, with `!`
binding to the Primary that follows.  For valid atom names the line
`a=b>c-d+!e` is parsed to `Iff(a, Imp(b, Or(c, And(d, Not e))))`, the line
`a+b-c>d=e` to `Iff(Imp(Or(And(a, b), c), d), e)`, and `!!a` to `Not(Not a)`,
each as the single sentence of the line and without error. -/
theorem C8_precedence (a b c d e : String) (st : PState)
    (ha : valid_name a = true) (hb : valid_name b = true) (hc : valid_name c = true)
    (hd : valid_name d = true) (he : valid_name e = true) :
    parse_sentences (a ++ "=" ++ b ++ ">" ++ c ++ "-" ++ d ++ "+!" ++ e) st =
      some ([.Iff (.Var a) (.Imp (.Var b) (.Or (.Var c) (.And (.Var d) (.Not (.Var e)))))],
        tk_state st [] "" .TOK_END) ∧
    parse_sentences (a ++ "+" ++ b ++ "-" ++ c ++ ">" ++ d ++ "=" ++ e) st =
      some ([.Iff (.Imp (.Or (.And (.Var a) (.Var b)) (.Var c)) (.Var d)) (.Var e)],
        tk_state st [] "" .TOK_END) ∧
    parse_sentences ("!!" ++ a) st =
      some ([.Not (.Not (.Var a))], tk_state st [] "" .TOK_END) :=
  ⟨parse_rising a b c d e st ha hb hc hd he, parse_falling a b c d e st ha hb hc hd he,
   parse_not_not a st ha⟩

/-- C8 at the names `A`, `B2`, `Cc`, `D`, `E`, from the globals at program start. -/
theorem C8_precedence_witness :
    (valid_name "A" = true ∧ valid_name "B2" = true ∧ valid_name "Cc" = true ∧
      valid_name "D" = true ∧ valid_name "E" = true) ∧
    parse_sentences "A=B2>Cc-D+!E" initial_state =
      some ([.Iff (.Var "A") (.Imp (.Var "B2") (.Or (.Var "Cc") (.And (.Var "D")
        (.Not (.Var "E")))))], tk_state initial_state [] "" .TOK_END) ∧
    parse_sentences "A+B2-Cc>D=E" initial_state =
      some ([.Iff (.Imp (.Or (.And (.Var "A") (.Var "B2")) (.Var "Cc")) (.Var "D")) (.Var "E")],
        tk_state initial_state [] "" .TOK_END) ∧
    parse_sentences "!!A" initial_state =
      some ([.Not (.Not (.Var "A"))], tk_state initial_state [] "" .TOK_END) :=
  ⟨by decide,
   C8_precedence "A" "B2" "Cc" "D" "E" initial_state (by decide) (by decide) (by decide)
     (by decide) (by decide)⟩

/-- C9: the textual form of clauses.  `clause_to_string` gives `0` for the empty
clause, the literal's text (its name, with `!` in front when negated) for a
clause of one literal, and otherwise the literals' texts in clause order joined
by `-` between `(` and `)`; `CNF_to_string` gives the clauses' strings in list
order joined by `+`. -/
theorem C9_textual_form :
    clause_to_string [] = "0" ∧
    (∀ l : Lit, clause_to_string [l] = (if l.neg then "!" else "") ++ l.var) ∧
    (∀ (l1 l2 : Lit) (c : Clause), clause_to_string (l1 :: l2 :: c) =
      "(" ++ String.intercalate "-"
        ((l1 :: l2 :: c).map fun l => (if l.neg then "!" else "") ++ l.var) ++ ")") ∧
    (∀ cnf : List Clause, CNF_to_string cnf = String.intercalate "+" (cnf.map clause_to_string)) :=
  ⟨rfl, fun _ => rfl, clause_to_string_many, CNF_to_string_eq⟩

/-- C3: the resolution search terminates on every input.  For every initial
clause list the `while` loop returns a final state within the fuel
`search_fuel` (and with any larger fuel returns the same state), the registry
holding at most the initial records and one record per set of input literals;
at the end either the empty clause was appended as the last record (`found`),
or `head` has reached the end of the registry. -/
theorem C3_search_terminates (init : List Clause) :
    ∃ t, search (search_fuel init) (search_init init) = some t ∧
      (∀ fuel, search_fuel init ≤ fuel → search fuel (search_init init) = some t) ∧
      t.all.length ≤ init.length + 2 ^ init.flatten.length ∧
      ((t.found = true ∧ ∃ idx : Nat, t.empty_index = (idx : Int) ∧ idx + 1 = t.all.length ∧
          clause_at t.all idx = []) ∨
       (t.found = false ∧ t.head = t.all.length)) := by
  obtain ⟨t, ht, hinv, _, hstop⟩ := search_returns init
  refine ⟨t, ht, fun fuel hf => search_mono _ _ _ _ hf ht, hinv.length_le, ?_⟩
  cases hf : t.found with
  | true =>
    left
    obtain ⟨idx, h1, h2, _, h3⟩ := hinv.found_idx hf
    exact ⟨rfl, idx, h1, h2, h3⟩
  | false =>
    right
    have := hinv.head_le
    refine ⟨rfl, ?_⟩
    by_contra hne
    exact hstop ⟨by omega, hf⟩

/-- C10: `main` returns on every pair of lines.  A run is successful when its
output starts with `yes`; this is the case exactly when both lines parse, the
conclusion to one sentence, and the search on their clauses finds the empty
clause.  On every successful run the output is `yes`, then the count `N`, which
is the number of steps collected by the backward walk from the empty clause
plus one, then exactly `N` further lines: the initial-CNF line and one line per
collected step; `N` is at least 2, the empty clause being a derived record.
For the knowledge base `A,A>B,B>C` and the conclusion `C` the count is 4. -/
theorem C10_step_count :
    (∀ kb_line alpha_line : String, ∃ out, main kb_line alpha_line = some out ∧
      (out.head? = some "yes" →
        ∃ (kb_nodes : List Node) (st1 : PState) (alpha : Node) (st2 : PState)
          (init : List Clause) (t : Search) (used : List (Int × Parent)),
          parse_sentences kb_line initial_state = some (kb_nodes, st1) ∧
          st1.syntax_error_flag = false ∧
          parse_sentences alpha_line st1 = some ([alpha], st2) ∧
          st2.syntax_error_flag = false ∧
          build_init kb_nodes alpha = some init ∧
          search (search_fuel init) (search_init init) = some t ∧ t.found = true ∧
          collect t.all t.all.length t.empty_index [] = some used ∧
          out = "yes" :: toString (used.length + 1) :: CNF_to_string init ::
            trace_lines t.all used.reverse (needed_init t.all.length init.length) ∧
          (CNF_to_string init ::
            trace_lines t.all used.reverse (needed_init t.all.length init.length)).length
              = used.length + 1 ∧
          2 ≤ used.length + 1) ∧
      (∀ (kb_nodes : List Node) (st1 : PState) (alpha : Node) (st2 : PState)
          (init : List Clause) (t : Search),
          parse_sentences kb_line initial_state = some (kb_nodes, st1) →
          st1.syntax_error_flag = false →
          parse_sentences alpha_line st1 = some ([alpha], st2) →
          st2.syntax_error_flag = false →
          build_init kb_nodes alpha = some init →
          search (search_fuel init) (search_init init) = some t →
          (t.found = true → out.head? = some "yes") ∧ (t.found = false → out = ["no"]))) ∧
    main "A,A>B,B>C" "C" =
      some ["yes", "4", "A+(!A-B)+(!B-C)+!C", "A+(!A-B)+!B", "B+!B", "0"] := by
  refine ⟨fun kb_line alpha_line => ?_, by decide⟩
  obtain ⟨out, hout⟩ : ∃ out, main kb_line alpha_line = some out := by
    rcases main_cases kb_line alpha_line with h | ⟨kb_nodes, _, alpha, _, _, _, _, _, h⟩
    · exact ⟨_, h⟩
    · obtain ⟨_, _, _, _, _, _, _, hres⟩ := prove_spec kb_nodes alpha
      rw [h]
      rcases hres with ⟨_, hno⟩ | ⟨_, _, _, _, _, hyes, _⟩
      · exact ⟨_, hno⟩
      · exact ⟨_, hyes⟩
  refine ⟨out, hout, fun hyes => ?_, ?_⟩
  · obtain ⟨kb_nodes, st1, alpha, st2, init, t, h1, hf1, h2, hf2, hinit, hsearch, hf⟩ :=
      main_yes_parsed kb_line alpha_line out hout hyes
    obtain ⟨_, _, used, _, _, _, _, hcol, hne, _, hmain, _, _⟩ :=
      main_found _ _ _ _ _ _ _ _ h1 hf1 h2 hf2 hinit hsearch hf
    rw [hout] at hmain
    simp only [Option.some.injEq] at hmain
    refine ⟨kb_nodes, st1, alpha, st2, init, t, used, h1, hf1, h2, hf2, hinit, hsearch, hf,
      hcol, hmain, ?_, ?_⟩
    · simp [length_trace_lines]
    · have : 0 < used.length := List.length_pos.2 hne
      omega
  · intro kb_nodes st1 alpha st2 init t h1 hf1 h2 hf2 hinit hsearch
    constructor
    · intro hf
      obtain ⟨_, _, _, _, _, _, _, _, _, _, hmain, _, _⟩ :=
        main_found _ _ _ _ _ _ _ _ h1 hf1 h2 hf2 hinit hsearch hf
      rw [hout] at hmain
      simp only [Option.some.injEq] at hmain
      rw [hmain]
      rfl
    · intro hf
      have hmain := main_not_found _ _ _ _ _ _ _ _ h1 hf1 h2 hf2 hinit hsearch hf
      rw [hout] at hmain
      simpa using hmain

/-- C1: soundness of the verdict.  When both lines parse, the conclusion to one
sentence, `main` returns; if its output starts with `yes`, every assignment
that makes all knowledge-base sentences true makes the conclusion true; and when
the knowledge base does not entail the conclusion the output is `no` only. -/
theorem C1_sound (kb_line alpha_line : String) (kb_nodes : List Node) (st1 : PState)
    (alpha : Node) (st2 : PState)
    (h1 : parse_sentences kb_line initial_state = some (kb_nodes, st1))
    (hf1 : st1.syntax_error_flag = false)
    (h2 : parse_sentences alpha_line st1 = some ([alpha], st2))
    (hf2 : st2.syntax_error_flag = false) :
    ∃ out, main kb_line alpha_line = some out ∧
      (out.head? = some "yes" → Entails kb_nodes alpha) ∧
      (¬ Entails kb_nodes alpha → out = ["no"]) := by
  rw [main_eq_prove _ _ _ _ _ _ h1 hf1 h2 hf2]
  obtain ⟨init, t, hinit, _, hinv, _, _, hres⟩ := prove_spec kb_nodes alpha
  rcases hres with ⟨_, hno⟩ | ⟨hf, used, steps, _, _, hyes, _⟩
  · exact ⟨_, hno, fun h => by simp at h, fun _ => rfl⟩
  · have he := found_entails kb_nodes alpha init t hinit hinv hf
    exact ⟨_, hyes, fun _ => he, fun hn => absurd he hn⟩

/-- C1 at the knowledge base `A` and the conclusion `B`. -/
theorem C1_sound_witness :
    (parse_sentences "A" initial_state = some ([Node.Var "A"], initial_state) ∧
      parse_sentences "B" initial_state = some ([Node.Var "B"], initial_state)) ∧
    ∃ out, main "A" "B" = some out ∧
      (out.head? = some "yes" → Entails [Node.Var "A"] (Node.Var "B")) ∧
      (¬ Entails [Node.Var "A"] (Node.Var "B") → out = ["no"]) :=
  ⟨by decide,
   C1_sound "A" "B" [Node.Var "A"] initial_state (Node.Var "B") initial_state
     (by decide) rfl (by decide) rfl⟩

/-- C11: `Resolve` produces exactly one resolvent per complementary literal
pair.  `Resolve c1 c2` is the list, over the position pairs `(i, j)` in order of
`i` then `j` at which the two literals have the same atom name and opposite
negation flags, of the normalized clause `c1` without position `i` followed by
`c2` without position `j`; `Resolve({+A,+B}, {-A}) = [{+B}]`,
`Resolve({+A}, {-A})` is the empty clause alone, and without a complementary
pair the result is the empty list. -/
theorem C11_resolve_per_pair :
    (∀ c1 c2 : Clause, Resolve c1 c2 =
      (complementary_pairs c1 c2).map fun p =>
        normalize_clause (c1.eraseIdx p.1 ++ c2.eraseIdx p.2)) ∧
    (∀ c1 c2 : Clause, (Resolve c1 c2).length = (complementary_pairs c1 c2).length) ∧
    Resolve [⟨"A", false⟩, ⟨"B", false⟩] [⟨"A", true⟩] = [[⟨"B", false⟩]] ∧
    Resolve [⟨"A", false⟩] [⟨"A", true⟩] = [[]] ∧
    (∀ c1 c2 : Clause, (∀ a ∈ c1, ∀ b ∈ c2, ¬ (a.var = b.var ∧ a.neg ≠ b.neg)) →
      Resolve c1 c2 = []) := by
  refine ⟨Resolve_eq_by_pairs, fun c1 c2 => ?_, by decide, by decide, fun c1 c2 h => ?_⟩
  · rw [Resolve_eq_by_pairs, Resolve_by_pairs, List.length_map]
  · rw [Resolve_eq_by_pairs, Resolve_by_pairs, complementary_pairs_nil c1 c2 h]
    rfl

/-- C12: canonicalization is idempotent.  For every list of literals `c`,
`normalize_clause (normalize_clause c) = normalize_clause c`; a clause that is
strictly ascending in the literal order (name ascending, and for one name the
positive literal before the negated one) has no duplicate literal and is left
unchanged by `normalize_clause`. -/
theorem C12_normalize_idempotent :
    (∀ c : Clause, normalize_clause (normalize_clause c) = normalize_clause c) ∧
    (∀ c : Clause, Ascending Lit.less c → normalize_clause c = c ∧ c.Nodup) ∧
    (∀ a b : Lit, Lit.less a b = true ↔
      (string_less a.var b.var = true ∨ (a.var = b.var ∧ a.neg = false ∧ b.neg = true))) :=
  ⟨fun c => normalize_clause_of_ascending _ (normalize_clause_ascending c),
   fun c h => ⟨normalize_clause_of_ascending c h, h.nodup strictTotal_lit_less⟩,
   Lit.less_iff⟩

/-- C14: the normalizer always yields negation-normal form.  For every
expression tree `e`, `toNNF (eliminate_imp_iff e)` is defined: the recursion
returns within the fuel `nnf_weight`, and with any larger fuel returns the same
tree; the tree after `eliminate_imp_iff` has no `IMP` and no `IFF`, and the
result of `toNNF` has only `VAR`, `NOT`, `AND`, `OR` nodes, every `NOT` above
a `VAR`. -/
theorem C14_normalizer_nnf (e : Node) :
    (eliminate_imp_iff e).imp_free = true ∧
    ∃ m, toNNF (eliminate_imp_iff e) = some m ∧ m.is_nnf = true ∧
      ∀ fuel, nnf_weight (eliminate_imp_iff e) ≤ fuel →
        toNNF_go fuel (eliminate_imp_iff e) = some m := by
  obtain ⟨m, hm, _, hn, _⟩ := toNNF_eliminate e
  exact ⟨eliminate_imp_iff_free e, m, hm, hn, fun fuel hf => toNNF_go_mono _ _ _ _ hf hm⟩

/-- C19: the normalisation and CNF pipeline preserves meaning.  For every
expression tree `e` the pipeline returns a clause list; under every assignment
`v`, `e` is true exactly when every clause of the list holds a literal that is
true under `v`; the list is not empty and none of its clauses is empty; and no
initial clause built by `main` is the empty clause. -/
theorem C19_pipeline_meaning :
    (∀ e : Node, ∃ m, toNNF (eliminate_imp_iff e) = some m ∧
      (∀ v : String → Bool, e.eval v = true ↔
        ∀ c ∈ nodeToCNF m, ∃ l ∈ c, l.eval v = true) ∧
      nodeToCNF m ≠ [] ∧ ∀ c ∈ nodeToCNF m, c ≠ []) ∧
    (∀ (kb_nodes : List Node) (alpha : Node), ∃ init,
      build_init kb_nodes alpha = some init ∧ [] ∉ init) := by
  constructor
  · intro e
    obtain ⟨m, hm, em, hn, _⟩ := toNNF_eliminate e
    obtain ⟨s1, s2, _⟩ := nodeToCNF_spec m hn
    refine ⟨m, hm, fun v => ?_, nodeToCNF_ne_nil m hn, s2⟩
    rw [← em v, ← s1 v]
    constructor
    · intro h c hc; exact (clause_sat_iff v c).1 (h c hc)
    · intro h c hc; exact (clause_sat_iff v c).2 (h c hc)
  · intro kb_nodes alpha
    obtain ⟨init, hinit, _, hcl⟩ := build_init_spec kb_nodes alpha
    exact ⟨init, hinit, fun h => (hcl [] h).1 rfl⟩

/-! ## Claims on the registry of the search -/

/-- C15: registry uniqueness is an invariant of the search.  The initial clause
list built by `main` has no duplicate; at every point of the search (so after
every pass of the `while` loop, which is the point `n 0 0`) two records of the
registry that hold the same clause are the same record, and `seen` holds the
signature of every record; a resolvent whose signature is in `seen` is skipped;
the state returned by the search is the state after `search_fuel` passes. -/
theorem C15_registry_unique (kb_nodes : List Node) (alpha : Node) :
    ∃ init, build_init kb_nodes alpha = some init ∧ init.Nodup ∧
      (∀ (n k m i j : Nat) (di dj : Deriv),
        (search_point init n k m).all[i]? = some di →
        (search_point init n k m).all[j]? = some dj → di.clause = dj.clause → i = j) ∧
      (∀ (n k m : Nat), ∀ d ∈ (search_point init n k m).all,
        (search_point init n k m).seen.has (clause_to_string d.clause) = true) ∧
      (∀ n, search_point init n 0 0 = search_iter n (search_init init)) ∧
      (∀ (j head : Nat) (r : Clause) (rest : List Clause) (s : Search),
        s.seen.has (clause_to_string r) = true →
        add_resolvents j head (r :: rest) s = add_resolvents j head rest s) ∧
      ∃ t, search (search_fuel init) (search_init init) = some t ∧
        t = search_point init (search_fuel init) 0 0 := by
  obtain ⟨init, hinit, _, _⟩ := build_init_spec kb_nodes alpha
  have hnd := build_init_nodup kb_nodes alpha init hinit
  refine ⟨init, hinit, hnd, ?_, ?_, search_point_zero init, ?_, ?_⟩
  · intro n k m i j di dj hi hj h
    exact (search_point_uniq init hnd n k m).index_eq hi hj h
  · intro n k m d hd
    exact ((search_point_inv init n k m).seen_iff _).2 ⟨d, hd, rfl⟩
  · intro j head r rest s h
    rw [add_resolvents]
    simp only [h, if_true]
  · obtain ⟨t, ht, _⟩ := search_returns init
    exact ⟨t, ht, by rw [search_point_zero]; exact search_eq_iter _ _ _ ht⟩

/-- C16: the derivation graph is topologically ordered.  At every point of the
search a record at index `i` is either an initial record, with `i` below the
number of initial clauses, or a derived record, with `i` from that number on,
whose parents `(a, b)` satisfy `0 ≤ a < b < i` and whose clause is a resolvent
of the clause at `b` with the clause at `a`; when the empty clause has been
found, the backward walk `collect` from it returns.  The loop over the
resolvents of the pair `(j, head)` only appends derived records with the
parents `(j, head)`. -/
theorem C16_topological_order :
    (∀ (init : List Clause) (n k m i : Nat) (d : Deriv),
      (search_point init n k m).all[i]? = some d →
      (i < init.length ∧ d.is_initial = true ∧ d.parent = ⟨-1, -1⟩) ∨
      (init.length ≤ i ∧ d.is_initial = false ∧
        ∃ a b : Nat, d.parent = ⟨(a : Int), (b : Int)⟩ ∧ a < b ∧ b < i ∧
          d.clause ∈ Resolve (clause_at (search_point init n k m).all b)
            (clause_at (search_point init n k m).all a))) ∧
    (∀ (init : List Clause) (n k m : Nat), (search_point init n k m).found = true →
      ∃ used, collect (search_point init n k m).all (search_point init n k m).all.length
        (search_point init n k m).empty_index [] = some used) ∧
    (∀ (j head : Nat) (rs : List Clause) (s : Search),
      ∃ ext, (add_resolvents j head rs s).all = s.all ++ ext ∧
        ∀ d ∈ ext, d.is_initial = false ∧ d.parent = ⟨(j : Int), (head : Int)⟩ ∧
          d.clause ∈ rs) := by
  refine ⟨?_, ?_, add_resolvents_parents⟩
  · intro init n k m i d hd
    rcases (search_point_inv init n k m).record_cases i d hd with
      ⟨hi, rfl⟩ | ⟨hi, h1, a, b, h2⟩
    · exact Or.inl ⟨hi, rfl, rfl⟩
    · exact Or.inr ⟨hi, h1, a, b, h2⟩
  · intro init n k m hf
    obtain ⟨used, _, hcol, _⟩ := print_trace_spec (search_point_inv init n k m) hf
    exact ⟨used, hcol⟩

/-- C17: every clause held in the registry is canonical.  For every input, at
every point of the search, the clause of every record is strictly ascending in
the literal order, has no duplicate literal, and is left unchanged by
`normalize_clause`; `normalize_clause` always returns a strictly ascending
clause, and so every clause returned by `Resolve` is strictly ascending. -/
theorem C17_registry_canonical :
    (∀ (kb_nodes : List Node) (alpha : Node), ∃ init, build_init kb_nodes alpha = some init ∧
      (∀ c ∈ init, Ascending Lit.less c) ∧
      ∀ (n k m : Nat), ∀ d ∈ (search_point init n k m).all,
        Ascending Lit.less d.clause ∧ d.clause.Nodup ∧ normalize_clause d.clause = d.clause) ∧
    (∀ c : Clause, Ascending Lit.less (normalize_clause c)) ∧
    (∀ c1 c2 : Clause, ∀ r ∈ Resolve c1 c2, Ascending Lit.less r) := by
  refine ⟨fun kb_nodes alpha => ?_, normalize_clause_ascending,
    fun c1 c2 r hr => Resolve_ascending hr⟩
  obtain ⟨init, hinit, _, hcl⟩ := build_init_spec kb_nodes alpha
  refine ⟨init, hinit, fun c hc => (hcl c hc).2.1, fun n k m d hd => ?_⟩
  have hasc : Ascending Lit.less d.clause := by
    obtain ⟨i, hi⟩ := List.getElem?_of_mem hd
    rcases (search_point_inv init n k m).record_cases i d hi with ⟨hlt, rfl⟩ | ⟨_, _, a, b, _, _, _, hr⟩
    · exact (hcl _ (List.getElem_mem _)).2.1
    · exact Resolve_ascending hr
  exact ⟨hasc, hasc.nodup strictTotal_lit_less, normalize_clause_of_ascending _ hasc⟩

/-- C20: the proof trace ends in the contradiction.  `main` returns on every
pair of lines.  A run is successful when its output starts with `yes`; this is
the case exactly when both lines parse, the conclusion to one sentence, and the
search on their clauses finds the empty clause.  On every successful run the
empty clause is the last record of the registry, its step is the last element
of the reversed list of collected steps, and the last line printed, which is
the last line of the trace, is `0` or ends in `+0`: its last clause is the
empty clause.  For the knowledge base `A,A>B` and the conclusion `B` the lines
are `yes`, `3`, the initial CNF, `!B+B` and `0`. -/
theorem C20_trace_ends_in_contradiction :
    (∀ kb_line alpha_line : String, ∃ out, main kb_line alpha_line = some out ∧
      (out.head? = some "yes" →
        ∃ (kb_nodes : List Node) (st1 : PState) (alpha : Node) (st2 : PState)
          (init : List Clause) (t : Search) (idx : Nat) (p : Parent)
          (used : List (Int × Parent)) (line : String),
          parse_sentences kb_line initial_state = some (kb_nodes, st1) ∧
          st1.syntax_error_flag = false ∧
          parse_sentences alpha_line st1 = some ([alpha], st2) ∧
          st2.syntax_error_flag = false ∧
          build_init kb_nodes alpha = some init ∧
          search (search_fuel init) (search_init init) = some t ∧ t.found = true ∧
          t.empty_index = (idx : Int) ∧ idx + 1 = t.all.length ∧
          t.all[idx]? = some { clause := [], is_initial := false, parent := p } ∧
          collect t.all t.all.length t.empty_index [] = some used ∧
          used.reverse.getLast? = some (t.empty_index, p) ∧
          out = "yes" :: toString (used.length + 1) :: CNF_to_string init ::
            trace_lines t.all used.reverse (needed_init t.all.length init.length) ∧
          (trace_lines t.all used.reverse (needed_init t.all.length init.length)).getLast?
            = some line ∧
          out.getLast? = some line ∧
          (line = "0" ∨ ∃ pre, pre ≠ "" ∧ line = pre ++ "+" ++ "0")) ∧
      (∀ (kb_nodes : List Node) (st1 : PState) (alpha : Node) (st2 : PState)
          (init : List Clause) (t : Search),
          parse_sentences kb_line initial_state = some (kb_nodes, st1) →
          st1.syntax_error_flag = false →
          parse_sentences alpha_line st1 = some ([alpha], st2) →
          st2.syntax_error_flag = false →
          build_init kb_nodes alpha = some init →
          search (search_fuel init) (search_init init) = some t →
          t.found = true → out.head? = some "yes")) ∧
    main "A,A>B" "B" = some ["yes", "3", "A+(!A-B)+!B", "!B+B", "0"] := by
  refine ⟨fun kb_line alpha_line => ?_, by decide⟩
  obtain ⟨out, hout⟩ : ∃ out, main kb_line alpha_line = some out := by
    rcases main_cases kb_line alpha_line with h | ⟨kb_nodes, _, alpha, _, _, _, _, _, h⟩
    · exact ⟨_, h⟩
    · obtain ⟨_, _, _, _, _, _, _, hres⟩ := prove_spec kb_nodes alpha
      rw [h]
      rcases hres with ⟨_, hno⟩ | ⟨_, _, _, _, _, hyes, _⟩
      · exact ⟨_, hno⟩
      · exact ⟨_, hyes⟩
  refine ⟨out, hout, fun hyes => ?_, ?_⟩
  · obtain ⟨kb_nodes, st1, alpha, st2, init, t, h1, hf1, h2, hf2, hinit, hsearch, hf⟩ :=
      main_yes_parsed kb_line alpha_line out hout hyes
    obtain ⟨idx, p, used, line, k1, k2, k3, hcol, _, k5, hmain, k7, k8⟩ :=
      main_found _ _ _ _ _ _ _ _ h1 hf1 h2 hf2 hinit hsearch hf
    rw [hout] at hmain
    simp only [Option.some.injEq] at hmain
    refine ⟨kb_nodes, st1, alpha, st2, init, t, idx, p, used, line, h1, hf1, h2, hf2, hinit,
      hsearch, hf, k1, k2, k3, hcol, k5, hmain, k7, ?_, k8⟩
    obtain ⟨pre, hpre⟩ : ∃ pre, trace_lines t.all used.reverse
        (needed_init t.all.length init.length) = pre ++ [line] := by
      rw [List.getLast?_eq_some_iff] at k7
      exact k7
    rw [hmain, hpre]
    have : ("yes" :: toString (used.length + 1) :: CNF_to_string init :: (pre ++ [line])) =
        ("yes" :: toString (used.length + 1) :: CNF_to_string init :: pre) ++ [line] := by
      simp
    rw [this, List.getLast?_concat]
  · intro kb_nodes st1 alpha st2 init t h1 hf1 h2 hf2 hinit hsearch hf
    obtain ⟨_, _, _, _, _, _, _, _, _, _, hmain, _, _⟩ :=
      main_found _ _ _ _ _ _ _ _ h1 hf1 h2 hf2 hinit hsearch hf
    rw [hout] at hmain
    simp only [Option.some.injEq] at hmain
    rw [hmain]
    rfl

/-- C13, as worded, fails: the tree `((!A | B) & (A | C)) | (B & C)` is in
negation-normal form, and its clause list holds `!A-B` in front of `A-C`, two
clauses of size 2, although literal by literal `A-C` comes first (`A` before
`!A`); the list is not sorted for the literal-by-literal order. -/
theorem C13_not_literal_by_literal :
    cnf_order_tree.is_nnf = true ∧
    nodeToCNF cnf_order_tree =
      [[⟨"A", true⟩, ⟨"B", false⟩], [⟨"A", false⟩, ⟨"C", false⟩],
       [⟨"A", false⟩, ⟨"B", false⟩, ⟨"C", false⟩], [⟨"A", true⟩, ⟨"B", false⟩, ⟨"C", false⟩]] ∧
    spec_clause_less [⟨"A", false⟩, ⟨"C", false⟩] [⟨"A", true⟩, ⟨"B", false⟩] = true ∧
    ¬ (nodeToCNF cnf_order_tree).Pairwise (fun a b => spec_clause_less b a = false) := by
  decide

/-- C13, amended: for every tree `Or(L, R)` the clause list returned by
`nodeToCNF` is strictly ascending for the comparator of the code, which orders
two clauses by size, then, at equal size, by the sequence of their names (the
first position at which the names differ decides, name ascending), then, for
equal names, by the sequence of their negation flags (the first position at
which the flags differ decides, positive before negated). -/
theorem C13_cnf_order :
    (∀ l r : Node, (nodeToCNF (.Or l r)).Pairwise (fun a b => clause_less a b = true)) ∧
    (∀ a b : Clause, clause_less a b =
      if a.length ≠ b.length then decide (a.length < b.length)
      else if a.map (fun l => l.var) ≠ b.map (fun l => l.var) then
        lex_less string_less (a.map fun l => l.var) (b.map fun l => l.var)
      else lex_less neg_less (a.map fun l => l.neg) (b.map fun l => l.neg)) ∧
    (∀ a b : Clause, clause_less a b = true → clause_less b a = false) :=
  ⟨nodeToCNF_or_ascending, clause_less_eq,
   fun a b h => strictTotal_clause_less.asymm a b h⟩

/-- C18, as worded, fails: the lines `A,` and `A,B,` end with a comma, and
`parse_sentences` returns their sentences with the error flag clear; with the
knowledge base `A,` and the conclusion `A` the program prints `yes`. -/
theorem C18_trailing_comma_no_error :
    (parse_sentences "A," initial_state).map (fun r => (r.1, r.2.syntax_error_flag))
      = some ([Node.Var "A"], false) ∧
    (parse_sentences "A,B," initial_state).map (fun r => (r.1, r.2.syntax_error_flag))
      = some ([Node.Var "A", Node.Var "B"], false) ∧
    main "A," "A" = some ["yes", "2", "A+!A", "0"] := by
  decide

/-- C18, amended: a sentence list may end with a comma.  For every line made of
one or more valid sentences `ws`, a comma behind each of them (`A,` or `A,B,`),
`parse_sentences` returns the trees of these sentences and leaves the error flag
as it was: after the last comma the loop condition `toktype != TOK_END` is
tested again and ends the loop. -/
theorem C18_trailing_comma_accepted (st : PState) (ws : List String) (es : List Node)
    (hne : ws ≠ []) (hv : List.Forall₂ (ValidSentence st) ws es) :
    ∃ st2, parse_sentences (comma_line ws) st = some (es, st2) ∧
      st2.syntax_error_flag = st.syntax_error_flag :=
  parse_comma_line st ws es hne hv

/-- C18, amended, at the line `A,B>C,` made of the sentences `A` and `B>C`. -/
theorem C18_trailing_comma_accepted_witness :
    (["A", "B>C"] ≠ [] ∧
      List.Forall₂ (ValidSentence initial_state) ["A", "B>C"]
        [Node.Var "A", Node.Imp (Node.Var "B") (Node.Var "C")] ∧
      comma_line ["A", "B>C"] = "A,B>C,") ∧
    ∃ st2, parse_sentences (comma_line ["A", "B>C"]) initial_state =
        some ([Node.Var "A", Node.Imp (Node.Var "B") (Node.Var "C")], st2) ∧
      st2.syntax_error_flag = initial_state.syntax_error_flag :=
  ⟨⟨by simp,
    List.Forall₂.cons
      (Exists.intro 6 (Exists.intro initial_state ⟨by decide, rfl, rfl, rfl⟩))
      (List.Forall₂.cons
        (Exists.intro 6 (Exists.intro initial_state ⟨by decide, rfl, rfl, rfl⟩))
        List.Forall₂.nil),
    by decide⟩,
   C18_trailing_comma_accepted initial_state ["A", "B>C"]
     [Node.Var "A", Node.Imp (Node.Var "B") (Node.Var "C")] (by simp)
     (List.Forall₂.cons
      (Exists.intro 6 (Exists.intro initial_state ⟨by decide, rfl, rfl, rfl⟩))
      (List.Forall₂.cons
        (Exists.intro 6 (Exists.intro initial_state ⟨by decide, rfl, rfl, rfl⟩))
        List.Forall₂.nil))⟩

end ResolutionProver
